import Mathlib

/-!
# A verification development for `ext/radix.c` (ruby-radix)

`radix.c` is the store: two radix trees (IPv4, IPv6), a generation counter that
guards enumerations, and the public operations of the Ruby class `Radix`.
The radix-tree library it calls (`radixlib.h`: `radix_lookup`,
`radix_search_exact`, `radix_search_best`, `radix_remove`, `RADIX_WALK`,
`prefix_pton`, `prefix_ntop`) is not among the sources, so that layer is
modelled from the specification; everything named `rb_radix_*`, `GetRadix`,
`PICKRT`, `object_node_add`, `init_radixdata`, ... follows `radix.c` line by line.

A C pointer to a tree node, used within one operation, is a path from the root
(`false` = left child, `true` = right child).  A pointer that a walk keeps while
the block of an enumeration runs is a `node_ptr`, followed in the tree as the block
left it.  A `VALUE` is the host's machine word; the word `0` is both the C null
pointer and Ruby's `false`.
-/

namespace Radix
/-! ## Words, families, prefixes -/

/-- The host's machine word: an object reference or an immediate value. -/
abbrev VALUE := Nat

/-- Ruby's `false`, the zero word (`ruby.h`). -/
def Qfalse : VALUE := 0

/-- Ruby's `true` (`ruby.h`, the value of the 1.9 series); only `Qtrue ≠ 0` is used. -/
def Qtrue : VALUE := 2

/-- Address family of IPv4 (`sys/socket.h`). -/
def AF_INET : Nat := 2

/-- Address family of IPv6 (`sys/socket.h`, the Linux value). -/
def AF_INET6 : Nat := 10

/-- Modelled from the spec: the type `prefix_t` of the absent `radixlib.h`
(spec §3, Prefix): a family, a bit length, and the address as a fixed-width bit
vector, most significant bit first (32 bits for IPv4, 128 for IPv6). -/
structure prefix_t where
  family : Nat
  bitlen : Nat
  add : List Bool
deriving DecidableEq, Repr

/-- Modelled from the spec: the bit test of the absent `radixlib.h`
(`BIT_TEST` on the address bytes): bit `i` of the address, counted from the
most significant one. -/
def bit_test (p : prefix_t) (i : Nat) : Bool := p.add.getD i false

/-- Modelled from the spec: the first bit position below `n` at which two
addresses differ, `n` when they agree on their first `n` bits (spec §4.2, "the
first differing bit position"); part of the absent `radix_lookup`. -/
def differ_bit (p q : prefix_t) : Nat → Nat
  | 0 => 0
  | n + 1 =>
    if differ_bit p q n < n then differ_bit p q n
    else if bit_test p n = bit_test q n then n + 1 else n

/-- Modelled from the spec: `comp_with_mask` of the absent library: two
addresses agree on their first `n` bits (spec §4.2: "address equality is over the
masked/normalized bits only"). -/
def comp_with_mask (p q : prefix_t) (n : Nat) : Bool := differ_bit p q n == n

/-! ## The radix tree (modelled from the specification) -/

/-- Modelled from the spec: `radix_node_t` of the absent `radixlib.h` (spec §3,
TrieNode): a node records a bit-test position and owns a left and a right child; a
terminal node also owns a prefix and the associated value word (`data`), a branch
node has no prefix.  `null` is the absent child. -/
inductive radix_node_t where
  | null : radix_node_t
  | node (bit : Nat) (pfx : Option prefix_t) (data : VALUE) (l r : radix_node_t) : radix_node_t
deriving DecidableEq, Repr

/-- Modelled from the spec: `radix_tree_t` of the absent `radixlib.h` (spec §4.2,
"root pointer, possibly absent for an empty tree").  The node count of the spec is
read by nothing in `radix.c` and is not kept. -/
structure radix_tree_t where
  head : radix_node_t
deriving DecidableEq, Repr

/-- Modelled from the spec: `New_Radix` of the absent library: an empty tree. -/
def New_Radix : radix_tree_t := ⟨radix_node_t.null⟩

/-- A terminal leaf for `p`, with no value yet (`data` is the null word). -/
def new_leaf (p : prefix_t) : radix_node_t :=
  radix_node_t.node p.bitlen (some p) 0 radix_node_t.null radix_node_t.null

/-- A stored prefix of the subtree, the first in walk order: what a descent
compares the target against (branch nodes store no address). -/
def rep : radix_node_t → Option prefix_t
  | radix_node_t.null => none
  | radix_node_t.node _ (some p) _ _ _ => some p
  | radix_node_t.node _ none _ l r =>
    match rep l with
    | some p => some p
    | none => rep r

/-- The first position at which the target `p` leaves the subtree `t` whose root
tests bit `b`: the first differing bit against a stored prefix of `t`, capped by
`b` and by the target's length. -/
def diverge (t : radix_node_t) (b : Nat) (p : prefix_t) : Nat :=
  match rep t with
  | some q => differ_bit p q (min b p.bitlen)
  | none => min b p.bitlen

/-- The target `p` is shorter than everything in the subtree `t` and agrees with
it: a new terminal for `p` goes above `t`, which hangs on the side its bit at the
length of `p` says. -/
def attach_above (t : radix_node_t) (p : prefix_t) : radix_node_t × List Bool :=
  match rep t with
  | some q =>
    if bit_test q p.bitlen then (radix_node_t.node p.bitlen (some p) 0 radix_node_t.null t, [])
    else (radix_node_t.node p.bitlen (some p) 0 t radix_node_t.null, [])
  | none => (radix_node_t.node p.bitlen (some p) 0 t radix_node_t.null, [])

/-- The target `p` leaves the subtree `t` at bit `k`: a new branch node testing bit
`k`, with a new terminal for `p` on one side and `t` on the other. -/
def attach_branch (t : radix_node_t) (p : prefix_t) (k : Nat) : radix_node_t × List Bool :=
  if bit_test p k then (radix_node_t.node k none 0 t (new_leaf p), [true])
  else (radix_node_t.node k none 0 (new_leaf p) t, [false])

/-- The prefix of the node found for `p`: the one it has, or `p` when the node was a
branch node. -/
def own_or (pre : Option prefix_t) (p : prefix_t) : Option prefix_t :=
  match pre with
  | some q => some q
  | none => some p

/-- Modelled from the spec: `radix_lookup` of the absent library (spec §4.2,
`insert_or_find`): "descends comparing bits of the target address against stored
branch-test bits; when the target diverges from the existing structure, creates a
new branch node at the first differing bit position and attaches a new terminal
there; if a terminal already exists for the exact (address, bitlen), returns it
unchanged".  Returns the new tree and the pointer (path) to the terminal. A new
terminal has the null word as `data`. -/
def radix_lookup : radix_node_t → prefix_t → radix_node_t × List Bool
  | radix_node_t.null, p => (new_leaf p, [])
  | radix_node_t.node b pre d l r, p =>
    if diverge (radix_node_t.node b pre d l r) b p < b then
      if diverge (radix_node_t.node b pre d l r) b p = p.bitlen then
        attach_above (radix_node_t.node b pre d l r) p
      else
        attach_branch (radix_node_t.node b pre d l r) p
          (diverge (radix_node_t.node b pre d l r) b p)
    else if p.bitlen = b then
      (radix_node_t.node b (own_or pre p) d l r, [])
    else if bit_test p b then
      ((radix_node_t.node b pre d l (radix_lookup r p).1), true :: (radix_lookup r p).2)
    else
      ((radix_node_t.node b pre d (radix_lookup l p).1 r), false :: (radix_lookup l p).2)

/-- Modelled from the spec: `radix_search_exact` of the absent library (spec
§4.2): "descends to the node whose stored (address, bitlen) equals the target
exactly; returns absent otherwise".  The result is the pointer to that node. -/
def radix_search_exact : radix_node_t → prefix_t → Option (List Bool)
  | radix_node_t.null, _ => none
  | radix_node_t.node b pre _ l r, p =>
    if b < p.bitlen then
      if bit_test p b then (radix_search_exact r p).map (fun w => true :: w)
      else (radix_search_exact l p).map (fun w => false :: w)
    else if p.bitlen < b then none
    else
      match pre with
      | some q => if comp_with_mask q p p.bitlen then some [] else none
      | none => none

/-- Modelled from the spec: `radix_search_best` of the absent library (spec §4.2):
"descends the tree following the target's bits; among all terminal nodes
encountered along the descent path whose stored bitlen is ≤ the target's bitlen
and whose stored bits match the corresponding prefix of the target's address,
returns the one with the greatest bitlen".  The deepest such node is the longest. -/
def radix_search_best : radix_node_t → prefix_t → Option (List Bool)
  | radix_node_t.null, _ => none
  | radix_node_t.node b pre _ l r, p =>
    match (if b < p.bitlen then
            (if bit_test p b then (radix_search_best r p).map (fun w => true :: w)
             else (radix_search_best l p).map (fun w => false :: w))
           else none) with
    | some w => some w
    | none =>
      match pre with
      | some q =>
        if q.bitlen ≤ p.bitlen ∧ comp_with_mask q p q.bitlen = true then some [] else none
      | none => none

/-- A branch node left without value and without children is pruned. -/
def prune : radix_node_t → radix_node_t
  | radix_node_t.node _ none _ radix_node_t.null radix_node_t.null => radix_node_t.null
  | t => t

/-- Modelled from the spec: `radix_remove` of the absent library, given the
pointer to the node (spec §4.2, `remove`): "detaches its value; if the node has no
children it is physically pruned from the tree, and if pruning leaves its former
parent branch node childless-and-valueless, that parent is pruned too
(recursively upward)". -/
def radix_remove : radix_node_t → List Bool → radix_node_t
  | radix_node_t.null, _ => radix_node_t.null
  | radix_node_t.node b _ _ l r, [] => prune (radix_node_t.node b none 0 l r)
  | radix_node_t.node b pre d l r, false :: w =>
    prune (radix_node_t.node b pre d (radix_remove l w) r)
  | radix_node_t.node b pre d l r, true :: w =>
    prune (radix_node_t.node b pre d l (radix_remove r w))

/-- Modelled from the spec: the traversal `RADIX_WALK` of the absent
`radixlib.h` (spec §4.2, `walk`): the terminal nodes in pre-order (node, left
subtree, right subtree), each with its prefix and its `data` word.  Whether
`data` is null is tested by the loop bodies of `radix.c`. -/
def RADIX_WALK : radix_node_t → List (prefix_t × VALUE)
  | radix_node_t.null => []
  | radix_node_t.node _ (some p) d l r => (p, d) :: (RADIX_WALK l ++ RADIX_WALK r)
  | radix_node_t.node _ none _ l r => RADIX_WALK l ++ RADIX_WALK r

/-- The pointer a walk keeps to a tree node while the block of an enumeration runs.
The C keeps the node's address.  Here a node is identified by the bit it tests and by
the address of a prefix stored at or below it: no operation changes either while the
node stays in the tree, whatever is attached above or below it. -/
structure node_ptr where
  bit : Nat
  key : prefix_t
deriving DecidableEq, Repr

/-- The pointer to the root node of a subtree; `none` is the null pointer. -/
def ptr_of : radix_node_t → Option node_ptr
  | radix_node_t.null => none
  | radix_node_t.node b pre d l r =>
    match rep (radix_node_t.node b pre d l r) with
    | some q => some ⟨b, q⟩
    | none => some ⟨b, ⟨0, 0, []⟩⟩

/-- The node at the root of `t` is the one the pointer `c` names: the prefixes it
holds have the first `c.bit` bits of `c.key`. -/
def names (c : node_ptr) (t : radix_node_t) : Bool :=
  match rep t with
  | some q => comp_with_mask q c.key c.bit
  | none => true

/-- Reading through a pointer kept by a walk, in the tree as it is now: the fields
`prefix`, `data`, `l` and `r` of the node that tests bit `c.bit` on the way of
`c.key`; `none` when that node is no longer in the tree (it has been freed: the C
reads freed memory there). -/
def deref : radix_node_t → node_ptr →
    Option (Option prefix_t × VALUE × radix_node_t × radix_node_t)
  | radix_node_t.null, _ => none
  | radix_node_t.node b pre d l r, c =>
    if b < c.bit then
      if bit_test c.key b then deref r c else deref l c
    else if b = c.bit ∧ names c (radix_node_t.node b pre d l r) = true then some (pre, d, l, r)
    else none

/-- Modelled from the spec: the step `RADIX_WALK_END` of the absent `radixlib.h`,
which takes the walk of spec §4.2 (`walk`, a "lazy sequence" in pre-order) from the
node just visited, whose children are `l` and `r`, to the next one: the left child,
the right child being pushed on the stack `Xsp` if there is one too; else the right
child; else the node popped from the stack; else null, which ends the walk.  The
result is the next node `Xrn` and the stack. -/
def RADIX_WALK_END (l r : radix_node_t) (Xsp : List node_ptr) :
    Option node_ptr × List node_ptr :=
  match ptr_of l with
  | some cl =>
    match ptr_of r with
    | some cr => (some cl, cr :: Xsp)
    | none => (some cl, Xsp)
  | none =>
    match ptr_of r with
    | some cr => (some cr, Xsp)
    | none =>
      match Xsp with
      | c :: rest => (some c, rest)
      | [] => (none, [])

/-- Reading through a node pointer: `node->prefix` and `node->data` of the
terminal node at a path; `none` when the path leads to no terminal node. -/
def node_at : radix_node_t → List Bool → Option (prefix_t × VALUE)
  | radix_node_t.null, _ => none
  | radix_node_t.node _ (some p) d _ _, [] => some (p, d)
  | radix_node_t.node _ none _ _ _, [] => none
  | radix_node_t.node _ _ _ l _, false :: w => node_at l w
  | radix_node_t.node _ _ _ _ r, true :: w => node_at r w

/-- Writing through a node pointer: the assignment `node->data = v`. -/
def set_data : radix_node_t → List Bool → VALUE → radix_node_t
  | radix_node_t.null, _, _ => radix_node_t.null
  | radix_node_t.node b pre _ l r, [], v => radix_node_t.node b pre v l r
  | radix_node_t.node b pre d l r, false :: w, v => radix_node_t.node b pre d (set_data l w v) r
  | radix_node_t.node b pre d l r, true :: w, v => radix_node_t.node b pre d l (set_data r w v)

/-! ## The prefix codec (modelled from the specification) -/

/-- The value of a decimal digit. -/
def dec_digit (c : Char) : Option Nat :=
  if '0'.toNat ≤ c.toNat ∧ c.toNat ≤ '9'.toNat then some (c.toNat - '0'.toNat) else none

/-- The value of a hexadecimal digit. -/
def hex_digit (c : Char) : Option Nat :=
  if '0'.toNat ≤ c.toNat ∧ c.toNat ≤ '9'.toNat then some (c.toNat - '0'.toNat)
  else if 'a'.toNat ≤ c.toNat ∧ c.toNat ≤ 'f'.toNat then some (c.toNat - 'a'.toNat + 10)
  else if 'A'.toNat ≤ c.toNat ∧ c.toNat ≤ 'F'.toNat then some (c.toNat - 'A'.toNat + 10)
  else none

/-- The digits of a number in a base, read left to right on top of `acc`. -/
def read_digits (base : Nat) (digit : Char → Option Nat) : List Char → Nat → Option Nat
  | [], acc => some acc
  | c :: cs, acc =>
    match digit c with
    | some v => read_digits base digit cs (acc * base + v)
    | none => none

/-- A non-empty run of digits as a number. -/
def read_number (base : Nat) (digit : Char → Option Nat) (cs : List Char) : Option Nat :=
  match cs with
  | [] => none
  | _ :: _ => read_digits base digit cs 0

/-- The fields of a text between occurrences of a separator. -/
def split_on (sep : Char) : List Char → List (List Char)
  | [] => [[]]
  | c :: cs =>
    if c = sep then [] :: split_on sep cs
    else
      match split_on sep cs with
      | [] => [[c]]
      | g :: gs => (c :: g) :: gs

/-- The `w` low bits of a number, most significant first. -/
def to_bits : Nat → Nat → List Bool
  | 0, _ => []
  | w + 1, n => decide (n / 2 ^ w % 2 = 1) :: to_bits w n

/-- The number whose binary digits, most significant first, are on top of `acc`. -/
def of_bits : List Bool → Nat → Nat
  | [], acc => acc
  | b :: bs, acc => of_bits bs (2 * acc + (if b then 1 else 0))

/-- All fields of a list read as numbers below a bound. -/
def read_fields (base : Nat) (digit : Char → Option Nat) (maxlen bound : Nat) :
    List (List Char) → Option (List Nat)
  | [] => some []
  | g :: gs =>
    match read_number base digit g, read_fields base digit maxlen bound gs with
    | some v, some vs => if g.length ≤ maxlen ∧ v < bound then some (v :: vs) else none
    | _, _ => none

/-- Dotted-quad text: four decimal fields, each at most 255. -/
def read_ipv4 (cs : List Char) : Option (List Bool) :=
  match read_fields 10 dec_digit 3 256 (split_on '.' cs) with
  | some [a, b, c, d] => some (to_bits 8 a ++ to_bits 8 b ++ to_bits 8 c ++ to_bits 8 d)
  | _ => none

/-- The text before and after the first `::`, when there is one. -/
def split_gap : List Char → Option (List Char × List Char)
  | [] => none
  | [_] => none
  | c :: d :: cs =>
    if c = ':' ∧ d = ':' then some ([], cs)
    else
      match split_gap (d :: cs) with
      | some (a, b) => some (c :: a, b)
      | none => none

/-- Colon-separated hexadecimal fields of at most four digits; the empty text has none. -/
def read_groups (cs : List Char) : Option (List Nat) :=
  match cs with
  | [] => some []
  | _ :: _ => read_fields 16 hex_digit 4 65536 (split_on ':' cs)

/-- The bits of a list of 16-bit groups. -/
def groups_bits : List Nat → List Bool
  | [] => []
  | g :: gs => to_bits 16 g ++ groups_bits gs

/-- Colon-hex text: eight groups, or fewer around one `::` that stands for the
missing zero groups. -/
def read_ipv6 (cs : List Char) : Option (List Bool) :=
  match split_gap cs with
  | some (a, b) =>
    match read_groups a, read_groups b with
    | some ga, some gb =>
      if ga.length + gb.length ≤ 7 then
        some (groups_bits (ga ++ List.replicate (8 - (ga.length + gb.length)) 0 ++ gb))
      else none
    | _, _ => none
  | none =>
    match read_groups cs with
    | some gs => if gs.length = 8 then some (groups_bits gs) else none
    | none => none

/-- The address bits masked to a length: the bits from `n` on are zero (spec §3:
the don't-care bits are normalized before comparison or storage). -/
def mask_bits : List Bool → Nat → List Bool
  | [], _ => []
  | _ :: bs, 0 => false :: mask_bits bs 0
  | b :: bs, n + 1 => b :: mask_bits bs n

/-- The address part and the optional `/N` part of a text. -/
def split_len (cs : List Char) : Option (List Char × Option Nat) :=
  match split_on '/' cs with
  | [a] => some (a, none)
  | [a, n] =>
    match read_number 10 dec_digit n with
    | some v => some (a, some v)
    | none => none
  | _ => none

/-- Modelled from the spec: `prefix_pton` of the absent library (spec §4.1,
`parse`): dotted-quad or colon-hex text, the length given as `/N` in the text or
as the separate argument `len` (`-1` when absent), the full width of the family
when neither is given; `none` (the C null) when the address cannot be read or the
length is negative or exceeds the width (32 for IPv4, 128 for IPv6).  Giving both
lengths is outside the caller's contract and is refused here. -/
def prefix_pton (text : String) (len : Int) : Option prefix_t :=
  match split_len text.data with
  | none => none
  | some (a, n) =>
    match (match n with
           | some v => if len = -1 then some (some v) else none
           | none => if len = -1 then some none else if 0 ≤ len then some (some len.toNat)
                     else none) with
    | none => none
    | some m =>
      match read_ipv4 a with
      | some bits =>
        if m.getD 32 ≤ 32 then some ⟨AF_INET, m.getD 32, mask_bits bits (m.getD 32)⟩ else none
      | none =>
        match read_ipv6 a with
        | some bits =>
          if m.getD 128 ≤ 128 then some ⟨AF_INET6, m.getD 128, mask_bits bits (m.getD 128)⟩
          else none
        | none => none

/-- The decimal digits of a number below `10 ^ fuel` (at least one digit). -/
def dec_chars : Nat → Nat → List Char
  | 0, _ => []
  | fuel + 1, n =>
    if n < 10 then [Char.ofNat (48 + n)]
    else dec_chars fuel (n / 10) ++ [Char.ofNat (48 + n % 10)]

/-- A hexadecimal digit as a lower-case character. -/
def hex_char (v : Nat) : Char := if v < 10 then Char.ofNat (48 + v) else Char.ofNat (87 + v)

/-- The hexadecimal digits of a number below `16 ^ fuel`, without leading zeros. -/
def hex_chars : Nat → Nat → List Char
  | 0, _ => []
  | fuel + 1, n =>
    if n < 16 then [hex_char n]
    else hex_chars fuel (n / 16) ++ [hex_char (n % 16)]

/-- The fields of a bit vector, `w` bits each, as numbers. -/
def bit_fields (w : Nat) : Nat → List Bool → List Nat
  | 0, _ => []
  | k + 1, bs => of_bits (bs.take w) 0 :: bit_fields w k (bs.drop w)

/-- Texts joined with a separator character. -/
def join_with (sep : Char) : List (List Char) → List Char
  | [] => []
  | [a] => a
  | a :: b :: rest => a ++ sep :: join_with sep (b :: rest)

/-- The number of leading zero groups. -/
def zero_run : List Nat → Nat
  | [] => 0
  | g :: gs => if g = 0 then zero_run gs + 1 else 0

/-- The start and length of the longest run of zero groups from position `i` on,
the leftmost among the longest; `best` is the longest found so far. -/
def best_run : List Nat → Nat → Nat × Nat → Nat × Nat
  | [], _, best => best
  | g :: gs, i, best =>
    if best.2 < zero_run (g :: gs) then best_run gs (i + 1) (i, zero_run (g :: gs))
    else best_run gs (i + 1) best

/-- An IPv6 address as text: lower-case groups without leading zeros, the longest
run of two or more zero groups written `::`. -/
def ipv6_chars (bits : List Bool) : List Char :=
  if 2 ≤ (best_run (bit_fields 16 8 bits) 0 (0, 0)).2 then
    join_with ':' (((bit_fields 16 8 bits).take (best_run (bit_fields 16 8 bits) 0 (0, 0)).1).map
      (hex_chars 4))
    ++ ':' :: ':' ::
    join_with ':' (((bit_fields 16 8 bits).drop
      ((best_run (bit_fields 16 8 bits) 0 (0, 0)).1
        + (best_run (bit_fields 16 8 bits) 0 (0, 0)).2)).map (hex_chars 4))
  else join_with ':' ((bit_fields 16 8 bits).map (hex_chars 4))

/-- An IPv4 address as dotted-quad text. -/
def ipv4_chars (bits : List Bool) : List Char :=
  join_with '.' ((bit_fields 8 4 bits).map (dec_chars 3))

/-- Modelled from the spec: `prefix_addr_ntop` of the absent library (spec
§4.1, `render_address`): the address only, no length suffix. -/
def prefix_addr_ntop (p : prefix_t) : String :=
  String.mk (if p.family = AF_INET then ipv4_chars p.add else ipv6_chars p.add)

/-- Modelled from the spec: `prefix_ntop` of the absent library (spec §4.1,
`render`): the canonical `"address/length"` form. -/
def prefix_ntop (p : prefix_t) : String :=
  String.mk ((if p.family = AF_INET then ipv4_chars p.add else ipv6_chars p.add)
    ++ '/' :: dec_chars 3 p.bitlen)

/-! ## The store (`radix.c`) -/

/-- The modulus of `unsigned int`, the type of `gen_id`. -/
def UINT_MOD : Nat := 4294967296

/-- The `struct radixdata` of `radix.c`: the IPv4 tree `rt[RT_IPV4]`, the IPv6 tree
`rt[RT_IPV6]` (a null pointer is `none`) and the counter `gen_id`. -/
structure radixdata where
  rt4 : Option radix_tree_t
  rt6 : Option radix_tree_t
  gen_id : Nat
deriving DecidableEq, Repr

/-- The `struct radixnode` of `radix.c`, the entry handed to the caller: a copy of
the node's prefix and the value word. -/
structure radixnode where
  pfx : prefix_t
  msg : VALUE
deriving DecidableEq, Repr

/-- The ways a call ends other than by returning: the `rb_eRuntimeError`s raised by
`radix.c`, told apart by their message ("closed Radix tree", "Radix tree modified
during iteration", "Invalid address format"), and an exception `exc` raised by the
block of an enumeration, which passes through the enumeration unchanged.  The last
two are not errors of the program but the ends of a walk this development says
nothing about: `freed_node`, the walk is about to read a node that the block has
freed (the C reads freed memory, its behaviour is undefined); `out_of_fuel`, the
walk has made as many passes of its loop as it was allowed. -/
inductive Error where
  | closed_radix : Error
  | modified : Error
  | invalid_address : Error
  | from_block (exc : VALUE) : Error
  | freed_node : Error
  | out_of_fuel : Error
deriving DecidableEq, Repr

/-- The outcome of a call: the value returned or the error raised. -/
inductive Ret (α : Type) where
  | ok : α → Ret α
  | raise : Error → Ret α
deriving DecidableEq, Repr

/-- `Data_Get_Struct(obj, struct radixdata, radixp)`: the struct of a store object;
`radix_s_alloc` sets it when the object is made and nothing resets it. -/
def Data_Get_Struct (obj : radixdata) : Option radixdata := some obj

/-- The macro `GetRadix` with `closed_radix`: raises "closed Radix tree" when the
struct or one of the two trees is null; otherwise the two trees are at hand. -/
def GetRadix (radixp : Option radixdata) : Ret (radix_tree_t × radix_tree_t) :=
  match radixp with
  | none => Ret.raise Error.closed_radix
  | some r =>
    match r.rt4 with
    | none => Ret.raise Error.closed_radix
    | some t4 =>
      match r.rt6 with
      | none => Ret.raise Error.closed_radix
      | some t6 => Ret.ok (t4, t6)

/-- The function `init_radixdata`: two new empty trees, `gen_id = 0`. -/
def init_radixdata (_radixp : radixdata) : radixdata :=
  ⟨some New_Radix, some New_Radix, 0⟩

/-- The function `newRadixData`: a freshly allocated struct, initialised. -/
def newRadixData : radixdata := init_radixdata ⟨none, none, 0⟩

/-- The function `free_radixdata0`: both trees are destroyed (`Destroy_Radix`).
The C leaves the two pointers dangling; the released trees are `none` here. -/
def free_radixdata0 (radixp : radixdata) : radixdata :=
  ⟨none, none, radixp.gen_id⟩

/-- The function `args_to_prefix` on a string address: raises "Invalid address
format" when `prefix_pton` fails, returns null for a family that is neither
`AF_INET` nor `AF_INET6`.  (Its callers pass `RSTRING_PTR` of a string, which is
never null, so the branch "No address specified" is not represented.) -/
def args_to_prefix (addr : String) (prefixlen : Int) : Ret (Option prefix_t) :=
  match prefix_pton addr prefixlen with
  | none => Ret.raise Error.invalid_address
  | some p =>
    if p.family ≠ AF_INET ∧ p.family ≠ AF_INET6 then Ret.ok none else Ret.ok (some p)

/-- The `plen` of the operations: `FIX2INT(v_plen)` when the length argument is
given, `-1` otherwise. -/
def plen_of (v_plen : Option Int) : Int :=
  match v_plen with
  | some n => n
  | none => -1

/-- The macro `PICKRT`: the IPv6 tree for an `AF_INET6` prefix, the IPv4 tree
otherwise. -/
def PICKRT (p : prefix_t) (rt : radix_tree_t × radix_tree_t) : radix_tree_t :=
  if p.family = AF_INET6 then rt.2 else rt.1

/-- The effect on the struct of a change made in place to the tree `PICKRT` selects. -/
def SETRT (p : prefix_t) (radixp : radixdata) (t : radix_tree_t) : radixdata :=
  if p.family = AF_INET6 then ⟨radixp.rt4, some t, radixp.gen_id⟩
  else ⟨some t, radixp.rt6, radixp.gen_id⟩

/-- The statement `gen_id++` on the `unsigned int` counter of the struct. -/
def bump (radixp : radixdata) : radixdata :=
  ⟨radixp.rt4, radixp.rt6, (radixp.gen_id + 1) % UINT_MOD⟩

/-- The copy `memcpy(&rn->prefix, node->prefix, sizeof(prefix_t))` in
`object_node_add`: the prefix of the node `radix_lookup` returned (the argument's
own prefix stands in where a pointer leads to no terminal node, which the pointer
`radix_lookup` returns never does). -/
def copied_pfx (n : Option (prefix_t × VALUE)) (p : prefix_t) : prefix_t :=
  match n with
  | some (q, _) => q
  | none => p

/-- The function `object_node_add`: `radix_lookup` finds or makes the node,
`node->data = msg`, the entry copies `node->prefix`, and `gen_id++` (always).
(`radix_lookup` returns null, and "Cannot add prefix" is raised, only when memory
runs out, which is not represented.) -/
def object_node_add (radp : radixdata) (rt : radix_tree_t × radix_tree_t) (p : prefix_t)
    (msg : VALUE) : radixdata × radixnode :=
  (bump (SETRT p radp ⟨set_data (radix_lookup (PICKRT p rt).head p).1
      (radix_lookup (PICKRT p rt).head p).2 msg⟩),
   ⟨copied_pfx (node_at (radix_lookup (PICKRT p rt).head p).1
      (radix_lookup (PICKRT p rt).head p).2) p, msg⟩)

/-- The method `add` (also `store`), `rb_radix_add`: the prefix is stored with the
value `Qtrue`. -/
def rb_radix_add (self : radixdata) (v_addr : String) (v_plen : Option Int) :
    radixdata × Ret (Option radixnode) :=
  match GetRadix (Data_Get_Struct self) with
  | Ret.raise e => (self, Ret.raise e)
  | Ret.ok rt =>
    match args_to_prefix v_addr (plen_of v_plen) with
    | Ret.raise e => (self, Ret.raise e)
    | Ret.ok none => (self, Ret.ok none)
    | Ret.ok (some p) =>
      ((object_node_add self rt p Qtrue).1, Ret.ok (some (object_node_add self rt p Qtrue).2))

/-- The method `[]=`, `rb_radix_add0`: the prefix is stored with the value `v_msg`. -/
def rb_radix_add0 (self : radixdata) (v_addr : String) (v_plen : Option Int) (v_msg : VALUE) :
    radixdata × Ret (Option radixnode) :=
  match GetRadix (Data_Get_Struct self) with
  | Ret.raise e => (self, Ret.raise e)
  | Ret.ok rt =>
    match args_to_prefix v_addr (plen_of v_plen) with
    | Ret.raise e => (self, Ret.raise e)
    | Ret.ok none => (self, Ret.ok none)
    | Ret.ok (some p) =>
      ((object_node_add self rt p v_msg).1, Ret.ok (some (object_node_add self rt p v_msg).2))

/-- The method `delete`, `rb_radix_delete`: when `radix_search_exact` finds the
node, its `data` is nulled, the node is removed and `gen_id++`; otherwise nothing
happens. -/
def rb_radix_delete (self : radixdata) (v_addr : String) (v_plen : Option Int) :
    radixdata × Ret Unit :=
  match GetRadix (Data_Get_Struct self) with
  | Ret.raise e => (self, Ret.raise e)
  | Ret.ok rt =>
    match args_to_prefix v_addr (plen_of v_plen) with
    | Ret.raise e => (self, Ret.raise e)
    | Ret.ok none => (self, Ret.ok ())
    | Ret.ok (some p) =>
      match radix_search_exact (PICKRT p rt).head p with
      | none => (self, Ret.ok ())
      | some node =>
        (bump (SETRT p self ⟨radix_remove (set_data (PICKRT p rt).head node 0) node⟩), Ret.ok ())

/-- The entry built from a found node: nil when there is no node or its `data` is
the null word, else a copy of `node->data` and `node->prefix`. -/
def node_entry (head : radix_node_t) (node : Option (List Bool)) : Option radixnode :=
  match node with
  | none => none
  | some w =>
    match node_at head w with
    | none => none
    | some (q, d) => if d = 0 then none else some ⟨q, d⟩

/-- The method `search_best`, `rb_radix_search_best`. -/
def rb_radix_search_best (self : radixdata) (v_addr : String) (v_plen : Option Int) :
    radixdata × Ret (Option radixnode) :=
  match GetRadix (Data_Get_Struct self) with
  | Ret.raise e => (self, Ret.raise e)
  | Ret.ok rt =>
    match args_to_prefix v_addr (plen_of v_plen) with
    | Ret.raise e => (self, Ret.raise e)
    | Ret.ok none => (self, Ret.ok none)
    | Ret.ok (some p) =>
      (self, Ret.ok (node_entry (PICKRT p rt).head (radix_search_best (PICKRT p rt).head p)))

/-- The method `search_exact`, `rb_radix_search_exact`. -/
def rb_radix_search_exact (self : radixdata) (v_addr : String) (v_plen : Option Int) :
    radixdata × Ret (Option radixnode) :=
  match GetRadix (Data_Get_Struct self) with
  | Ret.raise e => (self, Ret.raise e)
  | Ret.ok rt =>
    match args_to_prefix v_addr (plen_of v_plen) with
    | Ret.raise e => (self, Ret.raise e)
    | Ret.ok none => (self, Ret.ok none)
    | Ret.ok (some p) =>
      (self, Ret.ok (node_entry (PICKRT p rt).head (radix_search_exact (PICKRT p rt).head p)))

/-- The method `[]`, `rb_radix_aref`. -/
def rb_radix_aref (self : radixdata) (v_addr : String) (v_plen : Option Int) :
    radixdata × Ret (Option radixnode) :=
  rb_radix_search_best self v_addr v_plen

/-- The loop of the walks that call no block (`length`, `keys`, `values`,
`to_hash`): at every node of the walk `RaiseModified(gen_id_cur, radixp->gen_id)`,
then the node is taken when its `data` is not null. -/
def walk_collect (gen_id_cur gen_id : Nat) :
    List (prefix_t × VALUE) → Ret (List (prefix_t × VALUE))
  | [] => Ret.ok []
  | (p, d) :: rest =>
    if gen_id_cur ≠ gen_id then Ret.raise Error.modified
    else
      match walk_collect gen_id_cur gen_id rest with
      | Ret.raise e => Ret.raise e
      | Ret.ok xs => Ret.ok (if d ≠ 0 then (p, d) :: xs else xs)

/-- The two loops `for (i = 0; i < RTNUM; i++) RADIX_WALK(radixp->rt[i]->head, rn)`
of a walk that calls no block: the IPv4 nodes, then the IPv6 nodes. -/
def walk_both (self : radixdata) (rt : radix_tree_t × radix_tree_t) :
    Ret (List (prefix_t × VALUE)) :=
  walk_collect self.gen_id self.gen_id (RADIX_WALK rt.1.head ++ RADIX_WALK rt.2.head)

/-- The method `length`, `rb_radix_length`: the number of nodes of the walk whose
`data` is not null (an `unsigned int` in the C; a store has fewer than 2^32 nodes). -/
def rb_radix_length (self : radixdata) : radixdata × Ret Nat :=
  match GetRadix (Data_Get_Struct self) with
  | Ret.raise e => (self, Ret.raise e)
  | Ret.ok rt =>
    match walk_both self rt with
    | Ret.raise e => (self, Ret.raise e)
    | Ret.ok xs => (self, Ret.ok xs.length)

/-- The method `keys`, `rb_radix_keys`. -/
def rb_radix_keys (self : radixdata) : radixdata × Ret (List String) :=
  match GetRadix (Data_Get_Struct self) with
  | Ret.raise e => (self, Ret.raise e)
  | Ret.ok rt =>
    match walk_both self rt with
    | Ret.raise e => (self, Ret.raise e)
    | Ret.ok xs => (self, Ret.ok (xs.map (fun x => prefix_ntop x.1)))

/-- The method `values`, `rb_radix_values`. -/
def rb_radix_values (self : radixdata) : radixdata × Ret (List VALUE) :=
  match GetRadix (Data_Get_Struct self) with
  | Ret.raise e => (self, Ret.raise e)
  | Ret.ok rt =>
    match walk_both self rt with
    | Ret.raise e => (self, Ret.raise e)
    | Ret.ok xs => (self, Ret.ok (xs.map (fun x => x.2)))

/-- The host's `rb_hash_aset` on a hash kept as an association list. -/
def hash_aset (h : List (String × VALUE)) (k : String) (v : VALUE) : List (String × VALUE) :=
  match h with
  | [] => [(k, v)]
  | (k', v') :: rest => if k' = k then (k, v) :: rest else (k', v') :: hash_aset rest k v

/-- The method `to_hash`, `rb_radix_to_hash`. -/
def rb_radix_to_hash (self : radixdata) : radixdata × Ret (List (String × VALUE)) :=
  match GetRadix (Data_Get_Struct self) with
  | Ret.raise e => (self, Ret.raise e)
  | Ret.ok rt =>
    match walk_both self rt with
    | Ret.raise e => (self, Ret.raise e)
    | Ret.ok xs => (self, Ret.ok (xs.foldl (fun h x => hash_aset h (prefix_ntop x.1) x.2) []))

/-- The method `clear`, `rb_radix_clear`: `free_radixdata0`, then `init_radixdata`. -/
def rb_radix_clear (self : radixdata) : radixdata × Ret Unit :=
  match GetRadix (Data_Get_Struct self) with
  | Ret.raise e => (self, Ret.raise e)
  | Ret.ok _ => (init_radixdata (free_radixdata0 self), Ret.ok ())

/-- How the block of an enumeration ends: it returns (the walk goes on), it leaves
the enumeration by `break`, or it raises an exception of its own. -/
inductive Yield where
  | next : Yield
  | brk : Yield
  | raise (exc : VALUE) : Yield
deriving DecidableEq, Repr

/-- The block given to `each_key`, `each_value`, `each_pair`: host code that
receives the yielded element and may call any operation on the store.  It returns
the store as it leaves it and the way it ended. -/
abbrev Block (α : Type) := α → radixdata → radixdata × Yield

/-- The index of the IPv4 tree in `rt` (`#define RT_IPV4 0`). -/
def RT_IPV4 : Nat := 0

/-- The index of the IPv6 tree in `rt` (`#define RT_IPV6 1`). -/
def RT_IPV6 : Nat := 1

/-- The tree `radixp->rt[i]`. -/
def rt_at (radixp : radixdata) (i : Nat) : Option radix_tree_t :=
  if i = RT_IPV4 then radixp.rt4 else radixp.rt6

/-- Reading the node `Xrn` of the tree `radixp->rt[i]` as the store holds it now. -/
def at_ptr (radixp : radixdata) (i : Nat) (Xrn : node_ptr) :
    Option (Option prefix_t × VALUE × radix_node_t × radix_node_t) :=
  match rt_at radixp i with
  | some t => deref t.head Xrn
  | none => none

/-- What one pass of the loop of a yielding walk leaves: the walk goes on from the
node `Xrn` with the stack `Xsp` (`more`), or it is over (`done`); in both cases the
store and the elements yielded in the pass. -/
inductive Stepped (α : Type) where
  | more (Xrn : Option node_ptr) (Xsp : List node_ptr) (radixp : radixdata) (ys : List α) :
      Stepped α
  | done (radixp : radixdata) (ys : List α) (res : Ret Bool) : Stepped α

/-- The end of a pass, `RADIX_WALK_END`, run after the body: the children of the
node `Xrn` are read in the tree as the body left it. -/
def walk_end {α : Type} (i : Nat) (Xrn : node_ptr) (Xsp : List node_ptr) (radixp : radixdata)
    (ys : List α) : Stepped α :=
  match at_ptr radixp i Xrn with
  | none => Stepped.done radixp ys (Ret.raise Error.freed_node)
  | some (_, _, l, r) =>
    Stepped.more (RADIX_WALK_END l r Xsp).1 (RADIX_WALK_END l r Xsp).2 radixp ys

/-- One pass of the loop `RADIX_WALK(radixp->rt[i]->head, rn) { ... } RADIX_WALK_END`
of `rb_radix_each_key`, `rb_radix_each_value` and `rb_radix_each_pair` at the node
`Xrn`: when the node has a prefix (`if (Xnode->prefix)`), the body
`RaiseModified(gen_id_cur, radixp->gen_id)`, then `rb_yield` when the node's `data`
is not null; after the body, `RADIX_WALK_END`.  `true` in `done` says that the block
left the walk by `break`. -/
def walk_step {α : Type} (gen_id_cur : Nat) (item : prefix_t → VALUE → α) (blk : Block α)
    (i : Nat) (Xrn : node_ptr) (Xsp : List node_ptr) (radixp : radixdata) : Stepped α :=
  match at_ptr radixp i Xrn with
  | none => Stepped.done radixp [] (Ret.raise Error.freed_node)
  | some (none, _, _, _) => walk_end i Xrn Xsp radixp []
  | some (some p, d, _, _) =>
    if gen_id_cur ≠ radixp.gen_id then Stepped.done radixp [] (Ret.raise Error.modified)
    else if d ≠ 0 then
      match blk (item p d) radixp with
      | (radixp', Yield.next) => walk_end i Xrn Xsp radixp' [item p d]
      | (radixp', Yield.brk) => Stepped.done radixp' [item p d] (Ret.ok true)
      | (radixp', Yield.raise exc) =>
        Stepped.done radixp' [item p d] (Ret.raise (Error.from_block exc))
    else walk_end i Xrn Xsp radixp []

/-- The loop of a yielding walk over the tree `radixp->rt[i]`,
`while ((Xnode = Xrn)) { ... }`, from the node `Xrn` with the stack `Xsp`: passes
are made until `Xrn` is null.  The tree is read anew in every pass, so the walk
reaches a node the block has attached below the visited one and does not reach a
node the block has removed.  `fuel` bounds the number of passes.  The result is the
store, the elements yielded, and whether the walk was left by `break` (`true`) or
ran to its end (`false`). -/
def walk_yield {α : Type} (gen_id_cur : Nat) (item : prefix_t → VALUE → α) (blk : Block α)
    (i : Nat) : Nat → Option node_ptr → List node_ptr → radixdata →
    radixdata × List α × Ret Bool
  | _, none, _, radixp => (radixp, [], Ret.ok false)
  | 0, some _, _, radixp => (radixp, [], Ret.raise Error.out_of_fuel)
  | fuel + 1, some Xrn, Xsp, radixp =>
    match walk_step gen_id_cur item blk i Xrn Xsp radixp with
    | Stepped.done radixp' ys res => (radixp', ys, res)
    | Stepped.more Xrn' Xsp' radixp' ys =>
      ((walk_yield gen_id_cur item blk i fuel Xrn' Xsp' radixp').1,
       ys ++ (walk_yield gen_id_cur item blk i fuel Xrn' Xsp' radixp').2.1,
       (walk_yield gen_id_cur item blk i fuel Xrn' Xsp' radixp').2.2)

/-- The body shared by `rb_radix_each_key`, `rb_radix_each_value` and
`rb_radix_each_pair`: `GetRadix`, the snapshot `gen_id_cur = radixp->gen_id`, the
walk of the IPv4 tree from its head, then the walk of the IPv6 tree from the head
the store holds at that moment.  Each walk may make `fuel` passes.  The result is
the store, the elements yielded, and the outcome.  (No method releases a tree, so a
block leaves both trees present; were the IPv6 tree absent after the IPv4 walk, the
walk ends here.) -/
def each_walk {α : Type} (self : radixdata) (item : prefix_t → VALUE → α) (blk : Block α)
    (fuel : Nat) : radixdata × List α × Ret Unit :=
  match GetRadix (Data_Get_Struct self) with
  | Ret.raise e => (self, [], Ret.raise e)
  | Ret.ok rt =>
    match walk_yield self.gen_id item blk RT_IPV4 fuel (ptr_of rt.1.head) [] self with
    | (s1, ys1, Ret.raise e) => (s1, ys1, Ret.raise e)
    | (s1, ys1, Ret.ok true) => (s1, ys1, Ret.ok ())
    | (s1, ys1, Ret.ok false) =>
      match s1.rt6 with
      | none => (s1, ys1, Ret.ok ())
      | some t6 =>
        match walk_yield self.gen_id item blk RT_IPV6 fuel (ptr_of t6.head) [] s1 with
        | (s2, ys2, Ret.raise e) => (s2, ys1 ++ ys2, Ret.raise e)
        | (s2, ys2, Ret.ok _) => (s2, ys1 ++ ys2, Ret.ok ())

/-- The method `each_key`, `rb_radix_each_key`: yields the text of each prefix. -/
def rb_radix_each_key (self : radixdata) (blk : Block String) (fuel : Nat) :
    radixdata × List String × Ret Unit :=
  each_walk self (fun p _ => prefix_ntop p) blk fuel

/-- The method `each_value`, `rb_radix_each_value`: yields each value word. -/
def rb_radix_each_value (self : radixdata) (blk : Block VALUE) (fuel : Nat) :
    radixdata × List VALUE × Ret Unit :=
  each_walk self (fun _ d => d) blk fuel

/-- The method `each_pair`, `rb_radix_each_pair`: yields each (text, value) pair. -/
def rb_radix_each_pair (self : radixdata) (blk : Block (String × VALUE)) (fuel : Nat) :
    radixdata × List (String × VALUE) × Ret Unit :=
  each_walk self (fun p d => (prefix_ntop p, d)) blk fuel

/-- The getter `msg` of an entry, `rb_rn_msg_get`. -/
def rb_rn_msg_get (rn : radixnode) : VALUE := rn.msg

/-- The getter `prefix` of an entry, `rb_rn_prefix_get`. -/
def rb_rn_prefix_get (rn : radixnode) : String := prefix_ntop rn.pfx

/-- The getter `network` of an entry, `rb_rn_network_get`. -/
def rb_rn_network_get (rn : radixnode) : String := prefix_addr_ntop rn.pfx

/-- The getter `prefixlen` of an entry, `rb_rn_prefixlen_get`. -/
def rb_rn_prefixlen_get (rn : radixnode) : Nat := rn.pfx.bitlen

/-- The getter `family` of an entry, `rb_rn_af_get`: 4 for `AF_INET`, else 6. -/
def rb_rn_af_get (rn : radixnode) : Nat := if rn.pfx.family = AF_INET then 4 else 6

/-! ## Stored prefixes, keys and the tree invariant -/

/-- Two addresses agree on their first `n` bits. -/
def agree (p q : prefix_t) (n : Nat) : Prop := ∀ i, i < n → bit_test p i = bit_test q i

instance agree_decidable (p q : prefix_t) (n : Nat) : Decidable (agree p q n) := by
  unfold agree; infer_instance

/-- Two prefixes denote the same (address, bitlen): equal lengths, and equal bits
up to that length (the bits beyond it are not significant). -/
def same_key (p q : prefix_t) : Prop := p.bitlen = q.bitlen ∧ agree p q p.bitlen

instance same_key_decidable (p q : prefix_t) : Decidable (same_key p q) := by
  unfold same_key; infer_instance

/-- The prefix `q` contains the address (or prefix) `p`: `q` is no longer than `p`
and `p` has the bits of `q` up to the length of `q`. -/
def covers (q p : prefix_t) : Prop := q.bitlen ≤ p.bitlen ∧ agree q p q.bitlen

instance covers_decidable (q p : prefix_t) : Decidable (covers q p) := by
  unfold covers; infer_instance

/-- The prefixes stored in a tree, in walk order. -/
def stored (t : radix_node_t) : List prefix_t := (RADIX_WALK t).map Prod.fst

/-- The invariant of a radix tree whose root tests bit `b`: a terminal node's prefix
has length `b`; a branch node has a null `data` and at least one child; all stored
prefixes below agree on their first `b` bits; those in the left subtree are longer
than `b` and have bit `b` clear, those in the right subtree have it set. -/
def wf : radix_node_t → Prop
  | radix_node_t.null => True
  | radix_node_t.node b pre d l r =>
    (∀ q, pre = some q → q.bitlen = b) ∧
    (pre = none → d = 0 ∧ (l ≠ radix_node_t.null ∨ r ≠ radix_node_t.null)) ∧
    (∀ x ∈ stored (radix_node_t.node b pre d l r),
      ∀ y ∈ stored (radix_node_t.node b pre d l r), agree x y b) ∧
    (∀ x ∈ stored l, b < x.bitlen ∧ bit_test x b = false) ∧
    (∀ x ∈ stored r, b < x.bitlen ∧ bit_test x b = true) ∧
    wf l ∧ wf r

/-- The store is open: both trees are present. -/
def is_open (s : radixdata) : Prop := s.rt4 ≠ none ∧ s.rt6 ≠ none

instance is_open_decidable (s : radixdata) : Decidable (is_open s) := by
  unfold is_open; infer_instance

/-- The invariant of a store: the counter is an `unsigned int`; each tree that is
present satisfies the tree invariant and holds prefixes of its family only.  A new
store satisfies it and `add`, `[]=`, `delete` and `clear` keep it, so every store a
program reaches does (`reachable_inv`). -/
def store_inv (s : radixdata) : Prop :=
  s.gen_id < UINT_MOD ∧
  (∀ t, s.rt4 = some t → wf t.head ∧ ∀ x ∈ stored t.head, x.family = AF_INET) ∧
  (∀ t, s.rt6 = some t → wf t.head ∧ ∀ x ∈ stored t.head, x.family = AF_INET6)

/-- The stores a program can reach: a new store, and what `add`, `[]=`, `delete` and
`clear` make of a reachable store. -/
inductive Reachable : radixdata → Prop where
  | new : Reachable newRadixData
  | add (s : radixdata) (addr : String) (plen : Option Int) :
      Reachable s → Reachable (rb_radix_add s addr plen).1
  | aset (s : radixdata) (addr : String) (plen : Option Int) (v : VALUE) :
      Reachable s → Reachable (rb_radix_add0 s addr plen v).1
  | delete (s : radixdata) (addr : String) (plen : Option Int) :
      Reachable s → Reachable (rb_radix_delete s addr plen).1
  | clear (s : radixdata) : Reachable s → Reachable (rb_radix_clear s).1

/-- The nodes of both trees in the order of the walks of `radix.c` (IPv4 first),
each with its prefix and `data` word; empty for a closed store. -/
def entries (s : radixdata) : List (prefix_t × VALUE) :=
  match s.rt4, s.rt6 with
  | some t4, some t6 => RADIX_WALK t4.head ++ RADIX_WALK t6.head
  | _, _ => []

/-- The stored prefix `q` contains the queried address (or prefix) `p`: same family,
and `q` covers `p`. -/
def holds (q p : prefix_t) : Prop := q.family = p.family ∧ covers q p

instance holds_decidable (q p : prefix_t) : Decidable (holds q p) := by
  unfold holds; infer_instance

/-- The prefixes `q` and `p` are the same key of the store: same family, same
(address, bitlen). -/
def same_entry (q p : prefix_t) : Prop := q.family = p.family ∧ same_key q p

instance same_entry_decidable (q p : prefix_t) : Decidable (same_entry q p) := by
  unfold same_entry; infer_instance

/-- The number of elements of a walk whose `data` is not the null word: what
`length` counts. -/
def live (xs : List (prefix_t × VALUE)) : List (prefix_t × VALUE) :=
  xs.filter (fun x => decide (x.2 ≠ 0))

instance wf_decidable : (t : radix_node_t) → Decidable (wf t)
  | radix_node_t.null => isTrue trivial
  | radix_node_t.node b pre d l r =>
    have : Decidable (wf l) := wf_decidable l
    have : Decidable (wf r) := wf_decidable r
    inferInstanceAs (Decidable (
      (∀ q, pre = some q → q.bitlen = b) ∧
      (pre = none → d = 0 ∧ (l ≠ radix_node_t.null ∨ r ≠ radix_node_t.null)) ∧
      (∀ x ∈ stored (radix_node_t.node b pre d l r),
        ∀ y ∈ stored (radix_node_t.node b pre d l r), agree x y b) ∧
      (∀ x ∈ stored l, b < x.bitlen ∧ bit_test x b = false) ∧
      (∀ x ∈ stored r, b < x.bitlen ∧ bit_test x b = true) ∧
      wf l ∧ wf r))

instance store_inv_decidable (s : radixdata) : Decidable (store_inv s) :=
  match h4 : s.rt4, h6 : s.rt6 with
  | none, none => decidable_of_iff (s.gen_id < UINT_MOD) (by simp [store_inv, h4, h6])
  | some t4, none =>
    decidable_of_iff
      (s.gen_id < UINT_MOD ∧ (wf t4.head ∧ ∀ x ∈ stored t4.head, x.family = AF_INET))
      (by simp [store_inv, h4, h6])
  | none, some t6 =>
    decidable_of_iff
      (s.gen_id < UINT_MOD ∧ (wf t6.head ∧ ∀ x ∈ stored t6.head, x.family = AF_INET6))
      (by simp [store_inv, h4, h6])
  | some t4, some t6 =>
    decidable_of_iff
      (s.gen_id < UINT_MOD ∧ (wf t4.head ∧ ∀ x ∈ stored t4.head, x.family = AF_INET) ∧
        (wf t6.head ∧ ∀ x ∈ stored t6.head, x.family = AF_INET6))
      (by simp [store_inv, h4, h6])

/-- The tree of the store that `PICKRT` selects for a prefix. -/
def picked (p : prefix_t) (s : radixdata) : Option radix_tree_t :=
  if p.family = AF_INET6 then s.rt6 else s.rt4

/-- The tree of the store that `PICKRT` does not select for a prefix: the tree of
the other family. -/
def other (p : prefix_t) (s : radixdata) : Option radix_tree_t :=
  if p.family = AF_INET6 then s.rt4 else s.rt6

/-- The nodes of the tree `PICKRT` selects for a prefix, in walk order. -/
def picked_walk (p : prefix_t) (s : radixdata) : List (prefix_t × VALUE) :=
  match picked p s with
  | some t => RADIX_WALK t.head
  | none => []

/-- The nodes of the tree of the other family, in walk order. -/
def other_walk (p : prefix_t) (s : radixdata) : List (prefix_t × VALUE) :=
  match other p s with
  | some t => RADIX_WALK t.head
  | none => []

/-- The word of the reference to the string `"Hello Radix!"` in the example: some
object reference, not null. -/
def hello_radix : VALUE := 4096

/-- The store of the example in the documentation of `Init_radix`:
`r.add("192.168.0.0", 24)`, `r.add("172.31.0.0/16")`,
`r["172.16.0.0/16"] = "Hello Radix!"` on a new store. -/
def doc_example : radixdata :=
  (rb_radix_add0
    (rb_radix_add (rb_radix_add newRadixData "192.168.0.0" (some 24)).1 "172.31.0.0/16" none).1
    "172.16.0.0/16" none hello_radix).1

/-- A store with two IPv4 prefixes: `r["10.0.0.0/8"] = v` for an object reference
`v` (the word 9), then `r["10.1.0.0/16"] = false`. -/
def nested_example : radixdata :=
  (rb_radix_add0 (rb_radix_add0 newRadixData "10.0.0.0/8" none 9).1 "10.1.0.0/16" none Qfalse).1

/-- The bits of a list of octets. -/
def octet_bits : List Nat → List Bool
  | [] => []
  | o :: os => to_bits 8 o ++ octet_bits os

/-- The IPv4 prefix with the given length whose address starts with the given
octets (the remaining bits are zero). -/
def ipv4_of (octets : List Nat) (bitlen : Nat) : prefix_t :=
  ⟨AF_INET, bitlen, mask_bits ((octet_bits octets ++ List.replicate 32 false).take 32) bitlen⟩

/-- A block that stores the word 7 under `"10.0.0.0/8"` each time it is called (a
new IPv4 entry the first time) and lets the walk go on. -/
def adding_block (α : Type) : Block α :=
  fun _ st => ((rb_radix_add0 st "10.0.0.0/8" none 7).1, Yield.next)

/-- A store that holds the IPv6 default route only: `r["::/0"] = v` on a new store,
for an object reference `v` (the word 5). -/
def v6_example : radixdata := (rb_radix_add0 newRadixData "::/0" none 5).1

/-- The IPv6 prefix `::/0`. -/
def ipv6_default : prefix_t := ⟨AF_INET6, 0, List.replicate 128 false⟩

/-- The store of the two default routes: `r["0.0.0.0/0"] = "v4-default"` and
`r["::/0"] = "v6-default"` on a new store (the two strings are the object
references 41 and 61). -/
def family_example : radixdata :=
  (rb_radix_add0 (rb_radix_add0 newRadixData "0.0.0.0/0" none 41).1 "::/0" none 61).1

/-- The subtree at a path from the root (`false` = left child, `true` = right
child); `null` when the path leaves the tree. -/
def sub_at : radix_node_t → List Bool → radix_node_t
  | t, [] => t
  | radix_node_t.null, _ :: _ => radix_node_t.null
  | radix_node_t.node _ _ _ l _, false :: w => sub_at l w
  | radix_node_t.node _ _ _ _ r, true :: w => sub_at r w

/-- The bit tested by the root node of a subtree. -/
def node_bit : radix_node_t → Option Nat
  | radix_node_t.null => none
  | radix_node_t.node b _ _ _ _ => some b

/-- Every node tests a later bit than its parent: with the tree invariant, what
makes a pointer kept by a walk lead to its node.  A new tree satisfies it and
`radix_lookup`, `set_data` and `radix_remove` keep it. -/
def bit_order : radix_node_t → Prop
  | radix_node_t.null => True
  | radix_node_t.node b _ _ l r =>
    (∀ b', node_bit l = some b' → b < b') ∧ (∀ b', node_bit r = some b' → b < b') ∧
    bit_order l ∧ bit_order r

instance bit_order_decidable : (t : radix_node_t) → Decidable (bit_order t)
  | radix_node_t.null => isTrue trivial
  | radix_node_t.node b _ _ l r =>
    have : Decidable (bit_order l) := bit_order_decidable l
    have : Decidable (bit_order r) := bit_order_decidable r
    have hl : Decidable (∀ b', node_bit l = some b' → b < b') :=
      match l with
      | radix_node_t.null => isTrue (by simp [node_bit])
      | radix_node_t.node bl _ _ _ _ => decidable_of_iff (b < bl) (by simp [node_bit])
    have hr : Decidable (∀ b', node_bit r = some b' → b < b') :=
      match r with
      | radix_node_t.null => isTrue (by simp [node_bit])
      | radix_node_t.node br _ _ _ _ => decidable_of_iff (b < br) (by simp [node_bit])
    inferInstanceAs (Decidable (
      (∀ b', node_bit l = some b' → b < b') ∧ (∀ b', node_bit r = some b' → b < b') ∧
      bit_order l ∧ bit_order r))

/-- The number of nodes of a tree, terminal or not: the passes the loop of a walk
makes over it. -/
def node_count : radix_node_t → Nat
  | radix_node_t.null => 0
  | radix_node_t.node _ _ _ l r => node_count l + node_count r + 1

/-- The trees of a store that are present have their nodes in the order of their
bits.  A new store satisfies it and `add`, `[]=`, `delete` and `clear` keep it, so
every store a program reaches does (`reachable_ord`). -/
def store_ord (s : radixdata) : Prop :=
  (∀ t, s.rt4 = some t → bit_order t.head) ∧ (∀ t, s.rt6 = some t → bit_order t.head)

instance store_ord_decidable (s : radixdata) : Decidable (store_ord s) :=
  match h4 : s.rt4, h6 : s.rt6 with
  | none, none => isTrue (by simp [store_ord, h4, h6])
  | some t4, none => decidable_of_iff (bit_order t4.head) (by simp [store_ord, h4, h6])
  | none, some t6 => decidable_of_iff (bit_order t6.head) (by simp [store_ord, h4, h6])
  | some t4, some t6 =>
    decidable_of_iff (bit_order t4.head ∧ bit_order t6.head) (by simp [store_ord, h4, h6])

theorem differ_bit_le (p q : prefix_t) (n : Nat) : differ_bit p q n ≤ n := by
  induction n with
  | zero => simp [differ_bit]
  | succ n ih =>
    simp only [differ_bit]
    split_ifs <;> omega

theorem differ_bit_agree (p q : prefix_t) (n : Nat) : agree p q (differ_bit p q n) := by
  induction n with
  | zero => intro i hi; simp [differ_bit] at hi
  | succ n ih =>
    simp only [differ_bit]
    have hle := differ_bit_le p q n
    split_ifs with h1 h2
    · exact ih
    · have hn : differ_bit p q n = n := by omega
      intro i hi
      rcases Nat.lt_succ_iff_lt_or_eq.mp hi with h | h
      · exact ih i (by omega)
      · subst h; exact h2
    · have hn : differ_bit p q n = n := by omega
      rw [hn] at ih; exact ih

theorem differ_bit_lt (p q : prefix_t) (n : Nat) (h : differ_bit p q n < n) :
    bit_test p (differ_bit p q n) ≠ bit_test q (differ_bit p q n) := by
  induction n with
  | zero => simp [differ_bit] at h
  | succ n ih =>
    simp only [differ_bit] at h ⊢
    have hle := differ_bit_le p q n
    split_ifs at h ⊢ with h1 h2
    · exact ih h1
    · omega
    · exact h2

theorem agree_mono {p q : prefix_t} {n m : Nat} (h : agree p q n) (hm : m ≤ n) :
    agree p q m := fun i hi => h i (by omega)

theorem agree_symm {p q : prefix_t} {n : Nat} (h : agree p q n) : agree q p n :=
  fun i hi => (h i hi).symm

theorem agree_trans {p q r : prefix_t} {n : Nat} (h : agree p q n) (h' : agree q r n) :
    agree p r n := fun i hi => (h i hi).trans (h' i hi)

theorem agree_refl (p : prefix_t) (n : Nat) : agree p p n := fun _ _ => rfl

theorem differ_bit_ge {p q : prefix_t} {m n : Nat} (h : agree p q m) (hm : m ≤ n) :
    m ≤ differ_bit p q n := by
  by_contra hlt
  have h1 : differ_bit p q n < n := by omega
  exact differ_bit_lt p q n h1 (h _ (by omega))

theorem differ_bit_eq_iff (p q : prefix_t) (n : Nat) : differ_bit p q n = n ↔ agree p q n := by
  constructor
  · intro h; have := differ_bit_agree p q n; rwa [h] at this
  · intro h; have := differ_bit_ge h (le_refl n); have := differ_bit_le p q n; omega

theorem comp_with_mask_iff (p q : prefix_t) (n : Nat) :
    comp_with_mask p q n = true ↔ agree p q n := by
  simp [comp_with_mask, differ_bit_eq_iff]

theorem differ_bit_congr {p q q' : prefix_t} {n : Nat} (h : agree q q' n) :
    differ_bit p q n = differ_bit p q' n := by
  induction n with
  | zero => simp [differ_bit]
  | succ n ih =>
    simp only [differ_bit]
    rw [ih (agree_mono h (by omega)), h n (by omega)]

theorem same_key_refl (p : prefix_t) : same_key p p := ⟨rfl, agree_refl p _⟩

theorem same_key_symm {p q : prefix_t} (h : same_key p q) : same_key q p :=
  ⟨h.1.symm, by rw [← h.1]; exact agree_symm h.2⟩

theorem same_key_trans {p q r : prefix_t} (h : same_key p q) (h' : same_key q r) :
    same_key p r :=
  ⟨h.1.trans h'.1, agree_trans h.2 (by rw [h.1]; exact h'.2)⟩

/-! ## Walks, stored prefixes, representatives -/

open radix_node_t

theorem stored_null : stored null = [] := rfl

theorem stored_node_some (b : Nat) (q : prefix_t) (d : VALUE) (l r : radix_node_t) :
    stored (node b (some q) d l r) = q :: (stored l ++ stored r) := by
  simp [stored, RADIX_WALK]

theorem stored_node_none (b : Nat) (d : VALUE) (l r : radix_node_t) :
    stored (node b none d l r) = stored l ++ stored r := by
  simp [stored, RADIX_WALK]

theorem mem_stored_node {b : Nat} {pre : Option prefix_t} {d : VALUE} {l r : radix_node_t}
    {x : prefix_t} :
    x ∈ stored (node b pre d l r) ↔ pre = some x ∨ x ∈ stored l ∨ x ∈ stored r := by
  cases pre with
  | none => simp [stored_node_none]
  | some q => simp [stored_node_some, eq_comm]

theorem mem_stored_of_mem_walk {t : radix_node_t} {x : prefix_t × VALUE}
    (h : x ∈ RADIX_WALK t) : x.1 ∈ stored t :=
  List.mem_map_of_mem Prod.fst h

theorem rep_mem {t : radix_node_t} {q : prefix_t} (h : rep t = some q) : q ∈ stored t := by
  induction t with
  | null => simp [rep] at h
  | node b pre d l r ihl ihr =>
    cases pre with
    | some x => simp [rep] at h; simp [mem_stored_node, h]
    | none =>
      simp only [rep] at h
      rw [mem_stored_node]
      cases hl : rep l with
      | some y => rw [hl] at h; simp at h; subst h; exact Or.inr (Or.inl (ihl hl))
      | none => rw [hl] at h; simp at h; exact Or.inr (Or.inr (ihr h))

theorem rep_some_of_wf {t : radix_node_t} (h : wf t) (hn : t ≠ null) : ∃ q, rep t = some q := by
  induction t with
  | null => exact absurd rfl hn
  | node b pre d l r ihl ihr =>
    cases pre with
    | some x => exact ⟨x, by simp [rep]⟩
    | none =>
      obtain ⟨-, h2, -, -, -, hl, hr⟩ := h
      obtain ⟨-, hc⟩ := h2 rfl
      simp only [rep]
      cases hrl : rep l with
      | some y => exact ⟨y, rfl⟩
      | none =>
        simp only
        rcases hc with hc | hc
        · obtain ⟨q, hq⟩ := ihl hl hc; rw [hq] at hrl; cases hrl
        · exact ihr hr hc

theorem wf_bitlen_ge {b : Nat} {pre : Option prefix_t} {d : VALUE} {l r : radix_node_t}
    (h : wf (node b pre d l r)) {x : prefix_t} (hx : x ∈ stored (node b pre d l r)) :
    b ≤ x.bitlen := by
  obtain ⟨h1, -, -, h4, h5, -, -⟩ := h
  rcases mem_stored_node.mp hx with h | h | h
  · exact (h1 x h).ge
  · exact (h4 x h).1.le
  · exact (h5 x h).1.le

theorem wf_agree {b : Nat} {pre : Option prefix_t} {d : VALUE} {l r : radix_node_t}
    (h : wf (node b pre d l r)) {x y : prefix_t} (hx : x ∈ stored (node b pre d l r))
    (hy : y ∈ stored (node b pre d l r)) : agree x y b :=
  h.2.2.1 x hx y hy

theorem diverge_le (t : radix_node_t) (b : Nat) (p : prefix_t) :
    diverge t b p ≤ min b p.bitlen := by
  unfold diverge
  cases rep t with
  | none => exact le_refl _
  | some q => exact differ_bit_le p q _

/-- In a well-formed tree the divergence position does not depend on which stored
prefix the target is compared with. -/
theorem diverge_eq {b : Nat} {pre : Option prefix_t} {d : VALUE} {l r : radix_node_t}
    (h : wf (node b pre d l r)) (p : prefix_t) {x : prefix_t}
    (hx : x ∈ stored (node b pre d l r)) :
    diverge (node b pre d l r) b p = differ_bit p x (min b p.bitlen) := by
  obtain ⟨q, hq⟩ := rep_some_of_wf h (by simp)
  unfold diverge
  rw [hq]
  exact differ_bit_congr (agree_mono (wf_agree h (rep_mem hq) hx) (min_le_left _ _))

/-! ## Lookup, then exact search -/

theorem search_exact_lookup (t : radix_node_t) (p : prefix_t) :
    radix_search_exact (radix_lookup t p).1 p = some (radix_lookup t p).2 := by
  induction t with
  | null => simp [radix_lookup, new_leaf, radix_search_exact, comp_with_mask_iff, agree_refl]
  | node b pre d l r ihl ihr =>
    have hdle := diverge_le (node b pre d l r) b p
    have hm1 := Nat.min_le_left b p.bitlen
    have hm2 := Nat.min_le_right b p.bitlen
    rw [radix_lookup]
    split_ifs with h1 h2 h4 h5
    · unfold attach_above
      split
      · split_ifs <;>
          simp [radix_search_exact, comp_with_mask_iff, agree_refl]
      · simp [radix_search_exact, comp_with_mask_iff, agree_refl]
    · have : diverge (node b pre d l r) b p < p.bitlen := by omega
      unfold attach_branch
      split_ifs with h3 <;>
        simp [radix_search_exact, this, h3, new_leaf, comp_with_mask_iff, agree_refl]
    · cases pre with
      | none => simp [radix_search_exact, h4, own_or, comp_with_mask_iff, agree_refl]
      | some q =>
        have hd : diverge (node b (some q) d l r) b p = b := by omega
        have hag : agree q p b := by
          simp only [diverge, rep, h4, min_self] at hd
          exact agree_symm ((differ_bit_eq_iff p q b).mp hd)
        simp [radix_search_exact, h4, own_or, comp_with_mask_iff, hag]
    · have hb : b < p.bitlen := by omega
      simp [radix_search_exact, hb, h5, ihr]
    · have hb : b < p.bitlen := by omega
      simp [radix_search_exact, hb, h5, ihl]

/-! ## Reading, writing and removing through a node pointer -/

theorem walk_prune (t : radix_node_t) : RADIX_WALK (prune t) = RADIX_WALK t := by
  unfold prune
  split <;> simp [RADIX_WALK]

theorem node_at_mem {t : radix_node_t} {w : List Bool} {q : prefix_t} {d : VALUE}
    (h : node_at t w = some (q, d)) : (q, d) ∈ RADIX_WALK t := by
  induction t generalizing w with
  | null => simp [node_at] at h
  | node b pre d0 l r ihl ihr =>
    cases w with
    | nil =>
      cases pre with
      | none => simp [node_at] at h
      | some x => simp [node_at] at h; simp [RADIX_WALK, h]
    | cons c w =>
      cases c with
      | false =>
        have := ihl (w := w) (by simpa [node_at] using h)
        cases pre <;> simp [RADIX_WALK, this]
      | true =>
        have := ihr (w := w) (by simpa [node_at] using h)
        cases pre <;> simp [RADIX_WALK, this]

/-- The walk of a tree around the terminal node a pointer leads to: writing its
`data` changes that element only, removing the node drops that element only. -/
theorem walk_at {t : radix_node_t} {w : List Bool} {q : prefix_t} {d : VALUE}
    (h : node_at t w = some (q, d)) :
    ∃ l1 l2, RADIX_WALK t = l1 ++ (q, d) :: l2 ∧
      (∀ v, RADIX_WALK (set_data t w v) = l1 ++ (q, v) :: l2) ∧
      RADIX_WALK (radix_remove t w) = l1 ++ l2 := by
  induction t generalizing w with
  | null => simp [node_at] at h
  | node b pre d0 l r ihl ihr =>
    cases w with
    | nil =>
      cases pre with
      | none => simp [node_at] at h
      | some x =>
        simp [node_at] at h
        obtain ⟨rfl, rfl⟩ := h
        exact ⟨[], RADIX_WALK l ++ RADIX_WALK r, by simp [RADIX_WALK],
          by intro v; simp [set_data, RADIX_WALK],
          by simp [radix_remove, walk_prune, RADIX_WALK]⟩
    | cons c w =>
      cases c with
      | false =>
        obtain ⟨l1, l2, e1, e2, e3⟩ := ihl (w := w) (by simpa [node_at] using h)
        cases pre with
        | none =>
          exact ⟨l1, l2 ++ RADIX_WALK r, by simp [RADIX_WALK, e1],
            by intro v; simp [set_data, RADIX_WALK, e2],
            by simp [radix_remove, walk_prune, RADIX_WALK, e3]⟩
        | some x =>
          exact ⟨(x, d0) :: l1, l2 ++ RADIX_WALK r, by simp [RADIX_WALK, e1],
            by intro v; simp [set_data, RADIX_WALK, e2],
            by simp [radix_remove, walk_prune, RADIX_WALK, e3]⟩
      | true =>
        obtain ⟨l1, l2, e1, e2, e3⟩ := ihr (w := w) (by simpa [node_at] using h)
        cases pre with
        | none =>
          exact ⟨RADIX_WALK l ++ l1, l2, by simp [RADIX_WALK, e1],
            by intro v; simp [set_data, RADIX_WALK, e2],
            by simp [radix_remove, walk_prune, RADIX_WALK, e3]⟩
        | some x =>
          exact ⟨(x, d0) :: (RADIX_WALK l ++ l1), l2, by simp [RADIX_WALK, e1],
            by intro v; simp [set_data, RADIX_WALK, e2],
            by simp [radix_remove, walk_prune, RADIX_WALK, e3]⟩

theorem node_at_set_data {t : radix_node_t} {w : List Bool} {q : prefix_t} {d : VALUE}
    (h : node_at t w = some (q, d)) (v : VALUE) : node_at (set_data t w v) w = some (q, v) := by
  induction t generalizing w with
  | null => simp [node_at] at h
  | node b pre d0 l r ihl ihr =>
    cases w with
    | nil =>
      cases pre with
      | none => simp [node_at] at h
      | some x => simp [node_at] at h; simp [set_data, node_at, h.1]
    | cons c w =>
      cases c with
      | false => simpa [set_data, node_at] using ihl (w := w) (by simpa [node_at] using h)
      | true => simpa [set_data, node_at] using ihr (w := w) (by simpa [node_at] using h)

theorem remove_set_data (t : radix_node_t) (w : List Bool) (v : VALUE) :
    radix_remove (set_data t w v) w = radix_remove t w := by
  induction t generalizing w with
  | null => simp [set_data, radix_remove]
  | node b pre d0 l r ihl ihr =>
    cases w with
    | nil => simp [set_data, radix_remove]
    | cons c w =>
      cases c with
      | false => simp [set_data, radix_remove, ihl]
      | true => simp [set_data, radix_remove, ihr]

theorem stored_set_data (t : radix_node_t) (w : List Bool) (v : VALUE) :
    stored (set_data t w v) = stored t := by
  induction t generalizing w with
  | null => simp [set_data]
  | node b pre d0 l r ihl ihr =>
    cases w with
    | nil => cases pre <;> simp [set_data, stored, RADIX_WALK]
    | cons c w =>
      have hl := ihl w
      have hr := ihr w
      simp only [stored] at hl hr
      cases c <;> cases pre <;> simp [set_data, stored, RADIX_WALK, hl, hr]

/-- The exact search finds a terminal node whose prefix is the target's key. -/
theorem search_exact_sound {t : radix_node_t} (hwf : wf t) {p : prefix_t} {w : List Bool}
    (h : radix_search_exact t p = some w) :
    ∃ q d, node_at t w = some (q, d) ∧ same_key q p := by
  induction t generalizing w with
  | null => simp [radix_search_exact] at h
  | node b pre d0 l r ihl ihr =>
    obtain ⟨h1, -, -, -, -, hl, hr⟩ := hwf
    simp only [radix_search_exact] at h
    split_ifs at h with c1 c2 c3
    · obtain ⟨w', hw', rfl⟩ := Option.map_eq_some'.mp h
      simpa [node_at] using ihr hr hw'
    · obtain ⟨w', hw', rfl⟩ := Option.map_eq_some'.mp h
      simpa [node_at] using ihl hl hw'
    · cases pre with
      | none => simp at h
      | some q =>
        simp only at h
        split_ifs at h with c4
        have hb : q.bitlen = b := h1 q rfl
        have hpb : p.bitlen = b := by omega
        cases h
        refine ⟨q, d0, by simp [node_at], by omega, ?_⟩
        rw [hb, ← hpb]
        exact (comp_with_mask_iff q p _).mp c4

/-- The exact search finds every stored key. -/
theorem search_exact_complete {t : radix_node_t} (hwf : wf t) {p x : prefix_t} {d : VALUE}
    (hx : (x, d) ∈ RADIX_WALK t) (hk : same_key x p) :
    ∃ w, radix_search_exact t p = some w ∧ node_at t w = some (x, d) := by
  induction t with
  | null => simp [RADIX_WALK] at hx
  | node b pre d0 l r ihl ihr =>
    obtain ⟨h1, -, -, h4, h5, hl, hr⟩ := hwf
    have hcases : (pre = some x ∧ d = d0) ∨ (x, d) ∈ RADIX_WALK l ∨ (x, d) ∈ RADIX_WALK r := by
      cases pre with
      | none => simpa [RADIX_WALK] using hx
      | some q =>
        simp [RADIX_WALK] at hx
        rcases hx with ⟨rfl, rfl⟩ | h | h
        · exact Or.inl ⟨rfl, rfl⟩
        · exact Or.inr (Or.inl h)
        · exact Or.inr (Or.inr h)
    rcases hcases with ⟨rfl, rfl⟩ | h | h
    · have hb : x.bitlen = b := h1 x rfl
      have hpb : p.bitlen = b := by rw [← hk.1, hb]
      refine ⟨[], ?_, by simp [node_at]⟩
      have hc : comp_with_mask x p b = true := by
        rw [comp_with_mask_iff, ← hb]; exact hk.2
      simp [radix_search_exact, hpb, hc]
    · obtain ⟨hlt, hbit⟩ := h4 x (mem_stored_of_mem_walk h)
      have hpb : b < p.bitlen := by rw [← hk.1]; exact hlt
      have hpbit : bit_test p b = false := by rw [← hk.2 b hlt]; exact hbit
      obtain ⟨w, hw, hn⟩ := ihl hl h
      exact ⟨false :: w, by simp [radix_search_exact, hpb, hpbit, hw], by simp [node_at, hn]⟩
    · obtain ⟨hlt, hbit⟩ := h5 x (mem_stored_of_mem_walk h)
      have hpb : b < p.bitlen := by rw [← hk.1]; exact hlt
      have hpbit : bit_test p b = true := by rw [← hk.2 b hlt]; exact hbit
      obtain ⟨w, hw, hn⟩ := ihr hr h
      exact ⟨true :: w, by simp [radix_search_exact, hpb, hpbit, hw], by simp [node_at, hn]⟩

/-- No stored key: the exact search finds nothing. -/
theorem search_exact_none_iff {t : radix_node_t} (hwf : wf t) (p : prefix_t) :
    radix_search_exact t p = none ↔ ∀ x ∈ stored t, ¬ same_key x p := by
  constructor
  · intro h x hx hk
    obtain ⟨⟨x', d⟩, hxd, rfl⟩ := List.mem_map.mp hx
    obtain ⟨w, hw, -⟩ := search_exact_complete hwf hxd hk
    rw [h] at hw; cases hw
  · intro h
    cases hs : radix_search_exact t p with
    | none => rfl
    | some w =>
      obtain ⟨q, d, hn, hk⟩ := search_exact_sound hwf hs
      exact absurd hk (h q (mem_stored_of_mem_walk (node_at_mem hn)))

/-! ## The lookup: found or created -/

theorem lookup_ne_null (t : radix_node_t) (p : prefix_t) : (radix_lookup t p).1 ≠ null := by
  cases t with
  | null => simp [radix_lookup, new_leaf]
  | node b pre d l r =>
    rw [radix_lookup]
    split_ifs
    · unfold attach_above; split
      · split_ifs <;> simp
      · simp
    · unfold attach_branch; split_ifs <;> simp
    · simp
    · simp
    · simp

theorem wf_new_leaf (p : prefix_t) : wf (new_leaf p) := by
  simp [new_leaf, wf, stored, RADIX_WALK, agree_refl]

theorem mem_stored_lookup {t : radix_node_t} {p x : prefix_t}
    (h : x ∈ stored (radix_lookup t p).1) : x = p ∨ x ∈ stored t := by
  induction t with
  | null => simp [radix_lookup, new_leaf, stored, RADIX_WALK] at h; exact Or.inl h
  | node b pre d l r ihl ihr =>
    rw [radix_lookup] at h
    split_ifs at h with h1 h2 h4 h5
    · unfold attach_above at h
      split at h
      · split_ifs at h <;>
        · rw [mem_stored_node] at h
          simpa [stored_null, eq_comm] using h
      · rw [mem_stored_node] at h
        simpa [stored_null, eq_comm] using h
    · unfold attach_branch at h
      split_ifs at h <;>
      · rw [mem_stored_node] at h
        simp [new_leaf, stored_node_some, stored_null] at h
        tauto
    · cases pre with
      | none =>
        simp only [own_or] at h
        rw [mem_stored_node] at h ⊢
        simp at h ⊢
        rcases h with h | h | h
        · exact Or.inl h.symm
        · exact Or.inr (Or.inl h)
        · exact Or.inr (Or.inr h)
      | some q => exact Or.inr h
    · rw [mem_stored_node] at h ⊢
      rcases h with h | h | h
      · exact Or.inr (Or.inl h)
      · exact Or.inr (Or.inr (Or.inl h))
      · rcases ihr h with h | h
        · exact Or.inl h
        · exact Or.inr (Or.inr (Or.inr h))
    · rw [mem_stored_node] at h ⊢
      rcases h with h | h | h
      · exact Or.inr (Or.inl h)
      · rcases ihl h with h | h
        · exact Or.inl h
        · exact Or.inr (Or.inr (Or.inl h))
      · exact Or.inr (Or.inr (Or.inr h))

/-- Adding a prefix that agrees with one member keeps a set of prefixes in
agreement. -/
theorem agree_with_new {S : List prefix_t} {n : Nat} {p q : prefix_t}
    (hS : ∀ x ∈ S, ∀ y ∈ S, agree x y n) (hq : q ∈ S) (hp : agree p q n)
    {x y : prefix_t} (hx : x = p ∨ x ∈ S) (hy : y = p ∨ y ∈ S) : agree x y n := by
  rcases hx with rfl | hx <;> rcases hy with rfl | hy
  · exact agree_refl _ _
  · exact agree_trans hp (hS q hq y hy)
  · exact agree_trans (hS x hx q hq) (agree_symm hp)
  · exact hS x hx y hy

/-- The lookup keeps the tree invariant. -/
theorem lookup_wf {t : radix_node_t} (hwf : wf t) (p : prefix_t) : wf (radix_lookup t p).1 := by
  induction t with
  | null => simpa [radix_lookup] using wf_new_leaf p
  | node b pre d l r ihl ihr =>
    obtain ⟨q, hq⟩ := rep_some_of_wf hwf (by simp)
    have hqm := rep_mem hq
    have hdle := diverge_le (node b pre d l r) b p
    have hm1 := Nat.min_le_left b p.bitlen
    have hm2 := Nat.min_le_right b p.bitlen
    have hdq : diverge (node b pre d l r) b p = differ_bit p q (min b p.bitlen) := by
      simp [diverge, hq]
    have hagd : agree p q (diverge (node b pre d l r) b p) := by
      rw [hdq]; exact differ_bit_agree _ _ _
    have hall := hwf.2.2.1
    have hge : ∀ x ∈ stored (node b pre d l r), b ≤ x.bitlen := fun x hx => wf_bitlen_ge hwf hx
    rw [radix_lookup]
    split_ifs with h1 h2 h4 h5
    · -- a new terminal above
      have hL : p.bitlen < b := by omega
      have hpq : agree p q p.bitlen := by rw [← h2]; exact hagd
      have hside : ∀ x ∈ stored (node b pre d l r),
          p.bitlen < x.bitlen ∧ bit_test x p.bitlen = bit_test q p.bitlen := by
        intro x hx
        exact ⟨lt_of_lt_of_le hL (hge x hx), hall x hx q hqm _ hL⟩
      have hag : ∀ x ∈ stored (node p.bitlen (some p) 0 null (node b pre d l r)),
          ∀ y ∈ stored (node p.bitlen (some p) 0 null (node b pre d l r)),
            agree x y p.bitlen := by
        intro x hx y hy
        rw [stored_node_some, stored_null, List.nil_append, List.mem_cons] at hx hy
        exact agree_with_new (fun x hx y hy => agree_mono (hall x hx y hy) hL.le) hqm hpq hx hy
      have hag' : ∀ x ∈ stored (node p.bitlen (some p) 0 (node b pre d l r) null),
          ∀ y ∈ stored (node p.bitlen (some p) 0 (node b pre d l r) null),
            agree x y p.bitlen := by
        intro x hx y hy
        rw [stored_node_some, stored_null, List.append_nil, List.mem_cons] at hx hy
        exact agree_with_new (fun x hx y hy => agree_mono (hall x hx y hy) hL.le) hqm hpq hx hy
      unfold attach_above
      rw [hq]
      simp only
      split_ifs with h3
      · refine ⟨by simp, by simp, hag, by simp [stored_null], ?_, trivial, hwf⟩
        intro x hx
        rw [← h3]; exact hside x hx
      · refine ⟨by simp, by simp, hag', ?_, by simp [stored_null], hwf, trivial⟩
        intro x hx
        have := hside x hx
        simp only [Bool.not_eq_true] at h3
        rw [← h3]; exact this
    · -- a new branch node
      have hD : diverge (node b pre d l r) b p < p.bitlen := by omega
      have hne := differ_bit_lt p q (min b p.bitlen) (by rw [← hdq]; omega)
      rw [← hdq] at hne
      have hside : ∀ x ∈ stored (node b pre d l r),
          diverge (node b pre d l r) b p < x.bitlen ∧
          bit_test x (diverge (node b pre d l r) b p)
            = bit_test q (diverge (node b pre d l r) b p) := by
        intro x hx
        exact ⟨lt_of_lt_of_le h1 (hge x hx), hall x hx q hqm _ h1⟩
      have hag : ∀ x y, (x = p ∨ x ∈ stored (node b pre d l r)) →
          (y = p ∨ y ∈ stored (node b pre d l r)) →
          agree x y (diverge (node b pre d l r) b p) := fun x y hx hy =>
        agree_with_new (fun x hx y hy => agree_mono (hall x hx y hy) h1.le) hqm hagd hx hy
      unfold attach_branch
      split_ifs with h3
      · refine ⟨by simp, by simp [new_leaf], ?_, ?_, ?_, hwf, wf_new_leaf p⟩
        · intro x hx y hy
          rw [stored_node_none] at hx hy
          simp only [new_leaf, stored_node_some, stored_null, List.mem_append, List.mem_cons,
            List.append_nil, List.not_mem_nil, or_false] at hx hy
          exact hag x y hx.symm hy.symm
        · intro x hx
          refine ⟨(hside x hx).1, ?_⟩
          rw [(hside x hx).2]
          rw [h3] at hne
          cases hb : bit_test q (diverge (node b pre d l r) b p) with
          | false => rfl
          | true => rw [hb] at hne; exact absurd rfl hne
        · intro x hx
          simp only [new_leaf, stored_node_some, stored_null, List.mem_cons, List.append_nil,
            List.not_mem_nil, or_false] at hx
          subst hx
          exact ⟨hD, h3⟩
      · simp only [Bool.not_eq_true] at h3
        refine ⟨by simp, by simp [new_leaf], ?_, ?_, ?_, wf_new_leaf p, hwf⟩
        · intro x hx y hy
          rw [stored_node_none] at hx hy
          simp only [new_leaf, stored_node_some, stored_null, List.mem_append, List.mem_cons,
            List.append_nil, List.not_mem_nil, or_false] at hx hy
          exact hag x y hx hy
        · intro x hx
          simp only [new_leaf, stored_node_some, stored_null, List.mem_cons, List.append_nil,
            List.not_mem_nil, or_false] at hx
          subst hx
          exact ⟨hD, h3⟩
        · intro x hx
          refine ⟨(hside x hx).1, ?_⟩
          rw [(hside x hx).2]
          rw [h3] at hne
          cases hb : bit_test q (diverge (node b pre d l r) b p) with
          | true => rfl
          | false => rw [hb] at hne; exact absurd rfl hne
    · -- the node of the exact key
      have hD : diverge (node b pre d l r) b p = b := by omega
      cases pre with
      | some x => exact hwf
      | none =>
        obtain ⟨-, h2', -, h4', h5', hl, hr⟩ := hwf
        refine ⟨by simp [own_or, h4], by simp [own_or], ?_, h4', h5', hl, hr⟩
        intro x hx y hy
        simp only [own_or, stored_node_some, List.mem_cons] at hx hy
        rw [← stored_node_none b d] at hx hy
        exact agree_with_new hall hqm (by rw [← hD]; exact hagd) hx hy
    · -- down the right child
      have hD : diverge (node b pre d l r) b p = b := by omega
      have hb : b < p.bitlen := by omega
      obtain ⟨h1', h2', -, h4', h5', hl, hr⟩ := hwf
      have hmem : ∀ x, x ∈ stored (node b pre d l (radix_lookup r p).1) →
          x = p ∨ x ∈ stored (node b pre d l r) := by
        intro x hx
        rw [mem_stored_node] at hx ⊢
        rcases hx with h | h | h
        · exact Or.inr (Or.inl h)
        · exact Or.inr (Or.inr (Or.inl h))
        · rcases mem_stored_lookup h with h | h
          · exact Or.inl h
          · exact Or.inr (Or.inr (Or.inr h))
      refine ⟨h1', ?_, ?_, h4', ?_, hl, ihr hr⟩
      · intro hn
        exact ⟨(h2' hn).1, Or.inr (lookup_ne_null r p)⟩
      · intro x hx y hy
        exact agree_with_new hall hqm (by rw [← hD]; exact hagd) (hmem x hx) (hmem y hy)
      · intro x hx
        rcases mem_stored_lookup hx with rfl | h
        · exact ⟨hb, h5⟩
        · exact h5' x h
    · -- down the left child
      have hD : diverge (node b pre d l r) b p = b := by omega
      have hb : b < p.bitlen := by omega
      simp only [Bool.not_eq_true] at h5
      obtain ⟨h1', h2', -, h4', h5', hl, hr⟩ := hwf
      have hmem : ∀ x, x ∈ stored (node b pre d (radix_lookup l p).1 r) →
          x = p ∨ x ∈ stored (node b pre d l r) := by
        intro x hx
        rw [mem_stored_node] at hx ⊢
        rcases hx with h | h | h
        · exact Or.inr (Or.inl h)
        · rcases mem_stored_lookup h with h | h
          · exact Or.inl h
          · exact Or.inr (Or.inr (Or.inl h))
        · exact Or.inr (Or.inr (Or.inr h))
      refine ⟨h1', ?_, ?_, ?_, h5', ihl hl, hr⟩
      · intro hn
        exact ⟨(h2' hn).1, Or.inl (lookup_ne_null l p)⟩
      · intro x hx y hy
        exact agree_with_new hall hqm (by rw [← hD]; exact hagd) (hmem x hx) (hmem y hy)
      · intro x hx
        rcases mem_stored_lookup hx with rfl | h
        · exact ⟨hb, h5⟩
        · exact h4' x h

/-- Looking up a key that is stored changes nothing and returns its node. -/
theorem lookup_found {t : radix_node_t} (hwf : wf t) {p : prefix_t} {w : List Bool}
    (h : radix_search_exact t p = some w) : radix_lookup t p = (t, w) := by
  induction t generalizing w with
  | null => simp [radix_search_exact] at h
  | node b pre d l r ihl ihr =>
    obtain ⟨x, d', hn, hk⟩ := search_exact_sound hwf h
    have hx : x ∈ stored (node b pre d l r) := mem_stored_of_mem_walk (node_at_mem hn)
    have hbl : b ≤ p.bitlen := by rw [← hk.1]; exact wf_bitlen_ge hwf hx
    have hD : diverge (node b pre d l r) b p = b := by
      rw [diverge_eq hwf p hx, Nat.min_eq_left hbl, differ_bit_eq_iff]
      exact agree_symm (agree_mono hk.2 (by rw [hk.1]; exact hbl))
    obtain ⟨-, -, -, -, -, hl, hr⟩ := hwf
    rw [radix_lookup]
    simp only [hD, lt_irrefl, if_false]
    simp only [radix_search_exact] at h
    split_ifs at h with c1 c2 c3
    · obtain ⟨w', hw', rfl⟩ := Option.map_eq_some'.mp h
      have hne : p.bitlen ≠ b := by omega
      simp [hne, c2, ihr hr hw']
    · obtain ⟨w', hw', rfl⟩ := Option.map_eq_some'.mp h
      have hne : p.bitlen ≠ b := by omega
      simp [hne, c2, ihl hl hw']
    · have he : p.bitlen = b := by omega
      cases pre with
      | none => simp at h
      | some q =>
        simp only at h
        split_ifs at h
        cases h
        simp [he, own_or]

/-- Looking up a key that is not stored adds one terminal node for it, with a null
`data`, and leaves the other nodes of the walk as they were; writing the new node's
`data` changes that element of the walk only. -/
theorem lookup_new {t : radix_node_t} (hwf : wf t) {p : prefix_t}
    (h : radix_search_exact t p = none) :
    ∃ l1 l2, RADIX_WALK t = l1 ++ l2 ∧
      RADIX_WALK (radix_lookup t p).1 = l1 ++ (p, 0) :: l2 ∧
      node_at (radix_lookup t p).1 (radix_lookup t p).2 = some (p, 0) ∧
      ∀ v, RADIX_WALK (set_data (radix_lookup t p).1 (radix_lookup t p).2 v)
        = l1 ++ (p, v) :: l2 := by
  induction t with
  | null => exact ⟨[], [], by simp [RADIX_WALK], by simp [radix_lookup, new_leaf, RADIX_WALK],
      by simp [radix_lookup, new_leaf, node_at],
      by intro v; simp [radix_lookup, new_leaf, set_data, RADIX_WALK]⟩
  | node b pre d l r ihl ihr =>
    have hdle := diverge_le (node b pre d l r) b p
    have hm1 := Nat.min_le_left b p.bitlen
    have hm2 := Nat.min_le_right b p.bitlen
    rw [radix_lookup]
    split_ifs with h1 h2 h4 h5
    · refine ⟨[], RADIX_WALK (node b pre d l r), by simp, ?_, ?_, ?_⟩
      · unfold attach_above
        split
        · split_ifs <;> simp [RADIX_WALK]
        · simp [RADIX_WALK]
      · unfold attach_above
        split
        · split_ifs <;> simp [node_at]
        · simp [node_at]
      · intro v
        unfold attach_above
        split
        · split_ifs <;> simp [set_data, RADIX_WALK]
        · simp [set_data, RADIX_WALK]
    · unfold attach_branch
      split_ifs with h3
      · exact ⟨RADIX_WALK (node b pre d l r), [], by simp,
          by simp [RADIX_WALK, new_leaf], by simp [node_at, new_leaf],
          by intro v; simp [set_data, RADIX_WALK, new_leaf]⟩
      · exact ⟨[], RADIX_WALK (node b pre d l r), by simp,
          by simp [RADIX_WALK, new_leaf], by simp [node_at, new_leaf],
          by intro v; simp [set_data, RADIX_WALK, new_leaf]⟩
    · have hD : diverge (node b pre d l r) b p = b := by omega
      cases pre with
      | some q =>
        exfalso
        have hag : agree q p b := by
          simp only [diverge, rep, h4, min_self] at hD
          exact agree_symm ((differ_bit_eq_iff p q b).mp hD)
        simp [radix_search_exact, h4, comp_with_mask_iff, hag] at h
      | none =>
        have hd0 : d = 0 := (hwf.2.1 rfl).1
        subst hd0
        exact ⟨[], RADIX_WALK (node b none 0 l r), by simp,
          by simp [RADIX_WALK, own_or], by simp [node_at, own_or],
          by intro v; simp [set_data, RADIX_WALK, own_or]⟩
    · have hb : b < p.bitlen := by omega
      have hs : radix_search_exact r p = none := by
        simpa [radix_search_exact, hb, h5] using h
      obtain ⟨l1, l2, e1, e2, e3, e4⟩ := ihr hwf.2.2.2.2.2.2 hs
      cases pre with
      | none =>
        exact ⟨RADIX_WALK l ++ l1, l2, by simp [RADIX_WALK, e1], by simp [RADIX_WALK, e2],
          by simp [node_at, e3], by intro v; simp [set_data, RADIX_WALK, e4]⟩
      | some q =>
        exact ⟨(q, d) :: (RADIX_WALK l ++ l1), l2, by simp [RADIX_WALK, e1],
          by simp [RADIX_WALK, e2], by simp [node_at, e3],
          by intro v; simp [set_data, RADIX_WALK, e4]⟩
    · have hb : b < p.bitlen := by omega
      have hs : radix_search_exact l p = none := by
        simpa [radix_search_exact, hb, h5] using h
      obtain ⟨l1, l2, e1, e2, e3, e4⟩ := ihl hwf.2.2.2.2.2.1 hs
      cases pre with
      | none =>
        exact ⟨l1, l2 ++ RADIX_WALK r, by simp [RADIX_WALK, e1], by simp [RADIX_WALK, e2],
          by simp [node_at, e3], by intro v; simp [set_data, RADIX_WALK, e4]⟩
      | some q =>
        exact ⟨(q, d) :: l1, l2 ++ RADIX_WALK r, by simp [RADIX_WALK, e1],
          by simp [RADIX_WALK, e2], by simp [node_at, e3],
          by intro v; simp [set_data, RADIX_WALK, e4]⟩

/-- The node the lookup returns is a terminal node whose prefix is the target's key. -/
theorem lookup_node {t : radix_node_t} (hwf : wf t) (p : prefix_t) :
    ∃ q d, node_at (radix_lookup t p).1 (radix_lookup t p).2 = some (q, d) ∧ same_key q p := by
  cases h : radix_search_exact t p with
  | none =>
    obtain ⟨-, -, -, -, e3, -⟩ := lookup_new hwf h
    exact ⟨p, 0, e3, same_key_refl p⟩
  | some w =>
    rw [lookup_found hwf h]
    exact search_exact_sound hwf h

/-! ## Writing and removing keep the invariant -/

theorem set_data_ne_null {t : radix_node_t} (w : List Bool) (v : VALUE) (h : t ≠ null) :
    set_data t w v ≠ null := by
  cases t with
  | null => exact absurd rfl h
  | node b pre d l r =>
    cases w with
    | nil => simp [set_data]
    | cons c w => cases c <;> simp [set_data]

theorem set_data_wf {t : radix_node_t} (hwf : wf t) {w : List Bool} {q : prefix_t} {d : VALUE}
    (h : node_at t w = some (q, d)) (v : VALUE) : wf (set_data t w v) := by
  induction t generalizing w with
  | null => simp [node_at] at h
  | node b pre d0 l r ihl ihr =>
    obtain ⟨h1, h2, h3, h4, h5, hl, hr⟩ := hwf
    cases w with
    | nil =>
      cases pre with
      | none => simp [node_at] at h
      | some x =>
        refine ⟨h1, by simp, ?_, h4, h5, hl, hr⟩
        intro a ha c hc
        rw [stored_node_some] at ha hc
        rw [stored_node_some] at h3
        exact h3 a ha c hc
    | cons c w =>
      cases c with
      | false =>
        have hn : node_at l w = some (q, d) := by simpa [node_at] using h
        have hl0 : l ≠ null := by
          intro e; rw [e] at hn; simp [node_at] at hn
        refine ⟨h1, ?_, ?_, ?_, h5, ihl hl hn, hr⟩
        · intro hp
          exact ⟨(h2 hp).1, Or.inl (set_data_ne_null w v hl0)⟩
        · intro a ha c hc
          rw [mem_stored_node, stored_set_data, ← mem_stored_node (d := d0)] at ha hc
          exact h3 a ha c hc
        · intro a ha
          rw [stored_set_data] at ha
          exact h4 a ha
      | true =>
        have hn : node_at r w = some (q, d) := by simpa [node_at] using h
        have hr0 : r ≠ null := by
          intro e; rw [e] at hn; simp [node_at] at hn
        refine ⟨h1, ?_, ?_, h4, ?_, hl, ihr hr hn⟩
        · intro hp
          exact ⟨(h2 hp).1, Or.inr (set_data_ne_null w v hr0)⟩
        · intro a ha c hc
          rw [mem_stored_node, stored_set_data, ← mem_stored_node (d := d0)] at ha hc
          exact h3 a ha c hc
        · intro a ha
          rw [stored_set_data] at ha
          exact h5 a ha

theorem stored_prune (t : radix_node_t) : stored (prune t) = stored t := by
  simp [stored, walk_prune]

theorem wf_prune {t : radix_node_t} (h : wf t) : wf (prune t) := by
  unfold prune
  split
  · trivial
  · exact h

/-- A node that keeps a prefix or a child survives pruning; what pruning returns is
never a dead branch node. -/
theorem wf_prune_node {b : Nat} {pre : Option prefix_t} {d : VALUE} {l r : radix_node_t}
    (h1 : ∀ q, pre = some q → q.bitlen = b) (h2 : pre = none → d = 0)
    (h3 : ∀ x ∈ stored (node b pre d l r), ∀ y ∈ stored (node b pre d l r), agree x y b)
    (h4 : ∀ x ∈ stored l, b < x.bitlen ∧ bit_test x b = false)
    (h5 : ∀ x ∈ stored r, b < x.bitlen ∧ bit_test x b = true)
    (hl : wf l) (hr : wf r) : wf (prune (node b pre d l r)) := by
  cases pre with
  | some q => exact ⟨h1, by simp, h3, h4, h5, hl, hr⟩
  | none =>
    cases l with
    | null =>
      cases r with
      | null => simp [prune, wf]
      | node b' pre' d' l' r' =>
        exact ⟨h1, fun _ => ⟨h2 rfl, Or.inr (by simp)⟩, h3, h4, h5, hl, hr⟩
    | node b' pre' d' l' r' =>
      exact ⟨h1, fun _ => ⟨h2 rfl, Or.inl (by simp)⟩, h3, h4, h5, hl, hr⟩

theorem mem_stored_remove {t : radix_node_t} {w : List Bool} {x : prefix_t}
    (h : x ∈ stored (radix_remove t w)) : x ∈ stored t := by
  induction t generalizing w with
  | null => simpa [radix_remove] using h
  | node b pre d l r ihl ihr =>
    cases w with
    | nil =>
      simp only [radix_remove, stored_prune] at h
      rw [mem_stored_node] at h ⊢
      rcases h with h | h | h
      · cases h
      · exact Or.inr (Or.inl h)
      · exact Or.inr (Or.inr h)
    | cons c w =>
      cases c with
      | false =>
        simp only [radix_remove, stored_prune] at h
        rw [mem_stored_node] at h ⊢
        rcases h with h | h | h
        · exact Or.inl h
        · exact Or.inr (Or.inl (ihl h))
        · exact Or.inr (Or.inr h)
      | true =>
        simp only [radix_remove, stored_prune] at h
        rw [mem_stored_node] at h ⊢
        rcases h with h | h | h
        · exact Or.inl h
        · exact Or.inr (Or.inl h)
        · exact Or.inr (Or.inr (ihr h))

/-- Removing a node keeps the tree invariant. -/
theorem remove_wf {t : radix_node_t} (hwf : wf t) (w : List Bool) : wf (radix_remove t w) := by
  induction t generalizing w with
  | null => simp [radix_remove, wf]
  | node b pre d l r ihl ihr =>
    obtain ⟨h1, h2, h3, h4, h5, hl, hr⟩ := hwf
    cases w with
    | nil =>
      simp only [radix_remove]
      refine wf_prune_node (by simp) (by simp) ?_ h4 h5 hl hr
      intro x hx y hy
      have hx' : x ∈ stored (node b pre d l r) := by
        rw [mem_stored_node] at hx ⊢; rcases hx with h | h | h
        · cases h
        · exact Or.inr (Or.inl h)
        · exact Or.inr (Or.inr h)
      have hy' : y ∈ stored (node b pre d l r) := by
        rw [mem_stored_node] at hy ⊢; rcases hy with h | h | h
        · cases h
        · exact Or.inr (Or.inl h)
        · exact Or.inr (Or.inr h)
      exact h3 x hx' y hy'
    | cons c w =>
      cases c with
      | false =>
        simp only [radix_remove]
        have hsub : ∀ x, x ∈ stored (node b pre d (radix_remove l w) r) →
            x ∈ stored (node b pre d l r) := by
          intro x hx
          rw [mem_stored_node] at hx ⊢; rcases hx with h | h | h
          · exact Or.inl h
          · exact Or.inr (Or.inl (mem_stored_remove h))
          · exact Or.inr (Or.inr h)
        exact wf_prune_node h1 (fun hp => (h2 hp).1)
          (fun x hx y hy => h3 x (hsub x hx) y (hsub y hy))
          (fun x hx => h4 x (mem_stored_remove hx)) h5 (ihl hl w) hr
      | true =>
        simp only [radix_remove]
        have hsub : ∀ x, x ∈ stored (node b pre d l (radix_remove r w)) →
            x ∈ stored (node b pre d l r) := by
          intro x hx
          rw [mem_stored_node] at hx ⊢; rcases hx with h | h | h
          · exact Or.inl h
          · exact Or.inr (Or.inl h)
          · exact Or.inr (Or.inr (mem_stored_remove h))
        exact wf_prune_node h1 (fun hp => (h2 hp).1)
          (fun x hx y hy => h3 x (hsub x hx) y (hsub y hy))
          h4 (fun x hx => h5 x (mem_stored_remove hx)) hl (ihr hr w)

/-! ## Exact search after removal; distinct keys; the best match -/

theorem search_exact_prune {t : radix_node_t} {p : prefix_t}
    (h : radix_search_exact t p = none) : radix_search_exact (prune t) p = none := by
  unfold prune
  split
  · simp [radix_search_exact]
  · exact h

/-- After the node an exact search found is removed, the exact search finds nothing. -/
theorem search_exact_remove {t : radix_node_t} {p : prefix_t} {w : List Bool}
    (h : radix_search_exact t p = some w) : radix_search_exact (radix_remove t w) p = none := by
  induction t generalizing w with
  | null => simp [radix_search_exact] at h
  | node b pre d l r ihl ihr =>
    simp only [radix_search_exact] at h
    split_ifs at h with c1 c2 c3
    · obtain ⟨w', hw', rfl⟩ := Option.map_eq_some'.mp h
      simp only [radix_remove]
      apply search_exact_prune
      simp [radix_search_exact, c1, c2, ihr hw']
    · obtain ⟨w', hw', rfl⟩ := Option.map_eq_some'.mp h
      simp only [radix_remove]
      apply search_exact_prune
      simp [radix_search_exact, c1, c2, ihl hw']
    · cases pre with
      | none => simp at h
      | some q =>
        simp only at h
        split_ifs at h
        cases h
        simp only [radix_remove]
        apply search_exact_prune
        simp [radix_search_exact, c1, c3]

/-- In a well-formed tree no two terminal nodes have the same key. -/
theorem stored_distinct {t : radix_node_t} (hwf : wf t) :
    (stored t).Pairwise (fun a b => ¬ same_key a b) := by
  induction t with
  | null => simp [stored_null]
  | node b pre d l r ihl ihr =>
    obtain ⟨h1, -, -, h4, h5, hl, hr⟩ := hwf
    have hlr : (stored l ++ stored r).Pairwise (fun a b => ¬ same_key a b) := by
      rw [List.pairwise_append]
      refine ⟨ihl hl, ihr hr, ?_⟩
      intro x hx y hy hk
      have hxb := h4 x hx
      have hyb := h5 y hy
      have := hk.2 b hxb.1
      rw [hxb.2, hyb.2] at this
      cases this
    cases pre with
    | none => rw [stored_node_none]; exact hlr
    | some q =>
      rw [stored_node_some, List.pairwise_cons]
      refine ⟨?_, hlr⟩
      intro x hx hk
      have hq : q.bitlen = b := h1 q rfl
      rcases List.mem_append.mp hx with h | h
      · have := (h4 x h).1; have := hk.1; omega
      · have := (h5 x h).1; have := hk.1; omega

/-- A stored prefix that contains the target lies on the target's side of a node. -/
theorem covers_side {b : Nat} {x p : prefix_t} (hx : b < x.bitlen) (hc : covers x p) :
    b < p.bitlen ∧ bit_test p b = bit_test x b :=
  ⟨lt_of_lt_of_le hx hc.1, (hc.2 b hx).symm⟩

/-- The best search returns the longest stored prefix that contains the target, and
nothing exactly when no stored prefix contains it. -/
theorem search_best_spec {t : radix_node_t} (hwf : wf t) (p : prefix_t) :
    (∀ w, radix_search_best t p = some w →
      ∃ q d, node_at t w = some (q, d) ∧ covers q p ∧
        ∀ x ∈ stored t, covers x p → x.bitlen ≤ q.bitlen) ∧
    (radix_search_best t p = none → ∀ x ∈ stored t, ¬ covers x p) := by
  induction t with
  | null => simp [radix_search_best, stored_null]
  | node b pre d l r ihl ihr =>
    obtain ⟨h1, -, -, h4, h5, hl, hr⟩ := hwf
    obtain ⟨ihl1, ihl2⟩ := ihl hl
    obtain ⟨ihr1, ihr2⟩ := ihr hr
    -- what the two subtrees can contribute
    have hleft : ∀ x ∈ stored l, covers x p → b < p.bitlen ∧ bit_test p b = false := by
      intro x hx hc
      have := covers_side (h4 x hx).1 hc
      exact ⟨this.1, by rw [this.2]; exact (h4 x hx).2⟩
    have hright : ∀ x ∈ stored r, covers x p → b < p.bitlen ∧ bit_test p b = true := by
      intro x hx hc
      have := covers_side (h5 x hx).1 hc
      exact ⟨this.1, by rw [this.2]; exact (h5 x hx).2⟩
    by_cases c1 : b < p.bitlen
    · cases c2 : bit_test p b with
      | true =>
        have hnl : ∀ x ∈ stored l, ¬ covers x p := by
          intro x hx hc; have := (hleft x hx hc).2; rw [c2] at this; cases this
        cases hs : radix_search_best r p with
        | some w' =>
          obtain ⟨q, d', hn, hc, hmax⟩ := ihr1 w' hs
          have hqr : q ∈ stored r := mem_stored_of_mem_walk (node_at_mem hn)
          constructor
          · intro w hw
            simp [radix_search_best, c1, c2, hs] at hw
            subst hw
            refine ⟨q, d', by simp [node_at, hn], hc, ?_⟩
            intro x hx hcx
            rcases mem_stored_node.mp hx with h | h | h
            · have := h1 x h; have := (h5 q hqr).1; omega
            · exact absurd hcx (hnl x h)
            · exact hmax x h hcx
          · intro hw
            simp [radix_search_best, c1, c2, hs] at hw
        | none =>
          have hnr := ihr2 hs
          cases pre with
          | none =>
            constructor
            · intro w hw; simp [radix_search_best, c1, c2, hs] at hw
            · intro _ x hx hcx
              rcases mem_stored_node.mp hx with h | h | h
              · cases h
              · exact hnl x h hcx
              · exact hnr x h hcx
          | some q =>
            by_cases c3 : q.bitlen ≤ p.bitlen ∧ comp_with_mask q p q.bitlen = true
            · constructor
              · intro w hw
                simp [radix_search_best, c1, c2, hs, c3] at hw
                subst hw
                refine ⟨q, d, by simp [node_at], ⟨c3.1, (comp_with_mask_iff _ _ _).mp c3.2⟩, ?_⟩
                intro x hx hcx
                rcases mem_stored_node.mp hx with h | h | h
                · cases h; exact le_refl _
                · exact absurd hcx (hnl x h)
                · exact absurd hcx (hnr x h)
              · intro hw; simp [radix_search_best, c1, c2, hs, c3] at hw
            · constructor
              · intro w hw; simp [radix_search_best, c1, c2, hs, c3] at hw
              · intro _ x hx hcx
                rcases mem_stored_node.mp hx with h | h | h
                · cases h
                  exact c3 ⟨hcx.1, (comp_with_mask_iff _ _ _).mpr hcx.2⟩
                · exact hnl x h hcx
                · exact hnr x h hcx
      | false =>
        have hnr : ∀ x ∈ stored r, ¬ covers x p := by
          intro x hx hc; have := (hright x hx hc).2; rw [c2] at this; cases this
        cases hs : radix_search_best l p with
        | some w' =>
          obtain ⟨q, d', hn, hc, hmax⟩ := ihl1 w' hs
          have hql : q ∈ stored l := mem_stored_of_mem_walk (node_at_mem hn)
          constructor
          · intro w hw
            simp [radix_search_best, c1, c2, hs] at hw
            subst hw
            refine ⟨q, d', by simp [node_at, hn], hc, ?_⟩
            intro x hx hcx
            rcases mem_stored_node.mp hx with h | h | h
            · have := h1 x h; have := (h4 q hql).1; omega
            · exact hmax x h hcx
            · exact absurd hcx (hnr x h)
          · intro hw
            simp [radix_search_best, c1, c2, hs] at hw
        | none =>
          have hnl := ihl2 hs
          cases pre with
          | none =>
            constructor
            · intro w hw; simp [radix_search_best, c1, c2, hs] at hw
            · intro _ x hx hcx
              rcases mem_stored_node.mp hx with h | h | h
              · cases h
              · exact hnl x h hcx
              · exact hnr x h hcx
          | some q =>
            by_cases c3 : q.bitlen ≤ p.bitlen ∧ comp_with_mask q p q.bitlen = true
            · constructor
              · intro w hw
                simp [radix_search_best, c1, c2, hs, c3] at hw
                subst hw
                refine ⟨q, d, by simp [node_at], ⟨c3.1, (comp_with_mask_iff _ _ _).mp c3.2⟩, ?_⟩
                intro x hx hcx
                rcases mem_stored_node.mp hx with h | h | h
                · cases h; exact le_refl _
                · exact absurd hcx (hnl x h)
                · exact absurd hcx (hnr x h)
              · intro hw; simp [radix_search_best, c1, c2, hs, c3] at hw
            · constructor
              · intro w hw; simp [radix_search_best, c1, c2, hs, c3] at hw
              · intro _ x hx hcx
                rcases mem_stored_node.mp hx with h | h | h
                · cases h
                  exact c3 ⟨hcx.1, (comp_with_mask_iff _ _ _).mpr hcx.2⟩
                · exact hnl x h hcx
                · exact hnr x h hcx
    · have hnl : ∀ x ∈ stored l, ¬ covers x p := fun x hx hc => c1 (hleft x hx hc).1
      have hnr : ∀ x ∈ stored r, ¬ covers x p := fun x hx hc => c1 (hright x hx hc).1
      cases pre with
      | none =>
        constructor
        · intro w hw; simp [radix_search_best, c1] at hw
        · intro _ x hx hcx
          rcases mem_stored_node.mp hx with h | h | h
          · cases h
          · exact hnl x h hcx
          · exact hnr x h hcx
      | some q =>
        by_cases c3 : q.bitlen ≤ p.bitlen ∧ comp_with_mask q p q.bitlen = true
        · constructor
          · intro w hw
            simp [radix_search_best, c1, c3] at hw
            subst hw
            refine ⟨q, d, by simp [node_at], ⟨c3.1, (comp_with_mask_iff _ _ _).mp c3.2⟩, ?_⟩
            intro x hx hcx
            rcases mem_stored_node.mp hx with h | h | h
            · cases h; exact le_refl _
            · exact absurd hcx (hnl x h)
            · exact absurd hcx (hnr x h)
          · intro hw; simp [radix_search_best, c1, c3] at hw
        · constructor
          · intro w hw; simp [radix_search_best, c1, c3] at hw
          · intro _ x hx hcx
            rcases mem_stored_node.mp hx with h | h | h
            · cases h
              exact c3 ⟨hcx.1, (comp_with_mask_iff _ _ _).mpr hcx.2⟩
            · exact hnl x h hcx
            · exact hnr x h hcx

/-! ## The store: opening, selecting a tree, the invariant -/

theorem GetRadix_some {s : radixdata} {t4 t6 : radix_tree_t} (h4 : s.rt4 = some t4)
    (h6 : s.rt6 = some t6) : GetRadix (Data_Get_Struct s) = Ret.ok (t4, t6) := by
  simp [GetRadix, Data_Get_Struct, h4, h6]

theorem is_open_iff (s : radixdata) :
    is_open s ↔ ∃ t4 t6, s.rt4 = some t4 ∧ s.rt6 = some t6 := by
  unfold is_open
  cases h4 : s.rt4 <;> cases h6 : s.rt6 <;> simp

theorem GetRadix_closed {s : radixdata} (h : ¬ is_open s) :
    GetRadix (Data_Get_Struct s) = Ret.raise Error.closed_radix := by
  unfold is_open at h
  cases h4 : s.rt4 with
  | none => simp [GetRadix, Data_Get_Struct, h4]
  | some t4 =>
    cases h6 : s.rt6 with
    | none => simp [GetRadix, Data_Get_Struct, h4, h6]
    | some t6 => exact absurd ⟨by simp [h4], by simp [h6]⟩ h

theorem args_family {addr : String} {n : Int} {p : prefix_t}
    (h : args_to_prefix addr n = Ret.ok (some p)) :
    p.family = AF_INET ∨ p.family = AF_INET6 := by
  unfold args_to_prefix at h
  split at h
  · cases h
  · split_ifs at h with c
    · cases h
    · cases h
      by_contra hc
      push_neg at hc
      exact c hc

theorem AF_ne : AF_INET ≠ AF_INET6 := by decide

theorem picked_eq {p : prefix_t} {s : radixdata} {t4 t6 : radix_tree_t} (h4 : s.rt4 = some t4)
    (h6 : s.rt6 = some t6) : picked p s = some (PICKRT p (t4, t6)) := by
  unfold picked PICKRT
  split_ifs <;> simp [h4, h6]

theorem picked_SETRT (p : prefix_t) (s : radixdata) (t : radix_tree_t) :
    picked p (SETRT p s t) = some t := by
  unfold picked SETRT
  split_ifs <;> rfl

theorem other_SETRT (p : prefix_t) (s : radixdata) (t : radix_tree_t) :
    other p (SETRT p s t) = other p s := by
  unfold other SETRT
  split_ifs <;> rfl

theorem open_SETRT (p : prefix_t) {s : radixdata} (h : is_open s) (t : radix_tree_t) :
    is_open (SETRT p s t) := by
  unfold is_open SETRT at *
  split_ifs <;> simp [h.1, h.2]

theorem gen_SETRT (p : prefix_t) (s : radixdata) (t : radix_tree_t) :
    (SETRT p s t).gen_id = s.gen_id := by
  unfold SETRT
  split_ifs <;> rfl

theorem picked_bump (p : prefix_t) (s : radixdata) : picked p (bump s) = picked p s := rfl

theorem other_bump (p : prefix_t) (s : radixdata) : other p (bump s) = other p s := rfl

theorem open_bump {s : radixdata} (h : is_open s) : is_open (bump s) := h

theorem gen_bump (s : radixdata) : (bump s).gen_id = (s.gen_id + 1) % UINT_MOD := rfl

theorem picked_walk_set (p : prefix_t) (s : radixdata) (t : radix_tree_t) :
    picked_walk p (bump (SETRT p s t)) = RADIX_WALK t.head := by
  simp [picked_walk, picked_bump, picked_SETRT]

theorem other_walk_set (p : prefix_t) (s : radixdata) (t : radix_tree_t) :
    other_walk p (bump (SETRT p s t)) = other_walk p s := by
  simp [other_walk, other_bump, other_SETRT]

/-- The walk of both trees, seen from the family of a prefix: the selected tree and
the other one, in the order of the families. -/
theorem entries_eq (p : prefix_t) {s : radixdata} (h : is_open s) :
    entries s = if p.family = AF_INET6 then other_walk p s ++ picked_walk p s
      else picked_walk p s ++ other_walk p s := by
  obtain ⟨t4, t6, h4, h6⟩ := (is_open_iff s).mp h
  unfold entries picked_walk other_walk picked other
  split_ifs <;> simp [h4, h6]

theorem live_append (xs ys : List (prefix_t × VALUE)) : live (xs ++ ys) = live xs ++ live ys := by
  simp [live]

theorem live_length_entries (p : prefix_t) {s : radixdata} (h : is_open s) :
    (live (entries s)).length = (live (picked_walk p s)).length + (live (other_walk p s)).length := by
  rw [entries_eq p h]
  split_ifs <;> simp [live_append, Nat.add_comm]

theorem walk_collect_ok (g : Nat) (xs : List (prefix_t × VALUE)) :
    walk_collect g g xs = Ret.ok (live xs) := by
  induction xs with
  | nil => simp [walk_collect, live]
  | cons x xs ih =>
    obtain ⟨p, d⟩ := x
    simp only [walk_collect, ne_eq, not_true_eq_false, if_false, ih]
    by_cases hd : d = 0 <;> simp [live, hd]

theorem walk_both_ok {s : radixdata} {t4 t6 : radix_tree_t} (h4 : s.rt4 = some t4)
    (h6 : s.rt6 = some t6) : walk_both s (t4, t6) = Ret.ok (live (entries s)) := by
  simp [walk_both, walk_collect_ok, entries, h4, h6]

theorem length_open {s : radixdata} (h : is_open s) :
    rb_radix_length s = (s, Ret.ok (live (entries s)).length) := by
  obtain ⟨t4, t6, h4, h6⟩ := (is_open_iff s).mp h
  simp [rb_radix_length, GetRadix_some h4 h6, walk_both_ok h4 h6]

/-- The invariant of the store, seen from the family of a prefix. -/
theorem store_inv_picked {p : prefix_t} {s : radixdata} (hf : p.family = AF_INET ∨ p.family = AF_INET6)
    (hinv : store_inv s) {t : radix_tree_t} (ht : picked p s = some t) :
    wf t.head ∧ ∀ x ∈ stored t.head, x.family = p.family := by
  unfold picked at ht
  split_ifs at ht with c
  · rw [c]; exact hinv.2.2 t ht
  · have : p.family = AF_INET := by tauto
    rw [this]; exact hinv.2.1 t ht

theorem store_inv_other {p : prefix_t} {s : radixdata} (hf : p.family = AF_INET ∨ p.family = AF_INET6)
    (hinv : store_inv s) {t : radix_tree_t} (ht : other p s = some t) :
    ∀ x ∈ stored t.head, x.family ≠ p.family := by
  unfold other at ht
  split_ifs at ht with c
  · intro x hx
    rw [c, (hinv.2.1 t ht).2 x hx]; exact AF_ne
  · have hp : p.family = AF_INET := by tauto
    intro x hx
    rw [hp, (hinv.2.2 t ht).2 x hx]; exact AF_ne.symm

/-- Replacing the selected tree by a well-formed tree of the same family keeps the
invariant of the store. -/
theorem store_inv_SETRT {p : prefix_t} {s : radixdata} (hf : p.family = AF_INET ∨ p.family = AF_INET6)
    (hinv : store_inv s) {t : radix_tree_t} (hwf : wf t.head)
    (hfam : ∀ x ∈ stored t.head, x.family = p.family) :
    store_inv (SETRT p s t) := by
  unfold SETRT
  split_ifs with c
  · refine ⟨hinv.1, hinv.2.1, ?_⟩
    intro t' ht'
    simp only [Option.some.injEq] at ht'
    subst ht'
    exact ⟨hwf, fun x hx => by rw [hfam x hx, c]⟩
  · have hp : p.family = AF_INET := by tauto
    refine ⟨hinv.1, ?_, hinv.2.2⟩
    intro t' ht'
    simp only [Option.some.injEq] at ht'
    subst ht'
    exact ⟨hwf, fun x hx => by rw [hfam x hx, hp]⟩

theorem store_inv_bump {s : radixdata} (hinv : store_inv s) : store_inv (bump s) :=
  ⟨Nat.mod_lt _ (by decide), hinv.2.1, hinv.2.2⟩

theorem store_inv_new : store_inv newRadixData := by decide

theorem is_open_new : is_open newRadixData := by decide

theorem succ_mod_ne (g : Nat) : (g + 1) % UINT_MOD ≠ g := by
  unfold UINT_MOD
  omega

theorem picked_open {p : prefix_t} {s : radixdata} (h : is_open s) : ∃ T, picked p s = some T := by
  obtain ⟨t4, t6, h4, h6⟩ := (is_open_iff s).mp h
  exact ⟨_, picked_eq h4 h6⟩

/-! ## What the operations do to an open store -/

/-- The method `add` is `[]=` with the value `Qtrue`. -/
theorem add_eq_add0 (s : radixdata) (addr : String) (plen : Option Int) :
    rb_radix_add s addr plen = rb_radix_add0 s addr plen Qtrue := rfl

/-- The effect of `[]=` (`rb_radix_add0`) with a valid prefix on an open store. -/
theorem add0_open {s : radixdata} (ho : is_open s) {addr : String} {plen : Option Int}
    {p : prefix_t} (hp : args_to_prefix addr (plen_of plen) = Ret.ok (some p))
    {T : radix_tree_t} (hT : picked p s = some T) (v : VALUE) :
    rb_radix_add0 s addr plen v =
      (bump (SETRT p s ⟨set_data (radix_lookup T.head p).1 (radix_lookup T.head p).2 v⟩),
       Ret.ok (some ⟨copied_pfx (node_at (radix_lookup T.head p).1
          (radix_lookup T.head p).2) p, v⟩)) := by
  obtain ⟨t4, t6, h4, h6⟩ := (is_open_iff s).mp ho
  rw [picked_eq h4 h6] at hT
  cases hT
  simp [rb_radix_add0, GetRadix_some h4 h6, hp, object_node_add]

/-- The effect of `delete` with a valid prefix on an open store. -/
theorem delete_open {s : radixdata} (ho : is_open s) {addr : String} {plen : Option Int}
    {p : prefix_t} (hp : args_to_prefix addr (plen_of plen) = Ret.ok (some p))
    {T : radix_tree_t} (hT : picked p s = some T) :
    rb_radix_delete s addr plen =
      match radix_search_exact T.head p with
      | none => (s, Ret.ok ())
      | some w => (bump (SETRT p s ⟨radix_remove (set_data T.head w 0) w⟩), Ret.ok ()) := by
  obtain ⟨t4, t6, h4, h6⟩ := (is_open_iff s).mp ho
  rw [picked_eq h4 h6] at hT
  cases hT
  simp only [rb_radix_delete, GetRadix_some h4 h6, hp]

/-- The result of `search_exact` with a valid prefix on an open store. -/
theorem search_exact_open {s : radixdata} (ho : is_open s) {addr : String} {plen : Option Int}
    {p : prefix_t} (hp : args_to_prefix addr (plen_of plen) = Ret.ok (some p))
    {T : radix_tree_t} (hT : picked p s = some T) :
    rb_radix_search_exact s addr plen =
      (s, Ret.ok (node_entry T.head (radix_search_exact T.head p))) := by
  obtain ⟨t4, t6, h4, h6⟩ := (is_open_iff s).mp ho
  rw [picked_eq h4 h6] at hT
  cases hT
  simp [rb_radix_search_exact, GetRadix_some h4 h6, hp]

/-- The result of `search_best` with a valid prefix on an open store. -/
theorem search_best_open {s : radixdata} (ho : is_open s) {addr : String} {plen : Option Int}
    {p : prefix_t} (hp : args_to_prefix addr (plen_of plen) = Ret.ok (some p))
    {T : radix_tree_t} (hT : picked p s = some T) :
    rb_radix_search_best s addr plen =
      (s, Ret.ok (node_entry T.head (radix_search_best T.head p))) := by
  obtain ⟨t4, t6, h4, h6⟩ := (is_open_iff s).mp ho
  rw [picked_eq h4 h6] at hT
  cases hT
  simp [rb_radix_search_best, GetRadix_some h4 h6, hp]

/-- Writing a node's `data` does not change what the searches find. -/
theorem search_exact_set_data (t : radix_node_t) (w : List Bool) (v : VALUE) (p : prefix_t) :
    radix_search_exact (set_data t w v) p = radix_search_exact t p := by
  induction t generalizing w with
  | null => simp [set_data]
  | node b pre d l r ihl ihr =>
    cases w with
    | nil => simp [set_data, radix_search_exact]
    | cons c w => cases c <;> simp [set_data, radix_search_exact, ihl, ihr]

theorem search_best_set_data (t : radix_node_t) (w : List Bool) (v : VALUE) (p : prefix_t) :
    radix_search_best (set_data t w v) p = radix_search_best t p := by
  induction t generalizing w with
  | null => simp [set_data]
  | node b pre d l r ihl ihr =>
    cases w with
    | nil => simp [set_data, radix_search_best]
    | cons c w => cases c <;> simp [set_data, radix_search_best, ihl, ihr]

/-- What an exact search returns is a terminal node (no invariant needed). -/
theorem search_exact_node {t : radix_node_t} {p : prefix_t} {w : List Bool}
    (h : radix_search_exact t p = some w) : ∃ q d, node_at t w = some (q, d) := by
  induction t generalizing w with
  | null => simp [radix_search_exact] at h
  | node b pre d0 l r ihl ihr =>
    simp only [radix_search_exact] at h
    split_ifs at h with c1 c2 c3
    · obtain ⟨w', hw', rfl⟩ := Option.map_eq_some'.mp h
      simpa [node_at] using ihr hw'
    · obtain ⟨w', hw', rfl⟩ := Option.map_eq_some'.mp h
      simpa [node_at] using ihl hw'
    · cases pre with
      | none => simp at h
      | some q =>
        simp only at h
        split_ifs at h
        cases h
        exact ⟨q, d0, by simp [node_at]⟩

/-- The invariant of the store is kept by `[]=` and `add`. -/
theorem store_inv_add0 {s : radixdata} (ho : is_open s) (hinv : store_inv s) (addr : String)
    (plen : Option Int) (v : VALUE) : store_inv (rb_radix_add0 s addr plen v).1 := by
  obtain ⟨t4, t6, h4, h6⟩ := (is_open_iff s).mp ho
  cases hp : args_to_prefix addr (plen_of plen) with
  | raise e => simpa [rb_radix_add0, GetRadix_some h4 h6, hp] using hinv
  | ok o =>
    cases o with
    | none => simpa [rb_radix_add0, GetRadix_some h4 h6, hp] using hinv
    | some p =>
      obtain ⟨T, hT⟩ := picked_open (p := p) ho
      have hf := args_family hp
      obtain ⟨hwf, hfam⟩ := store_inv_picked hf hinv hT
      rw [add0_open ho hp hT]
      apply store_inv_bump
      obtain ⟨q, d, hn, -⟩ := lookup_node hwf p
      apply store_inv_SETRT hf hinv
      · exact set_data_wf (lookup_wf hwf p) hn v
      · intro x hx
        simp only [stored_set_data] at hx
        rcases mem_stored_lookup hx with rfl | h
        · rfl
        · exact hfam x h

/-- The invariant of the store is kept by `delete`. -/
theorem store_inv_delete {s : radixdata} (ho : is_open s) (hinv : store_inv s) (addr : String)
    (plen : Option Int) : store_inv (rb_radix_delete s addr plen).1 := by
  obtain ⟨t4, t6, h4, h6⟩ := (is_open_iff s).mp ho
  cases hp : args_to_prefix addr (plen_of plen) with
  | raise e => simpa [rb_radix_delete, GetRadix_some h4 h6, hp] using hinv
  | ok o =>
    cases o with
    | none => simpa [rb_radix_delete, GetRadix_some h4 h6, hp] using hinv
    | some p =>
      obtain ⟨T, hT⟩ := picked_open (p := p) ho
      have hf := args_family hp
      obtain ⟨hwf, hfam⟩ := store_inv_picked hf hinv hT
      rw [delete_open ho hp hT]
      cases hs : radix_search_exact T.head p with
      | none => exact hinv
      | some w =>
        simp only
        apply store_inv_bump
        apply store_inv_SETRT hf hinv
        · rw [remove_set_data]; exact remove_wf hwf w
        · intro x hx
          simp only [remove_set_data] at hx
          exact hfam x (mem_stored_remove hx)

/-- The invariant of the store is kept by `clear`. -/
theorem store_inv_clear (s : radixdata) (hinv : store_inv s) : store_inv (rb_radix_clear s).1 := by
  unfold rb_radix_clear
  split
  · exact hinv
  · exact store_inv_new

/-- The operations keep an open store open. -/
theorem open_add0 {s : radixdata} (ho : is_open s) (addr : String) (plen : Option Int)
    (v : VALUE) : is_open (rb_radix_add0 s addr plen v).1 := by
  obtain ⟨t4, t6, h4, h6⟩ := (is_open_iff s).mp ho
  cases hp : args_to_prefix addr (plen_of plen) with
  | raise e => simpa [rb_radix_add0, GetRadix_some h4 h6, hp] using ho
  | ok o =>
    cases o with
    | none => simpa [rb_radix_add0, GetRadix_some h4 h6, hp] using ho
    | some p =>
      obtain ⟨T, hT⟩ := picked_open (p := p) ho
      rw [add0_open ho hp hT]
      exact open_bump (open_SETRT p ho _)

theorem open_delete {s : radixdata} (ho : is_open s) (addr : String) (plen : Option Int) :
    is_open (rb_radix_delete s addr plen).1 := by
  obtain ⟨t4, t6, h4, h6⟩ := (is_open_iff s).mp ho
  cases hp : args_to_prefix addr (plen_of plen) with
  | raise e => simpa [rb_radix_delete, GetRadix_some h4 h6, hp] using ho
  | ok o =>
    cases o with
    | none => simpa [rb_radix_delete, GetRadix_some h4 h6, hp] using ho
    | some p =>
      obtain ⟨T, hT⟩ := picked_open (p := p) ho
      rw [delete_open ho hp hT]
      cases hs : radix_search_exact T.head p with
      | none => exact ho
      | some w => exact open_bump (open_SETRT p ho _)

theorem open_clear {s : radixdata} (ho : is_open s) : is_open (rb_radix_clear s).1 := by
  unfold rb_radix_clear
  split
  · exact ho
  · exact is_open_new

/-- Every reachable store is open and satisfies the invariant of the store. -/
theorem reachable_inv {s : radixdata} (h : Reachable s) : is_open s ∧ store_inv s := by
  induction h with
  | new => exact ⟨is_open_new, store_inv_new⟩
  | add s addr plen _ ih =>
    rw [add_eq_add0]
    exact ⟨open_add0 ih.1 addr plen Qtrue, store_inv_add0 ih.1 ih.2 addr plen Qtrue⟩
  | aset s addr plen v _ ih =>
    exact ⟨open_add0 ih.1 addr plen v, store_inv_add0 ih.1 ih.2 addr plen v⟩
  | delete s addr plen _ ih =>
    exact ⟨open_delete ih.1 addr plen, store_inv_delete ih.1 ih.2 addr plen⟩
  | clear s _ ih => exact ⟨open_clear ih.1, store_inv_clear s ih.2⟩

/-! ## C1: store, then exact search -/

/-- After `[]=` with a valid prefix and a value word that is not null, the exact
search for the same prefix returns an entry with that value; under the invariant
of the store the entry's prefix is the prefix stored. -/
theorem add0_search_exact {s : radixdata} (ho : is_open s) {addr : String} {plen : Option Int}
    {p : prefix_t} (hp : args_to_prefix addr (plen_of plen) = Ret.ok (some p)) {v : VALUE}
    (hv : v ≠ 0) :
    ∃ rn, (rb_radix_search_exact (rb_radix_add0 s addr plen v).1 addr plen).2 = Ret.ok (some rn) ∧
      rb_rn_msg_get rn = v ∧ (store_inv s → same_entry rn.pfx p) := by
  obtain ⟨T, hT⟩ := picked_open (p := p) ho
  rw [add0_open ho hp hT]
  have ho' : is_open (bump (SETRT p s ⟨set_data (radix_lookup T.head p).1
      (radix_lookup T.head p).2 v⟩)) := open_bump (open_SETRT p ho _)
  have hT' : picked p (bump (SETRT p s ⟨set_data (radix_lookup T.head p).1
      (radix_lookup T.head p).2 v⟩)) = some ⟨set_data (radix_lookup T.head p).1
      (radix_lookup T.head p).2 v⟩ := by rw [picked_bump, picked_SETRT]
  rw [search_exact_open ho' hp hT']
  obtain ⟨q, d, hn⟩ := search_exact_node (search_exact_lookup T.head p)
  refine ⟨⟨q, v⟩, ?_, rfl, ?_⟩
  · simp [node_entry, search_exact_set_data, search_exact_lookup, node_at_set_data hn, hv]
  · intro hinv
    have hf := args_family hp
    obtain ⟨hwf, hfam⟩ := store_inv_picked hf hinv hT
    obtain ⟨q', d', hn', hk⟩ := lookup_node hwf p
    rw [hn] at hn'
    cases hn'
    refine ⟨?_, hk⟩
    rcases mem_stored_lookup (mem_stored_of_mem_walk (node_at_mem hn)) with h | h
    · simp only at h; simp [h]
    · exact hfam q h

/-- C1, as stated, fails for the value `false` (the null word): after
`r["10.0.0.0/8"] = false` on a new store, `search_exact("10.0.0.0/8")` returns nil,
not an entry whose value is `false`. -/
theorem C1_counterexample :
    is_open newRadixData ∧
    args_to_prefix "10.0.0.0/8" (plen_of none)
      = Ret.ok (some (ipv4_of [10] 8)) ∧
    (rb_radix_search_exact (rb_radix_add0 newRadixData "10.0.0.0/8" none Qfalse).1
      "10.0.0.0/8" none).2 = Ret.ok none := by
  decide

/-- C1 (amended): for every open store, every valid address text with optional
length, and every value word `v` other than the null word (Ruby's `false`): after
`[]=` (`add` with a value, `index_set`) stores `v` under the prefix, `search_exact`
with the same address and length returns a present entry whose value is `v`; after
the method `add`, which stores `Qtrue`, it returns a present entry whose value is
`Qtrue`.  Under the invariant of the store the entry's prefix is the stored key. -/
theorem C1_store_then_search_exact (s : radixdata) (addr : String) (plen : Option Int)
    (p : prefix_t) (v : VALUE) (ho : is_open s)
    (hp : args_to_prefix addr (plen_of plen) = Ret.ok (some p)) (hv : v ≠ 0) :
    (∃ rn, (rb_radix_search_exact (rb_radix_add0 s addr plen v).1 addr plen).2
        = Ret.ok (some rn) ∧ rb_rn_msg_get rn = v ∧ (store_inv s → same_entry rn.pfx p)) ∧
    (∃ rn, (rb_radix_search_exact (rb_radix_add s addr plen).1 addr plen).2
        = Ret.ok (some rn) ∧ rb_rn_msg_get rn = Qtrue ∧ (store_inv s → same_entry rn.pfx p)) :=
  ⟨add0_search_exact ho hp hv, by
    rw [add_eq_add0]; exact add0_search_exact ho hp (by decide)⟩

/-- C1 (amended) at a concrete input: a new store, `"10.0.0.0/8"`, the value word 7. -/
theorem C1_store_then_search_exact_witness :
    is_open newRadixData ∧
    args_to_prefix "10.0.0.0/8" (plen_of none)
      = Ret.ok (some (ipv4_of [10] 8)) ∧
    (7 : VALUE) ≠ 0 ∧
    ((∃ rn, (rb_radix_search_exact (rb_radix_add0 newRadixData "10.0.0.0/8" none 7).1
          "10.0.0.0/8" none).2 = Ret.ok (some rn) ∧ rb_rn_msg_get rn = 7 ∧
        (store_inv newRadixData →
          same_entry rn.pfx (ipv4_of [10] 8))) ∧
     (∃ rn, (rb_radix_search_exact (rb_radix_add newRadixData "10.0.0.0/8" none).1
          "10.0.0.0/8" none).2 = Ret.ok (some rn) ∧ rb_rn_msg_get rn = Qtrue ∧
        (store_inv newRadixData →
          same_entry rn.pfx (ipv4_of [10] 8)))) :=
  ⟨by decide, by decide, by decide,
    C1_store_then_search_exact newRadixData "10.0.0.0/8" none
      (ipv4_of [10] 8) 7 (by decide) (by decide) (by decide)⟩

/-! ## C2: the best match -/

theorem mem_entries (p : prefix_t) {s : radixdata} (ho : is_open s) (e : prefix_t × VALUE) :
    e ∈ entries s ↔ e ∈ picked_walk p s ∨ e ∈ other_walk p s := by
  rw [entries_eq p ho]
  split_ifs <;> simp [or_comm]

/-- Under the invariant, the nodes of the family of a prefix are the nodes of the
tree `PICKRT` selects for it. -/
theorem mem_entries_family {p : prefix_t} {s : radixdata} (ho : is_open s) (hinv : store_inv s)
    (hf : p.family = AF_INET ∨ p.family = AF_INET6) (e : prefix_t × VALUE) :
    (e ∈ entries s ∧ e.1.family = p.family) ↔ e ∈ picked_walk p s := by
  rw [mem_entries p ho]
  constructor
  · rintro ⟨h | h, hfam⟩
    · exact h
    · exfalso
      unfold other_walk at h
      cases ht : other p s with
      | none => rw [ht] at h; simp at h
      | some t =>
        rw [ht] at h
        exact store_inv_other hf hinv ht e.1 (mem_stored_of_mem_walk h) hfam
  · intro h
    refine ⟨Or.inl h, ?_⟩
    unfold picked_walk at h
    cases ht : picked p s with
    | none => rw [ht] at h; simp at h
    | some t =>
      rw [ht] at h
      exact (store_inv_picked hf hinv ht).2 e.1 (mem_stored_of_mem_walk h)

theorem picked_walk_eq {p : prefix_t} {s : radixdata} {T : radix_tree_t}
    (hT : picked p s = some T) : picked_walk p s = RADIX_WALK T.head := by
  simp [picked_walk, hT]

/-- What `search_best` returns on an open store that satisfies the invariant. -/
theorem search_best_result {s : radixdata} (ho : is_open s) (hinv : store_inv s) {addr : String}
    {plen : Option Int} {p : prefix_t}
    (hp : args_to_prefix addr (plen_of plen) = Ret.ok (some p)) :
    ((∀ e ∈ entries s, ¬ holds e.1 p) → (rb_radix_search_best s addr plen).2 = Ret.ok none) ∧
    ((∃ e ∈ entries s, holds e.1 p) →
      ∃ q d, (q, d) ∈ entries s ∧ holds q p ∧
        (∀ e ∈ entries s, holds e.1 p → e.1.bitlen ≤ q.bitlen) ∧
        (rb_radix_search_best s addr plen).2 = Ret.ok (if d = 0 then none else some ⟨q, d⟩)) := by
  obtain ⟨T, hT⟩ := picked_open (p := p) ho
  have hf := args_family hp
  obtain ⟨hwf, hfam⟩ := store_inv_picked hf hinv hT
  obtain ⟨hsome, hnone⟩ := search_best_spec hwf p
  rw [search_best_open ho hp hT]
  have hpw := picked_walk_eq hT
  constructor
  · intro hno
    cases hs : radix_search_best T.head p with
    | none => simp [node_entry]
    | some w =>
      exfalso
      obtain ⟨q, d, hn, hc, -⟩ := hsome w hs
      have hm : (q, d) ∈ picked_walk p s := by rw [hpw]; exact node_at_mem hn
      have := (mem_entries_family ho hinv hf (q, d)).mpr hm
      exact hno (q, d) this.1 ⟨this.2, hc⟩
  · rintro ⟨e, he, hfe, hce⟩
    have hem : e ∈ picked_walk p s := (mem_entries_family ho hinv hf e).mp ⟨he, hfe⟩
    rw [hpw] at hem
    cases hs : radix_search_best T.head p with
    | none => exact absurd hce (hnone hs e.1 (mem_stored_of_mem_walk hem))
    | some w =>
      obtain ⟨q, d, hn, hc, hmax⟩ := hsome w hs
      have hm : (q, d) ∈ picked_walk p s := by rw [hpw]; exact node_at_mem hn
      have hq := (mem_entries_family ho hinv hf (q, d)).mpr hm
      refine ⟨q, d, hq.1, ⟨hq.2, hc⟩, ?_, ?_⟩
      · intro e' he' hh
        have : e' ∈ picked_walk p s := (mem_entries_family ho hinv hf e').mp ⟨he', hh.1⟩
        rw [hpw] at this
        exact hmax e'.1 (mem_stored_of_mem_walk this) hh.2
      · simp [node_entry, hn]

/-- C2, as stated, fails when the longest stored prefix containing the address holds
the value `false` (the null word): with `10.0.0.0/8` stored under an object and
`10.1.0.0/16` stored under `false`, the stored prefix `10.0.0.0/8` contains
`10.1.2.3` and is found by `search_exact`, yet `search_best("10.1.2.3")` is nil. -/
theorem C2_counterexample :
    is_open nested_example ∧ store_inv nested_example ∧
    args_to_prefix "10.1.2.3" (plen_of none) = Ret.ok (some (ipv4_of [10, 1, 2, 3] 32)) ∧
    (ipv4_of [10] 8, 9) ∈ entries nested_example ∧
    holds (ipv4_of [10] 8) (ipv4_of [10, 1, 2, 3] 32) ∧
    (rb_radix_search_exact nested_example "10.0.0.0/8" none).2
      = Ret.ok (some ⟨ipv4_of [10] 8, 9⟩) ∧
    (rb_radix_search_best nested_example "10.1.2.3" none).2 = Ret.ok none := by
  decide

/-- C2 (amended): for every open store (satisfying the store invariant) and every
valid query: if no stored prefix contains the queried address, `search_best` returns
absent; if one or more do, then among them there is one of greatest bitlen, and
`search_best` returns that one's entry when its value word is not null, and absent
when its value word is null (Ruby's `false`), whatever shorter prefixes contain the
address; `[]` is `search_best`.  In the documented example, `search_best` and `[]`
of `"172.16.0.1"` after `r["172.16.0.0/16"] = "Hello Radix!"` return the entry with
that value, prefix `"172.16.0.0/16"`, prefixlen 16, family 4. -/
theorem C2_search_best_longest (s : radixdata) (addr : String) (plen : Option Int)
    (p : prefix_t) (ho : is_open s) (hinv : store_inv s)
    (hp : args_to_prefix addr (plen_of plen) = Ret.ok (some p)) :
    ((∀ e ∈ entries s, ¬ holds e.1 p) → (rb_radix_search_best s addr plen).2 = Ret.ok none) ∧
    ((∃ e ∈ entries s, holds e.1 p) →
      ∃ q d, (q, d) ∈ entries s ∧ holds q p ∧
        (∀ e ∈ entries s, holds e.1 p → e.1.bitlen ≤ q.bitlen) ∧
        (rb_radix_search_best s addr plen).2 = Ret.ok (if d = 0 then none else some ⟨q, d⟩)) ∧
    rb_radix_aref s addr plen = rb_radix_search_best s addr plen ∧
    ((rb_radix_search_best doc_example "172.16.0.1" none).2
        = Ret.ok (some ⟨ipv4_of [172, 16] 16, hello_radix⟩) ∧
     (rb_radix_aref doc_example "172.16.0.1" none).2
        = Ret.ok (some ⟨ipv4_of [172, 16] 16, hello_radix⟩) ∧
     rb_rn_msg_get ⟨ipv4_of [172, 16] 16, hello_radix⟩ = hello_radix ∧
     rb_rn_prefix_get ⟨ipv4_of [172, 16] 16, hello_radix⟩ = "172.16.0.0/16" ∧
     rb_rn_prefixlen_get ⟨ipv4_of [172, 16] 16, hello_radix⟩ = 16 ∧
     rb_rn_af_get ⟨ipv4_of [172, 16] 16, hello_radix⟩ = 4) :=
  ⟨(search_best_result ho hinv hp).1, (search_best_result ho hinv hp).2, rfl, by decide⟩

/-- C2 (amended) at a concrete input: the store with `10.0.0.0/8` under an object and
`10.1.0.0/16` under `false`, queried for `10.1.2.3`. -/
theorem C2_search_best_longest_witness :
    is_open nested_example ∧ store_inv nested_example ∧
    args_to_prefix "10.1.2.3" (plen_of none) = Ret.ok (some (ipv4_of [10, 1, 2, 3] 32)) ∧
    (∃ q d, (q, d) ∈ entries nested_example ∧ holds q (ipv4_of [10, 1, 2, 3] 32) ∧
        (∀ e ∈ entries nested_example, holds e.1 (ipv4_of [10, 1, 2, 3] 32) →
          e.1.bitlen ≤ q.bitlen) ∧
        (rb_radix_search_best nested_example "10.1.2.3" none).2
          = Ret.ok (if d = 0 then none else some ⟨q, d⟩)) :=
  ⟨by decide, by decide, by decide,
    (C2_search_best_longest nested_example "10.1.2.3" none (ipv4_of [10, 1, 2, 3] 32)
      (by decide) (by decide) (by decide)).2.1 ⟨(ipv4_of [10] 8, 9), by decide, by decide⟩⟩

/-! ## C3, C8: storing under a prefix, new or already stored -/

/-- The effect of `[]=` on the walk of the selected tree: the node of the key now
holds `v`; either the key was not stored and the node is new, or it was stored and
only its `data` changed. -/
theorem add0_effect {s : radixdata} (ho : is_open s) (hinv : store_inv s) {addr : String}
    {plen : Option Int} {p : prefix_t}
    (hp : args_to_prefix addr (plen_of plen) = Ret.ok (some p)) (v : VALUE) :
    ∃ l1 l2 q, picked_walk p (rb_radix_add0 s addr plen v).1 = l1 ++ (q, v) :: l2 ∧
      same_key q p ∧
      ((picked_walk p s = l1 ++ l2 ∧ q = p ∧ ∀ x ∈ picked_walk p s, ¬ same_key x.1 p) ∨
       (∃ d, picked_walk p s = l1 ++ (q, d) :: l2)) := by
  obtain ⟨T, hT⟩ := picked_open (p := p) ho
  have hf := args_family hp
  obtain ⟨hwf, hfam⟩ := store_inv_picked hf hinv hT
  rw [add0_open ho hp hT, picked_walk_set, picked_walk_eq hT]
  cases hs : radix_search_exact T.head p with
  | none =>
    obtain ⟨l1, l2, e1, -, -, e4⟩ := lookup_new hwf hs
    refine ⟨l1, l2, p, e4 v, same_key_refl p, Or.inl ⟨e1, rfl, ?_⟩⟩
    intro x hx
    exact (search_exact_none_iff hwf p).mp hs x.1 (mem_stored_of_mem_walk hx)
  | some w =>
    obtain ⟨q, d, hn, hk⟩ := search_exact_sound hwf hs
    obtain ⟨l1, l2, e1, e2, -⟩ := walk_at hn
    rw [lookup_found hwf hs]
    exact ⟨l1, l2, q, e2 v, hk, Or.inr ⟨d, e1⟩⟩

theorem other_walk_add0 {s : radixdata} (ho : is_open s) {addr : String} {plen : Option Int}
    {p : prefix_t} (hp : args_to_prefix addr (plen_of plen) = Ret.ok (some p)) (v : VALUE) :
    other_walk p (rb_radix_add0 s addr plen v).1 = other_walk p s := by
  obtain ⟨T, hT⟩ := picked_open (p := p) ho
  rw [add0_open ho hp hT, other_walk_set]

theorem gen_add0 {s : radixdata} (ho : is_open s) {addr : String} {plen : Option Int}
    {p : prefix_t} (hp : args_to_prefix addr (plen_of plen) = Ret.ok (some p)) (v : VALUE) :
    (rb_radix_add0 s addr plen v).1.gen_id = (s.gen_id + 1) % UINT_MOD := by
  obtain ⟨T, hT⟩ := picked_open (p := p) ho
  rw [add0_open ho hp hT, gen_bump, gen_SETRT]

/-- In a list whose keys are pairwise distinct, two elements with the same key are
the same element. -/
theorem same_key_unique {l : List (prefix_t × VALUE)}
    (h : l.Pairwise (fun a b => ¬ same_key a.1 b.1)) {a b : prefix_t × VALUE} (ha : a ∈ l)
    (hb : b ∈ l) (hk : same_key a.1 b.1) : a = b := by
  induction l with
  | nil => simp at ha
  | cons x xs ih =>
    rw [List.pairwise_cons] at h
    rcases List.mem_cons.mp ha with rfl | ha' <;> rcases List.mem_cons.mp hb with rfl | hb'
    · rfl
    · exact absurd hk (h.1 b hb')
    · exact absurd (same_key_symm hk) (h.1 a ha')
    · exact ih h.2 ha' hb'

theorem walk_distinct {t : radix_node_t} (hwf : wf t) :
    (RADIX_WALK t).Pairwise (fun a b => ¬ same_key a.1 b.1) := by
  have := stored_distinct hwf
  unfold stored at this
  rwa [List.pairwise_map] at this

theorem picked_walk_distinct {p : prefix_t} {s : radixdata} (ho : is_open s) (hinv : store_inv s)
    (hf : p.family = AF_INET ∨ p.family = AF_INET6) :
    (picked_walk p s).Pairwise (fun a b => ¬ same_key a.1 b.1) := by
  obtain ⟨T, hT⟩ := picked_open (p := p) ho
  rw [picked_walk_eq hT]
  exact walk_distinct (store_inv_picked hf hinv hT).1

/-- Filtering a list in which exactly one position satisfies the test. -/
theorem filter_single {α : Type} (P : α → Bool) {l1 l2 : List α} {a : α}
    (h1 : ∀ x ∈ l1, P x = false) (h2 : ∀ x ∈ l2, P x = false) (ha : P a = true) :
    (l1 ++ a :: l2).filter P = [a] := by
  rw [List.filter_append, List.filter_cons, ha]
  simp only [if_true]
  rw [List.filter_eq_nil_iff.mpr (by simpa using h1), List.filter_eq_nil_iff.mpr (by simpa using h2)]
  rfl

/-- The nodes of the store with the key of `p`: under the invariant there is at most
the one of the selected tree. -/
theorem filter_entries {p : prefix_t} {s : radixdata} (ho : is_open s) (hinv : store_inv s)
    (hf : p.family = AF_INET ∨ p.family = AF_INET6) {l1 l2 : List (prefix_t × VALUE)}
    {q : prefix_t} {v : VALUE} (hw : picked_walk p s = l1 ++ (q, v) :: l2) (hk : same_key q p) :
    (entries s).filter (fun e => decide (same_entry e.1 p)) = [(q, v)] := by
  have hd := picked_walk_distinct ho hinv hf
  rw [hw] at hd
  have hq : q.family = p.family :=
    ((mem_entries_family ho hinv hf (q, v)).mpr (by rw [hw]; simp)).2
  have hpick : (picked_walk p s).filter (fun e => decide (same_entry e.1 p)) = [(q, v)] := by
    rw [hw]
    apply filter_single
    · intro x hx
      simp only [decide_eq_false_iff_not]
      intro hx'
      have : x = (q, v) := same_key_unique hd (by simp [hx]) (by simp)
        (same_key_trans hx'.2 (same_key_symm hk))
      subst this
      rw [List.pairwise_append] at hd
      exact hd.2.2 _ hx (q, v) (by simp) (same_key_refl q)
    · intro x hx
      simp only [decide_eq_false_iff_not]
      intro hx'
      rw [List.pairwise_append, List.pairwise_cons] at hd
      exact hd.2.1.1 x hx (same_key_trans hk (same_key_symm hx'.2))
    · simp [same_entry, hq, hk]
  have hoth : (other_walk p s).filter (fun e => decide (same_entry e.1 p)) = [] := by
    rw [List.filter_eq_nil_iff]
    intro x hx
    simp only [decide_eq_true_eq]
    intro hx'
    unfold other_walk at hx
    cases ht : other p s with
    | none => rw [ht] at hx; simp at hx
    | some t =>
      rw [ht] at hx
      exact store_inv_other hf hinv ht x.1 (mem_stored_of_mem_walk hx) hx'.1
  rw [entries_eq p ho]
  split_ifs <;> simp [List.filter_append, hpick, hoth]

theorem live_length_replace (l1 l2 : List (prefix_t × VALUE)) (q : prefix_t) {v1 v2 : VALUE}
    (h : v1 = 0 ↔ v2 = 0) :
    (live (l1 ++ (q, v1) :: l2)).length = (live (l1 ++ (q, v2) :: l2)).length := by
  by_cases h1 : v1 = 0
  · have h2 := h.mp h1
    simp [live, List.filter_cons, h1, h2]
  · have h2 : v2 ≠ 0 := fun e => h1 (h.mpr e)
    simp [live, List.filter_cons, h1, h2]

/-- Storing twice under the same prefix: one node for the key, holding the second
value; `length` is the same after both stores when the two value words are both
null or both not null. -/
theorem add0_twice {s : radixdata} (ho : is_open s) (hinv : store_inv s) {addr : String}
    {plen : Option Int} {p : prefix_t}
    (hp : args_to_prefix addr (plen_of plen) = Ret.ok (some p)) (v1 v2 : VALUE) :
    (∃ q, same_key q p ∧
      (entries (rb_radix_add0 (rb_radix_add0 s addr plen v1).1 addr plen v2).1).filter
        (fun e => decide (same_entry e.1 p)) = [(q, v2)]) ∧
    ((v1 = 0 ↔ v2 = 0) →
      (rb_radix_length (rb_radix_add0 (rb_radix_add0 s addr plen v1).1 addr plen v2).1).2
        = (rb_radix_length (rb_radix_add0 s addr plen v1).1).2) := by
  have hf := args_family hp
  have ho1 := open_add0 ho addr plen v1
  have hinv1 := store_inv_add0 ho hinv addr plen v1
  have ho2 := open_add0 ho1 addr plen v2
  have hinv2 := store_inv_add0 ho1 hinv1 addr plen v2
  obtain ⟨l1, l2, q, e1, hk, -⟩ := add0_effect ho hinv hp v1
  obtain ⟨m1, m2, q', e2, hk', hcase⟩ := add0_effect ho1 hinv1 hp v2
  refine ⟨⟨q', hk', filter_entries ho2 hinv2 hf e2 hk'⟩, ?_⟩
  intro hv
  rcases hcase with ⟨-, -, hno⟩ | ⟨d, e3⟩
  · exact absurd hk (hno (q, v1) (by rw [e1]; simp))
  · -- the node found by the second store is the node of the first
    have hd := picked_walk_distinct ho1 hinv1 hf
    have : (q', d) = (q, v1) := same_key_unique hd (by rw [e3]; simp) (by rw [e1]; simp)
      (same_key_trans hk' (same_key_symm hk))
    cases this
    rw [length_open ho2, length_open ho1, live_length_entries p ho2, live_length_entries p ho1,
      e2, e3, other_walk_add0 ho1 hp, live_length_replace m1 m2 _ hv]

/-! ## C4, C10: delete -/

/-- The effect of `delete` with a valid prefix on an open store: nothing when the
exact search finds no node; otherwise the node found leaves the walk of the
selected tree, the other tree is untouched and the counter is bumped. -/
theorem delete_effect {s : radixdata} (ho : is_open s) {addr : String} {plen : Option Int}
    {p : prefix_t} (hp : args_to_prefix addr (plen_of plen) = Ret.ok (some p))
    {T : radix_tree_t} (hT : picked p s = some T) :
    (radix_search_exact T.head p = none ∧ rb_radix_delete s addr plen = (s, Ret.ok ())) ∨
    (∃ w l1 l2 q d, radix_search_exact T.head p = some w ∧ node_at T.head w = some (q, d) ∧
      picked_walk p s = l1 ++ (q, d) :: l2 ∧
      picked_walk p (rb_radix_delete s addr plen).1 = l1 ++ l2 ∧
      other_walk p (rb_radix_delete s addr plen).1 = other_walk p s ∧
      (rb_radix_delete s addr plen).1.gen_id = (s.gen_id + 1) % UINT_MOD ∧
      (rb_radix_delete s addr plen).2 = Ret.ok ()) := by
  rw [delete_open ho hp hT]
  cases hs : radix_search_exact T.head p with
  | none => exact Or.inl ⟨rfl, rfl⟩
  | some w =>
    obtain ⟨q, d, hn⟩ := search_exact_node hs
    obtain ⟨l1, l2, e1, -, e3⟩ := walk_at hn
    refine Or.inr ⟨w, l1, l2, q, d, rfl, hn, ?_, ?_, ?_, ?_, rfl⟩
    · rw [picked_walk_eq hT, e1]
    · simp only [picked_walk_set, remove_set_data, e3]
    · simp only [other_walk_set]
    · simp only [gen_bump, gen_SETRT]

/-- After `delete`, the exact search for the same prefix returns nil. -/
theorem delete_search_exact {s : radixdata} (ho : is_open s) {addr : String}
    {plen : Option Int} {p : prefix_t}
    (hp : args_to_prefix addr (plen_of plen) = Ret.ok (some p)) :
    (rb_radix_search_exact (rb_radix_delete s addr plen).1 addr plen).2 = Ret.ok none := by
  obtain ⟨T, hT⟩ := picked_open (p := p) ho
  rw [delete_open ho hp hT]
  cases hs : radix_search_exact T.head p with
  | none =>
    simp only
    rw [search_exact_open ho hp hT, hs]
    rfl
  | some w =>
    simp only
    rw [search_exact_open (open_bump (open_SETRT p ho _)) hp
      (by rw [picked_bump, picked_SETRT])]
    simp only [remove_set_data, search_exact_remove hs]
    rfl

theorem live_length_remove (l1 l2 : List (prefix_t × VALUE)) (q : prefix_t) (d : VALUE) :
    (live (l1 ++ (q, d) :: l2)).length
      = (live (l1 ++ l2)).length + (if d = 0 then 0 else 1) := by
  by_cases h : d = 0
  · simp [live, List.filter_cons, h]
  · simp [live, List.filter_cons, h]
    omega

/-- The count of `length` across a `delete`: one less when `search_exact` found an
entry (a node whose `data` is not null), the same otherwise. -/
theorem delete_length {s : radixdata} (ho : is_open s) {addr : String} {plen : Option Int}
    {p : prefix_t} (hp : args_to_prefix addr (plen_of plen) = Ret.ok (some p)) :
    ((rb_radix_search_exact s addr plen).2 = Ret.ok none →
      (rb_radix_length (rb_radix_delete s addr plen).1).2 = (rb_radix_length s).2) ∧
    (∀ rn, (rb_radix_search_exact s addr plen).2 = Ret.ok (some rn) →
      ∃ n, (rb_radix_length s).2 = Ret.ok (n + 1) ∧
        (rb_radix_length (rb_radix_delete s addr plen).1).2 = Ret.ok n) := by
  obtain ⟨T, hT⟩ := picked_open (p := p) ho
  have ho' := open_delete ho addr plen
  rw [search_exact_open ho hp hT, length_open ho, length_open ho', live_length_entries p ho,
    live_length_entries p ho']
  rcases delete_effect ho hp hT with ⟨hs, hd⟩ | ⟨w, l1, l2, q, d, hs, hn, e1, e2, e3, -, -⟩
  · rw [hd]
    exact ⟨fun _ => rfl, fun rn h => by simp [hs, node_entry] at h⟩
  · rw [e1, e2, e3, live_length_remove l1 l2 q d, hs]
    constructor
    · intro h
      have hd0 : d = 0 := by
        by_contra hne
        simp [node_entry, hn, hne] at h
      simp [hd0]
    · intro rn h
      have hd0 : d ≠ 0 := by
        intro h0
        simp [node_entry, hn, h0] at h
      exact ⟨(live (l1 ++ l2)).length + (live (other_walk p s)).length, by
        simp only [hd0, if_false]; congr 1; omega, rfl⟩

/-- C4, as stated, fails for an entry stored with the value `false` (the null word):
after `r["10.0.0.0/8"] = false` on a new store the tree holds a node for the prefix,
and `delete("10.0.0.0/8")` removes it, but `length` is 0 before and 0 after, not
one less. -/
theorem C4_counterexample :
    is_open (rb_radix_add0 newRadixData "10.0.0.0/8" none Qfalse).1 ∧
    entries (rb_radix_add0 newRadixData "10.0.0.0/8" none Qfalse).1 = [(ipv4_of [10] 8, 0)] ∧
    entries (rb_radix_delete (rb_radix_add0 newRadixData "10.0.0.0/8" none Qfalse).1
      "10.0.0.0/8" none).1 = [] ∧
    (rb_radix_length (rb_radix_add0 newRadixData "10.0.0.0/8" none Qfalse).1).2 = Ret.ok 0 ∧
    (rb_radix_length (rb_radix_delete (rb_radix_add0 newRadixData "10.0.0.0/8" none Qfalse).1
      "10.0.0.0/8" none).1).2 = Ret.ok 0 := by
  decide

/-- C4 (amended): for every open store and every valid prefix (P, L): after
`delete(P, L)`, `search_exact(P, L)` returns absent; `length()` after the delete is
exactly one less than before if `search_exact(P, L)` returned an entry before the
delete (a node for (P, L) whose value word is not null), and equal to the length
before if it returned absent (no node, or a node whose value word is null). -/
theorem C4_delete_then_absent (s : radixdata) (addr : String) (plen : Option Int)
    (p : prefix_t) (ho : is_open s)
    (hp : args_to_prefix addr (plen_of plen) = Ret.ok (some p)) :
    (rb_radix_search_exact (rb_radix_delete s addr plen).1 addr plen).2 = Ret.ok none ∧
    ((rb_radix_search_exact s addr plen).2 = Ret.ok none →
      (rb_radix_length (rb_radix_delete s addr plen).1).2 = (rb_radix_length s).2) ∧
    (∀ rn, (rb_radix_search_exact s addr plen).2 = Ret.ok (some rn) →
      ∃ n, (rb_radix_length s).2 = Ret.ok (n + 1) ∧
        (rb_radix_length (rb_radix_delete s addr plen).1).2 = Ret.ok n) :=
  ⟨delete_search_exact ho hp, (delete_length ho hp).1, (delete_length ho hp).2⟩

/-- C4 (amended) at a concrete input: the documented example store, deleting
`"192.168.0.0/24"` (stored, value `Qtrue`): the length goes from 3 to 2. -/
theorem C4_delete_then_absent_witness :
    is_open doc_example ∧
    args_to_prefix "192.168.0.0/24" (plen_of none) = Ret.ok (some (ipv4_of [192, 168, 0] 24)) ∧
    (rb_radix_search_exact doc_example "192.168.0.0/24" none).2
      = Ret.ok (some ⟨ipv4_of [192, 168, 0] 24, Qtrue⟩) ∧
    (rb_radix_search_exact (rb_radix_delete doc_example "192.168.0.0/24" none).1
      "192.168.0.0/24" none).2 = Ret.ok none ∧
    (∃ n, (rb_radix_length doc_example).2 = Ret.ok (n + 1) ∧
        (rb_radix_length (rb_radix_delete doc_example "192.168.0.0/24" none).1).2 = Ret.ok n) :=
  ⟨by decide, by decide, by decide,
    (C4_delete_then_absent doc_example "192.168.0.0/24" none (ipv4_of [192, 168, 0] 24)
      (by decide) (by decide)).1,
    (C4_delete_then_absent doc_example "192.168.0.0/24" none (ipv4_of [192, 168, 0] 24)
      (by decide) (by decide)).2.2 ⟨ipv4_of [192, 168, 0] 24, Qtrue⟩ (by decide)⟩

/-! ## C3, C8, C10: storing twice, the generation on a store and on a delete -/

/-- C3, as stated, fails when one of the two values is `false` (the null word): on a
new store, after `r["10.0.0.0/8"] = false` the length is 0, and after then storing an
object (the word 7) under the same prefix the length is 1, not the same. -/
theorem C3_counterexample :
    is_open newRadixData ∧
    args_to_prefix "10.0.0.0/8" (plen_of none) = Ret.ok (some (ipv4_of [10] 8)) ∧
    (rb_radix_length (rb_radix_add0 newRadixData "10.0.0.0/8" none Qfalse).1).2 = Ret.ok 0 ∧
    (rb_radix_length (rb_radix_add0 (rb_radix_add0 newRadixData "10.0.0.0/8" none Qfalse).1
      "10.0.0.0/8" none 7).1).2 = Ret.ok 1 := by
  decide

/-- C3 (amended): for every open store (satisfying the store invariant), every valid
prefix (P, L) and value words v1, v2: after storing v1 under (P, L) and then v2 under
the same (P, L), exactly one node exists for (P, L) and its value is v2; `length()`
after the second store equals `length()` after the first when v1 and v2 are both
null words or both not null (in particular for two values other than `false`). -/
theorem C3_store_twice (s : radixdata) (addr : String) (plen : Option Int) (p : prefix_t)
    (v1 v2 : VALUE) (ho : is_open s) (hinv : store_inv s)
    (hp : args_to_prefix addr (plen_of plen) = Ret.ok (some p)) :
    (∃ q, same_key q p ∧
      (entries (rb_radix_add0 (rb_radix_add0 s addr plen v1).1 addr plen v2).1).filter
        (fun e => decide (same_entry e.1 p)) = [(q, v2)]) ∧
    ((v1 = 0 ↔ v2 = 0) →
      (rb_radix_length (rb_radix_add0 (rb_radix_add0 s addr plen v1).1 addr plen v2).1).2
        = (rb_radix_length (rb_radix_add0 s addr plen v1).1).2) :=
  add0_twice ho hinv hp v1 v2

/-- C3 (amended) at a concrete input: the documented example store, `"172.16.0.0/16"`
(already stored there), the value words 5 and 7. -/
theorem C3_store_twice_witness :
    is_open doc_example ∧ store_inv doc_example ∧
    args_to_prefix "172.16.0.0/16" (plen_of none) = Ret.ok (some (ipv4_of [172, 16] 16)) ∧
    ((∃ q, same_key q (ipv4_of [172, 16] 16) ∧
      (entries (rb_radix_add0 (rb_radix_add0 doc_example "172.16.0.0/16" none 5).1
        "172.16.0.0/16" none 7).1).filter
        (fun e => decide (same_entry e.1 (ipv4_of [172, 16] 16))) = [(q, 7)]) ∧
    (((5 : VALUE) = 0 ↔ (7 : VALUE) = 0) →
      (rb_radix_length (rb_radix_add0 (rb_radix_add0 doc_example "172.16.0.0/16" none 5).1
        "172.16.0.0/16" none 7).1).2
        = (rb_radix_length (rb_radix_add0 doc_example "172.16.0.0/16" none 5).1).2)) :=
  ⟨by decide, by decide, by decide,
    C3_store_twice doc_example "172.16.0.0/16" none (ipv4_of [172, 16] 16) 5 7
      (by decide) (by decide) (by decide)⟩

/-- What `[]=` does to the counter and to the walk of the selected tree. -/
theorem add0_generation {s : radixdata} (ho : is_open s) (hinv : store_inv s) {addr : String}
    {plen : Option Int} {p : prefix_t}
    (hp : args_to_prefix addr (plen_of plen) = Ret.ok (some p)) (v : VALUE) :
    (rb_radix_add0 s addr plen v).1.gen_id = (s.gen_id + 1) % UINT_MOD ∧
    (rb_radix_add0 s addr plen v).1.gen_id ≠ s.gen_id ∧
    (s.gen_id + 1 < UINT_MOD → (rb_radix_add0 s addr plen v).1.gen_id = s.gen_id + 1) ∧
    other_walk p (rb_radix_add0 s addr plen v).1 = other_walk p s ∧
    ((∀ e ∈ entries s, ¬ same_entry e.1 p) →
      ∃ l1 l2, picked_walk p s = l1 ++ l2 ∧
        picked_walk p (rb_radix_add0 s addr plen v).1 = l1 ++ (p, v) :: l2) ∧
    ((∃ e ∈ entries s, same_entry e.1 p) →
      ∃ l1 l2 q d, same_key q p ∧ picked_walk p s = l1 ++ (q, d) :: l2 ∧
        picked_walk p (rb_radix_add0 s addr plen v).1 = l1 ++ (q, v) :: l2) := by
  have hf := args_family hp
  have hg := gen_add0 ho hp v
  refine ⟨hg, by rw [hg]; exact succ_mod_ne _, ?_, other_walk_add0 ho hp v, ?_, ?_⟩
  · intro h; rw [hg]; exact Nat.mod_eq_of_lt h
  · intro hno
    obtain ⟨l1, l2, q, e1, hk, hcase⟩ := add0_effect ho hinv hp v
    rcases hcase with ⟨e0, rfl, -⟩ | ⟨d, e3⟩
    · exact ⟨l1, l2, e0, e1⟩
    · exfalso
      have hm := (mem_entries_family ho hinv hf (q, d)).mpr (by rw [e3]; simp)
      exact hno (q, d) hm.1 ⟨hm.2, hk⟩
  · rintro ⟨e, he, hke⟩
    obtain ⟨l1, l2, q, e1, hk, hcase⟩ := add0_effect ho hinv hp v
    rcases hcase with ⟨-, -, hno⟩ | ⟨d, e3⟩
    · exact absurd hke.2 (hno e ((mem_entries_family ho hinv hf e).mp ⟨he, hke.1⟩))
    · exact ⟨l1, l2, q, d, hk, e3, e1⟩

/-- C8, as stated, fails in its second half: on a new store, after
`r["10.0.0.0/8"] = 5` the counter is 1 and the prefix is stored; storing again under
the exact same prefix overwrites the value and the counter becomes 2, not unchanged. -/
theorem C8_counterexample :
    is_open (rb_radix_add0 newRadixData "10.0.0.0/8" none 5).1 ∧
    args_to_prefix "10.0.0.0/8" (plen_of none) = Ret.ok (some (ipv4_of [10] 8)) ∧
    entries (rb_radix_add0 newRadixData "10.0.0.0/8" none 5).1 = [(ipv4_of [10] 8, 5)] ∧
    (rb_radix_add0 newRadixData "10.0.0.0/8" none 5).1.gen_id = 1 ∧
    entries (rb_radix_add0 (rb_radix_add0 newRadixData "10.0.0.0/8" none 5).1
      "10.0.0.0/8" none 6).1 = [(ipv4_of [10] 8, 6)] ∧
    (rb_radix_add0 (rb_radix_add0 newRadixData "10.0.0.0/8" none 5).1
      "10.0.0.0/8" none 6).1.gen_id = 2 := by
  decide

/-- C8 (amended): for every open store (satisfying the store invariant) and every
valid prefix: every `[]=` (add with a value, index_set) and every `add` increments
the generation, an `unsigned int`, by one (modulo 2^32), whether or not the exact
prefix is already stored.  When the prefix is not yet stored a node for it is added
to the family's tree; when it is already stored the value of its node is
overwritten and no node is added.  The other family's tree is untouched. -/
theorem C8_store_generation (s : radixdata) (addr : String) (plen : Option Int) (p : prefix_t)
    (v : VALUE) (ho : is_open s) (hinv : store_inv s)
    (hp : args_to_prefix addr (plen_of plen) = Ret.ok (some p)) :
    ((rb_radix_add0 s addr plen v).1.gen_id = (s.gen_id + 1) % UINT_MOD ∧
     (rb_radix_add0 s addr plen v).1.gen_id ≠ s.gen_id ∧
     (s.gen_id + 1 < UINT_MOD → (rb_radix_add0 s addr plen v).1.gen_id = s.gen_id + 1) ∧
     other_walk p (rb_radix_add0 s addr plen v).1 = other_walk p s ∧
     ((∀ e ∈ entries s, ¬ same_entry e.1 p) →
       ∃ l1 l2, picked_walk p s = l1 ++ l2 ∧
         picked_walk p (rb_radix_add0 s addr plen v).1 = l1 ++ (p, v) :: l2) ∧
     ((∃ e ∈ entries s, same_entry e.1 p) →
       ∃ l1 l2 q d, same_key q p ∧ picked_walk p s = l1 ++ (q, d) :: l2 ∧
         picked_walk p (rb_radix_add0 s addr plen v).1 = l1 ++ (q, v) :: l2)) ∧
    ((rb_radix_add s addr plen).1.gen_id = (s.gen_id + 1) % UINT_MOD ∧
     (rb_radix_add s addr plen).1.gen_id ≠ s.gen_id ∧
     (s.gen_id + 1 < UINT_MOD → (rb_radix_add s addr plen).1.gen_id = s.gen_id + 1) ∧
     other_walk p (rb_radix_add s addr plen).1 = other_walk p s ∧
     ((∀ e ∈ entries s, ¬ same_entry e.1 p) →
       ∃ l1 l2, picked_walk p s = l1 ++ l2 ∧
         picked_walk p (rb_radix_add s addr plen).1 = l1 ++ (p, Qtrue) :: l2) ∧
     ((∃ e ∈ entries s, same_entry e.1 p) →
       ∃ l1 l2 q d, same_key q p ∧ picked_walk p s = l1 ++ (q, d) :: l2 ∧
         picked_walk p (rb_radix_add s addr plen).1 = l1 ++ (q, Qtrue) :: l2)) :=
  ⟨add0_generation ho hinv hp v, by
    rw [add_eq_add0]; exact add0_generation ho hinv hp Qtrue⟩

/-- C8 (amended) at a concrete input: the documented example store (generation 3),
storing the word 5 under `"172.16.0.0/16"`, which is already stored: the generation
becomes 4. -/
theorem C8_store_generation_witness :
    is_open doc_example ∧ store_inv doc_example ∧
    args_to_prefix "172.16.0.0/16" (plen_of none) = Ret.ok (some (ipv4_of [172, 16] 16)) ∧
    (∃ e ∈ entries doc_example, same_entry e.1 (ipv4_of [172, 16] 16)) ∧
    doc_example.gen_id = 3 ∧
    (rb_radix_add0 doc_example "172.16.0.0/16" none 5).1.gen_id = (3 + 1) % UINT_MOD ∧
    (rb_radix_add0 doc_example "172.16.0.0/16" none 5).1.gen_id ≠ doc_example.gen_id :=
  ⟨by decide, by decide, by decide, by decide, by decide,
    (C8_store_generation doc_example "172.16.0.0/16" none (ipv4_of [172, 16] 16) 5
      (by decide) (by decide) (by decide)).1.1,
    (C8_store_generation doc_example "172.16.0.0/16" none (ipv4_of [172, 16] 16) 5
      (by decide) (by decide) (by decide)).1.2.1⟩

theorem bit_order_new_leaf (p : prefix_t) : bit_order (new_leaf p) := by
  simp [new_leaf, bit_order, node_bit]

/-- The root of the tree a lookup returns tests a later bit than `k`, when the
target is longer than `k`, the root did, and the target has the first `k + 1` bits
of the stored prefixes. -/
theorem lookup_root_bit {t : radix_node_t} (hwf : wf t) (p : prefix_t) {k : Nat}
    (hk : k < p.bitlen) (hb : ∀ b', node_bit t = some b' → k < b')
    (hag : ∀ x ∈ stored t, agree p x (k + 1)) :
    ∀ b', node_bit (radix_lookup t p).1 = some b' → k < b' := by
  cases t with
  | null => intro b' h; simp [radix_lookup, new_leaf, node_bit] at h; omega
  | node b pre d l r =>
    have hkb : k < b := hb b rfl
    obtain ⟨q, hq⟩ := rep_some_of_wf hwf (by simp)
    have hdq : diverge (node b pre d l r) b p = differ_bit p q (min b p.bitlen) := by
      simp [diverge, hq]
    have hge : k + 1 ≤ diverge (node b pre d l r) b p := by
      rw [hdq]
      exact differ_bit_ge (hag q (rep_mem hq)) (by omega)
    intro b' h
    rw [radix_lookup] at h
    split_ifs at h with h1 h2 h4 h5
    · unfold attach_above at h
      rw [hq] at h
      simp only at h
      split_ifs at h <;> simp [node_bit] at h <;> omega
    · unfold attach_branch at h
      split_ifs at h <;> simp [node_bit] at h <;> omega
    · simp [node_bit] at h; omega
    · simp [node_bit] at h; omega
    · simp [node_bit] at h; omega

/-- The lookup keeps the order of the bits. -/
theorem lookup_bit_order {t : radix_node_t} (hwf : wf t) (ho : bit_order t) (p : prefix_t) :
    bit_order (radix_lookup t p).1 := by
  induction t with
  | null => simpa [radix_lookup] using bit_order_new_leaf p
  | node b pre d l r ihl ihr =>
    obtain ⟨q, hq⟩ := rep_some_of_wf hwf (by simp)
    have hqm := rep_mem hq
    have hdle := diverge_le (node b pre d l r) b p
    have hm1 := Nat.min_le_left b p.bitlen
    have hm2 := Nat.min_le_right b p.bitlen
    have hdq : diverge (node b pre d l r) b p = differ_bit p q (min b p.bitlen) := by
      simp [diverge, hq]
    have hagd : agree p q (diverge (node b pre d l r) b p) := by
      rw [hdq]; exact differ_bit_agree _ _ _
    have hall := hwf.2.2.1
    rw [radix_lookup]
    split_ifs with h1 h2 h4 h5
    · unfold attach_above
      rw [hq]
      simp only
      split_ifs
      · exact ⟨by simp [node_bit], by simp [node_bit]; omega, trivial, ho⟩
      · exact ⟨by simp [node_bit]; omega, by simp [node_bit], ho, trivial⟩
    · unfold attach_branch
      split_ifs
      · exact ⟨by simp [node_bit]; omega, by simp [node_bit, new_leaf]; omega, ho,
          bit_order_new_leaf p⟩
      · exact ⟨by simp [node_bit, new_leaf]; omega, by simp [node_bit]; omega,
          bit_order_new_leaf p, ho⟩
    · exact ho
    · have hD : diverge (node b pre d l r) b p = b := by omega
      have hb : b < p.bitlen := by omega
      obtain ⟨-, -, -, -, h5', -, hr⟩ := hwf
      obtain ⟨o1, o2, o3, o4⟩ := ho
      refine ⟨o1, ?_, o3, ihr hr o4⟩
      apply lookup_root_bit hr p hb o2
      intro x hx i hi
      have hxm : x ∈ stored (node b pre d l r) := mem_stored_node.mpr (Or.inr (Or.inr hx))
      rcases Nat.lt_succ_iff_lt_or_eq.mp hi with h | h
      · rw [hD] at hagd
        exact (hagd i h).trans (hall q hqm x hxm i h)
      · subst h; rw [h5, (h5' x hx).2]
    · have hD : diverge (node b pre d l r) b p = b := by omega
      have hb : b < p.bitlen := by omega
      simp only [Bool.not_eq_true] at h5
      obtain ⟨-, -, -, h4', -, hl, -⟩ := hwf
      obtain ⟨o1, o2, o3, o4⟩ := ho
      refine ⟨?_, o2, ihl hl o3, o4⟩
      apply lookup_root_bit hl p hb o1
      intro x hx i hi
      have hxm : x ∈ stored (node b pre d l r) := mem_stored_node.mpr (Or.inr (Or.inl hx))
      rcases Nat.lt_succ_iff_lt_or_eq.mp hi with h | h
      · rw [hD] at hagd
        exact (hagd i h).trans (hall q hqm x hxm i h)
      · subst h; rw [h5, (h4' x hx).2]

theorem node_bit_set_data (t : radix_node_t) (w : List Bool) (v : VALUE) :
    node_bit (set_data t w v) = node_bit t := by
  cases t with
  | null => cases w <;> rfl
  | node b pre d l r =>
    cases w with
    | nil => rfl
    | cons a w => cases a <;> rfl

/-- Writing a value keeps the order of the bits. -/
theorem set_data_bit_order {t : radix_node_t} (ho : bit_order t) (w : List Bool) (v : VALUE) :
    bit_order (set_data t w v) := by
  induction t generalizing w with
  | null => cases w <;> exact ho
  | node b pre d l r ihl ihr =>
    obtain ⟨o1, o2, o3, o4⟩ := ho
    cases w with
    | nil => exact ⟨o1, o2, o3, o4⟩
    | cons a w =>
      cases a with
      | false => exact ⟨by rw [node_bit_set_data]; exact o1, o2, ihl o3 w, o4⟩
      | true => exact ⟨o1, by rw [node_bit_set_data]; exact o2, o3, ihr o4 w⟩

theorem node_bit_prune {t : radix_node_t} {b' : Nat} (h : node_bit (prune t) = some b') :
    node_bit t = some b' := by
  unfold prune at h
  split at h
  · simp [node_bit] at h
  · exact h

theorem bit_order_prune {t : radix_node_t} (h : bit_order t) : bit_order (prune t) := by
  unfold prune
  split
  · trivial
  · exact h

theorem node_bit_remove {t : radix_node_t} {w : List Bool} {b' : Nat}
    (h : node_bit (radix_remove t w) = some b') : node_bit t = some b' := by
  cases t with
  | null => simp [radix_remove, node_bit] at h
  | node b pre d l r =>
    cases w with
    | nil => simpa [radix_remove, node_bit] using node_bit_prune h
    | cons a w =>
      cases a <;> simpa [radix_remove, node_bit] using node_bit_prune h

/-- Removing a node keeps the order of the bits. -/
theorem remove_bit_order {t : radix_node_t} (ho : bit_order t) (w : List Bool) :
    bit_order (radix_remove t w) := by
  induction t generalizing w with
  | null => simpa [radix_remove] using ho
  | node b pre d l r ihl ihr =>
    obtain ⟨o1, o2, o3, o4⟩ := ho
    cases w with
    | nil => rw [radix_remove]; exact bit_order_prune ⟨o1, o2, o3, o4⟩
    | cons a w =>
      cases a with
      | false =>
        rw [radix_remove]
        exact bit_order_prune ⟨fun b' h => o1 b' (node_bit_remove h), o2, ihl o3 w, o4⟩
      | true =>
        rw [radix_remove]
        exact bit_order_prune ⟨o1, fun b' h => o2 b' (node_bit_remove h), o3, ihr o4 w⟩
theorem store_ord_picked {p : prefix_t} {s : radixdata} (hord : store_ord s) {T : radix_tree_t}
    (hT : picked p s = some T) : bit_order T.head := by
  unfold picked at hT
  split_ifs at hT
  · exact hord.2 T hT
  · exact hord.1 T hT

theorem store_ord_SETRT (p : prefix_t) {s : radixdata} (hord : store_ord s) {t : radix_tree_t}
    (ht : bit_order t.head) : store_ord (SETRT p s t) := by
  unfold SETRT
  split_ifs
  · exact ⟨hord.1, by intro t' h; cases h; exact ht⟩
  · exact ⟨by intro t' h; cases h; exact ht, hord.2⟩

theorem store_ord_new : store_ord newRadixData := by decide

/-- The order of the bits is kept by `[]=`. -/
theorem store_ord_add0 {s : radixdata} (ho : is_open s) (hinv : store_inv s) (hord : store_ord s)
    (addr : String) (plen : Option Int) (v : VALUE) : store_ord (rb_radix_add0 s addr plen v).1 := by
  obtain ⟨t4, t6, h4, h6⟩ := (is_open_iff s).mp ho
  cases hp : args_to_prefix addr (plen_of plen) with
  | raise e => simpa [rb_radix_add0, GetRadix_some h4 h6, hp] using hord
  | ok o =>
    cases o with
    | none => simpa [rb_radix_add0, GetRadix_some h4 h6, hp] using hord
    | some p =>
      obtain ⟨T, hT⟩ := picked_open (p := p) ho
      have hf := args_family hp
      obtain ⟨hwf, -⟩ := store_inv_picked hf hinv hT
      rw [add0_open ho hp hT]
      exact store_ord_SETRT p hord
        (set_data_bit_order (lookup_bit_order hwf (store_ord_picked hord hT) p) _ v)

/-- The order of the bits is kept by `delete`. -/
theorem store_ord_delete {s : radixdata} (ho : is_open s) (hord : store_ord s)
    (addr : String) (plen : Option Int) : store_ord (rb_radix_delete s addr plen).1 := by
  obtain ⟨t4, t6, h4, h6⟩ := (is_open_iff s).mp ho
  cases hp : args_to_prefix addr (plen_of plen) with
  | raise e => simpa [rb_radix_delete, GetRadix_some h4 h6, hp] using hord
  | ok o =>
    cases o with
    | none => simpa [rb_radix_delete, GetRadix_some h4 h6, hp] using hord
    | some p =>
      obtain ⟨T, hT⟩ := picked_open (p := p) ho
      rw [delete_open ho hp hT]
      cases hs : radix_search_exact T.head p with
      | none => exact hord
      | some w =>
        exact store_ord_SETRT p hord
          (remove_bit_order (set_data_bit_order (store_ord_picked hord hT) w 0) w)

/-- The order of the bits is kept by `clear`. -/
theorem store_ord_clear (s : radixdata) (hord : store_ord s) : store_ord (rb_radix_clear s).1 := by
  unfold rb_radix_clear
  split
  · exact hord
  · exact store_ord_new

/-- Every store a program reaches has the nodes of its trees in the order of their
bits. -/
theorem reachable_ord {s : radixdata} (h : Reachable s) : store_ord s := by
  induction h with
  | new => exact store_ord_new
  | add s addr plen hs ih =>
    rw [add_eq_add0]
    exact store_ord_add0 (reachable_inv hs).1 (reachable_inv hs).2 ih addr plen Qtrue
  | aset s addr plen v hs ih =>
    exact store_ord_add0 (reachable_inv hs).1 (reachable_inv hs).2 ih addr plen v
  | delete s addr plen hs ih => exact store_ord_delete (reachable_inv hs).1 ih addr plen
  | clear s _ ih => exact store_ord_clear s ih
/-! ## Pointers kept by a walk -/

theorem sub_at_nil (t : radix_node_t) : sub_at t [] = t := by
  cases t <;> simp [sub_at]

theorem sub_at_null (w : List Bool) : sub_at null w = null := by
  cases w <;> simp [sub_at]

theorem sub_at_left (b : Nat) (pre : Option prefix_t) (d : VALUE) (l r : radix_node_t)
    (w : List Bool) : sub_at (node b pre d l r) (false :: w) = sub_at l w := by
  simp [sub_at]

theorem sub_at_right (b : Nat) (pre : Option prefix_t) (d : VALUE) (l r : radix_node_t)
    (w : List Bool) : sub_at (node b pre d l r) (true :: w) = sub_at r w := by
  simp [sub_at]

theorem sub_at_append (t : radix_node_t) (w v : List Bool) :
    sub_at t (w ++ v) = sub_at (sub_at t w) v := by
  induction w generalizing t with
  | nil => simp [sub_at_nil]
  | cons a w ih =>
    cases t with
    | null => simp [sub_at_null]
    | node b pre d l r => cases a <;> simp [sub_at_left, sub_at_right, ih]

theorem stored_sub {t : radix_node_t} {w : List Bool} {x : prefix_t}
    (hx : x ∈ stored (sub_at t w)) : x ∈ stored t := by
  induction w generalizing t with
  | nil => rwa [sub_at_nil] at hx
  | cons a w ih =>
    cases t with
    | null => simp [sub_at_null, stored_null] at hx
    | node b pre d l r =>
      cases a with
      | false => rw [sub_at_left] at hx; exact mem_stored_node.mpr (Or.inr (Or.inl (ih hx)))
      | true => rw [sub_at_right] at hx; exact mem_stored_node.mpr (Or.inr (Or.inr (ih hx)))

theorem walk_sub {t : radix_node_t} {w : List Bool} {x : prefix_t × VALUE}
    (hx : x ∈ RADIX_WALK (sub_at t w)) : x ∈ RADIX_WALK t := by
  induction w generalizing t with
  | nil => rwa [sub_at_nil] at hx
  | cons a w ih =>
    cases t with
    | null => simp [sub_at_null, RADIX_WALK] at hx
    | node b pre d l r =>
      cases a <;> cases pre <;> simp only [sub_at_left, sub_at_right] at hx <;>
        simp [RADIX_WALK, ih hx]

theorem wf_sub {t : radix_node_t} (h : wf t) (w : List Bool) : wf (sub_at t w) := by
  induction w generalizing t with
  | nil => rw [sub_at_nil]; exact h
  | cons a w ih =>
    cases t with
    | null => rw [sub_at_null]; trivial
    | node b pre d l r =>
      cases a with
      | false => rw [sub_at_left]; exact ih h.2.2.2.2.2.1
      | true => rw [sub_at_right]; exact ih h.2.2.2.2.2.2

theorem bit_order_sub {t : radix_node_t} (h : bit_order t) (w : List Bool) :
    bit_order (sub_at t w) := by
  induction w generalizing t with
  | nil => rw [sub_at_nil]; exact h
  | cons a w ih =>
    cases t with
    | null => rw [sub_at_null]; trivial
    | node b pre d l r =>
      cases a with
      | false => rw [sub_at_left]; exact ih h.2.2.1
      | true => rw [sub_at_right]; exact ih h.2.2.2

/-- Below a node every node tests a later bit. -/
theorem sub_bit_lt {t : radix_node_t} (ho : bit_order t) {k : Nat}
    (hk : ∀ b', node_bit t = some b' → k < b') {w : List Bool} {b : Nat}
    (h : node_bit (sub_at t w) = some b) : k < b := by
  induction w generalizing t k with
  | nil => rw [sub_at_nil] at h; exact hk b h
  | cons a w ih =>
    cases t with
    | null => simp [sub_at_null, node_bit] at h
    | node b0 pre d l r =>
      have hk0 : k < b0 := hk b0 rfl
      obtain ⟨o1, o2, o3, o4⟩ := ho
      cases a with
      | false => rw [sub_at_left] at h; exact ih o3 (fun b' hb => lt_trans hk0 (o1 b' hb)) h
      | true => rw [sub_at_right] at h; exact ih o4 (fun b' hb => lt_trans hk0 (o2 b' hb)) h

/-- The node a pointer leads to is a node of the tree, and tests the pointer's bit. -/
theorem deref_sub {t : radix_node_t} {c : node_ptr} {pre : Option prefix_t} {d : VALUE}
    {l r : radix_node_t} (h : deref t c = some (pre, d, l, r)) :
    ∃ w, sub_at t w = node c.bit pre d l r := by
  induction t with
  | null => simp [deref] at h
  | node b0 p0 d0 l0 r0 ihl ihr =>
    rw [deref] at h
    split_ifs at h with h1 h2 h3
    · obtain ⟨w, hw⟩ := ihr h
      exact ⟨true :: w, by rw [sub_at_right]; exact hw⟩
    · obtain ⟨w, hw⟩ := ihl h
      exact ⟨false :: w, by rw [sub_at_left]; exact hw⟩
    · simp only [Option.some.injEq, Prod.mk.injEq] at h
      obtain ⟨rfl, rfl, rfl, rfl⟩ := h
      exact ⟨[], by rw [← h3.1, sub_at_nil]⟩

/-- A terminal node a pointer leads to is a node of the walk. -/
theorem deref_mem {t : radix_node_t} {c : node_ptr} {q : prefix_t} {d : VALUE}
    {l r : radix_node_t} (h : deref t c = some (some q, d, l, r)) : (q, d) ∈ RADIX_WALK t := by
  obtain ⟨w, hw⟩ := deref_sub h
  apply walk_sub (w := w)
  rw [hw]
  simp [RADIX_WALK]

/-- The pointer to a node of the tree leads to that node. -/
theorem deref_ptr {t : radix_node_t} (hwf : wf t) (ho : bit_order t) {w : List Bool} {b : Nat}
    {pre : Option prefix_t} {d : VALUE} {l r : radix_node_t}
    (h : sub_at t w = node b pre d l r) :
    ∃ c, ptr_of (node b pre d l r) = some c ∧ c.bit = b ∧ deref t c = some (pre, d, l, r) := by
  have hwfx : wf (node b pre d l r) := by rw [← h]; exact wf_sub hwf w
  obtain ⟨q, hq⟩ := rep_some_of_wf hwfx (by simp)
  refine ⟨⟨b, q⟩, by simp only [ptr_of, hq], rfl, ?_⟩
  have hqx : q ∈ stored (sub_at t w) := by rw [h]; exact rep_mem hq
  clear hwfx
  induction w generalizing t with
  | nil =>
    rw [sub_at_nil] at h
    subst h
    rw [deref]
    simp [names, hq, comp_with_mask_iff, agree_refl]
  | cons a w ih =>
    cases t with
    | null => simp [sub_at_null] at h
    | node b0 p0 d0 l0 r0 =>
      obtain ⟨-, -, -, h4, h5, hl, hr⟩ := hwf
      have hlt : b0 < b := by
        cases a with
        | false =>
          exact sub_bit_lt ho.2.2.1 ho.1 (w := w) (by rw [sub_at_left] at h; rw [h]; rfl)
        | true =>
          exact sub_bit_lt ho.2.2.2 ho.2.1 (w := w) (by rw [sub_at_right] at h; rw [h]; rfl)
      rw [deref]
      simp only [hlt, if_true]
      cases a with
      | false =>
        rw [sub_at_left] at h hqx
        rw [(h4 q (stored_sub hqx)).2]
        simpa using ih hl ho.2.2.1 h hqx
      | true =>
        rw [sub_at_right] at h hqx
        rw [(h5 q (stored_sub hqx)).2]
        simpa using ih hr ho.2.2.2 h hqx
/-! ## The loop of a yielding walk -/

theorem walk_yield_none {α : Type} (g : Nat) (item : prefix_t → VALUE → α) (blk : Block α)
    (i fuel : Nat) (Xsp : List node_ptr) (r : radixdata) :
    walk_yield g item blk i fuel none Xsp r = (r, [], Ret.ok false) := by
  cases fuel <;> rfl

/-- The worklist of a walk: the node it stands at, then the stack. -/
theorem walk_end_worklist (l r : radix_node_t) (Xsp : List node_ptr) :
    (RADIX_WALK_END l r Xsp).1 = ((ptr_of l).toList ++ (ptr_of r).toList ++ Xsp).head? ∧
    (RADIX_WALK_END l r Xsp).2 = ((ptr_of l).toList ++ (ptr_of r).toList ++ Xsp).tail := by
  unfold RADIX_WALK_END
  cases ptr_of l <;> cases ptr_of r <;> cases Xsp <;> simp

/-- A pass of the loop yields nothing or the element of the node it stands at, and
does not end with "closed Radix tree". -/
theorem walk_step_done {α : Type} {g : Nat} {item : prefix_t → VALUE → α} {blk : Block α}
    {i : Nat} {c : node_ptr} {Xsp : List node_ptr} {r r' : radixdata} {ys : List α}
    {res : Ret Bool} (h : walk_step g item blk i c Xsp r = Stepped.done r' ys res) :
    res ≠ Ret.raise Error.closed_radix := by
  unfold walk_step at h
  split at h
  · cases h; simp
  · unfold walk_end at h
    split at h <;> cases h; simp
  · split_ifs at h
    · cases h; simp
    · split at h
      · unfold walk_end at h
        split at h <;> cases h; simp
      · cases h; simp
      · cases h; simp
    · unfold walk_end at h
      split at h <;> cases h; simp

/-- A yielding walk never ends with "closed Radix tree". -/
theorem walk_yield_not_closed {α : Type} (g : Nat) (item : prefix_t → VALUE → α) (blk : Block α)
    (i fuel : Nat) (Xrn : Option node_ptr) (Xsp : List node_ptr) (r : radixdata) :
    (walk_yield g item blk i fuel Xrn Xsp r).2.2 ≠ Ret.raise Error.closed_radix := by
  induction fuel generalizing Xrn Xsp r with
  | zero => cases Xrn <;> simp [walk_yield]
  | succ n ih =>
    cases Xrn with
    | none => simp [walk_yield]
    | some c =>
      rw [walk_yield]
      cases hs : walk_step g item blk i c Xsp r with
      | done r' ys res => exact walk_step_done hs
      | more Xrn' Xsp' r' ys => exact ih Xrn' Xsp' r'

/-- What a pass of the loop does at a node that is a branch node: nothing but
`RADIX_WALK_END`. -/
theorem walk_step_branch {α : Type} (g : Nat) (item : prefix_t → VALUE → α) (blk : Block α)
    {i : Nat} {c : node_ptr} (Xsp : List node_ptr) {r : radixdata} {d : VALUE}
    {l r' : radix_node_t} (h : at_ptr r i c = some (none, d, l, r')) :
    walk_step g item blk i c Xsp r
      = Stepped.more (RADIX_WALK_END l r' Xsp).1 (RADIX_WALK_END l r' Xsp).2 r [] := by
  unfold walk_step
  rw [h]
  simp only [walk_end, h]

/-- What a pass of the loop does at a terminal node when the generation is no longer
the one the walk began with: "Radix tree modified during iteration". -/
theorem walk_step_modified {α : Type} {g : Nat} (item : prefix_t → VALUE → α) (blk : Block α)
    {i : Nat} {c : node_ptr} (Xsp : List node_ptr) {r : radixdata} {q : prefix_t} {d : VALUE}
    {l r' : radix_node_t} (h : at_ptr r i c = some (some q, d, l, r')) (hg : g ≠ r.gen_id) :
    walk_step g item blk i c Xsp r = Stepped.done r [] (Ret.raise Error.modified) := by
  unfold walk_step
  rw [h]
  simp only [hg, ne_eq, not_false_eq_true, if_true]

/-- What a pass of the loop does at a terminal node whose `data` is null: nothing
but the check and `RADIX_WALK_END`. -/
theorem walk_step_skip {α : Type} {g : Nat} (item : prefix_t → VALUE → α) (blk : Block α)
    {i : Nat} {c : node_ptr} (Xsp : List node_ptr) {r : radixdata} {q : prefix_t}
    {l r' : radix_node_t} (h : at_ptr r i c = some (some q, 0, l, r')) (hg : g = r.gen_id) :
    walk_step g item blk i c Xsp r
      = Stepped.more (RADIX_WALK_END l r' Xsp).1 (RADIX_WALK_END l r' Xsp).2 r [] := by
  unfold walk_step
  rw [h]
  simp only [hg, ne_eq, not_true_eq_false, if_false, walk_end, h]

/-- What a pass of the loop does at a terminal node with a value when the block
returns: the element is yielded, then `RADIX_WALK_END` reads the children the node
has in the store the block left. -/
theorem walk_step_yield {α : Type} {g : Nat} {item : prefix_t → VALUE → α} {blk : Block α}
    {i : Nat} {c : node_ptr} (Xsp : List node_ptr) {r r1 : radixdata} {q : prefix_t} {d : VALUE}
    {l r' : radix_node_t} (h : at_ptr r i c = some (some q, d, l, r')) (hg : g = r.gen_id)
    (hd : d ≠ 0) (hb : blk (item q d) r = (r1, Yield.next)) :
    walk_step g item blk i c Xsp r = walk_end i c Xsp r1 [item q d] := by
  unfold walk_step
  rw [h]
  simp only [hg, ne_eq, not_true_eq_false, if_false, hd, not_false_eq_true, if_true, hb]

theorem at_ptr_eq {r : radixdata} {i : Nat} {T : radix_tree_t} (hT : rt_at r i = some T)
    (c : node_ptr) : at_ptr r i c = deref T.head c := by
  simp [at_ptr, hT]

theorem node_count_pos {t : radix_node_t} (h : t ≠ null) : 0 < node_count t := by
  cases t with
  | null => exact absurd rfl h
  | node b pre d l r => simp [node_count]

theorem live_cons_ne {x : prefix_t × VALUE} (xs : List (prefix_t × VALUE)) (h : x.2 ≠ 0) :
    live (x :: xs) = x :: live xs := by
  simp [live, h]

theorem live_cons_zero {x : prefix_t × VALUE} (xs : List (prefix_t × VALUE)) (h : x.2 = 0) :
    live (x :: xs) = live xs := by
  simp [live, h]

/-- The nodes a walk has on its worklist after a node: the children of the node,
then what was on the stack. -/
theorem walk_end_kids {T : radix_node_t} (hwf : wf T) (hord : bit_order T) {w : List Bool}
    {b : Nat} {pre : Option prefix_t} {d : VALUE} {l r : radix_node_t}
    (hw : sub_at T w = node b pre d l r) (ps : List (node_ptr × radix_node_t)) :
    ∃ ks : List (node_ptr × radix_node_t),
      (∀ p ∈ ks, p.2 ≠ null ∧ ptr_of p.2 = some p.1 ∧ ∃ w', sub_at T w' = p.2) ∧
      (ks.map (fun p => node_count p.2)).sum = node_count l + node_count r ∧
      ks.flatMap (fun p => RADIX_WALK p.2) = RADIX_WALK l ++ RADIX_WALK r ∧
      (RADIX_WALK_END l r (ps.map Prod.fst)).1 = ((ks ++ ps).map Prod.fst).head? ∧
      (RADIX_WALK_END l r (ps.map Prod.fst)).2 = ((ks ++ ps).map Prod.fst).tail := by
  have hl : sub_at T (w ++ [false]) = l := by rw [sub_at_append, hw, sub_at_left, sub_at_nil]
  have hr : sub_at T (w ++ [true]) = r := by rw [sub_at_append, hw, sub_at_right, sub_at_nil]
  have hwl := walk_end_worklist l r (ps.map Prod.fst)
  cases hl0 : l with
  | null =>
    cases hr0 : r with
    | null =>
      refine ⟨[], by simp, by simp [node_count], by simp [RADIX_WALK], ?_, ?_⟩
      · rw [hl0, hr0] at hwl; simpa [ptr_of] using hwl.1
      · rw [hl0, hr0] at hwl; simpa [ptr_of] using hwl.2
    | node br pr dr lr rr =>
      obtain ⟨cr, hpr, -, -⟩ := deref_ptr hwf hord (hr.trans hr0)
      refine ⟨[(cr, node br pr dr lr rr)], ?_, by simp [node_count], by simp [RADIX_WALK], ?_, ?_⟩
      · intro p hp
        simp only [List.mem_singleton] at hp
        subst hp
        exact ⟨by simp, hpr, _, hr.trans hr0⟩
      · rw [hl0, hr0, hpr] at hwl; simpa [ptr_of] using hwl.1
      · rw [hl0, hr0, hpr] at hwl; simpa [ptr_of] using hwl.2
  | node bl pl dl ll rl =>
    obtain ⟨cl, hpl, -, -⟩ := deref_ptr hwf hord (hl.trans hl0)
    cases hr0 : r with
    | null =>
      refine ⟨[(cl, node bl pl dl ll rl)], ?_, by simp [node_count], by simp [RADIX_WALK], ?_, ?_⟩
      · intro p hp
        simp only [List.mem_singleton] at hp
        subst hp
        exact ⟨by simp, hpl, _, hl.trans hl0⟩
      · rw [hl0, hr0, hpl] at hwl; simpa [ptr_of] using hwl.1
      · rw [hl0, hr0, hpl] at hwl; simpa [ptr_of] using hwl.2
    | node br pr dr lr rr =>
      obtain ⟨cr, hpr, -, -⟩ := deref_ptr hwf hord (hr.trans hr0)
      refine ⟨[(cl, node bl pl dl ll rl), (cr, node br pr dr lr rr)], ?_, by simp [node_count],
        by simp, ?_, ?_⟩
      · intro p hp
        simp only [List.mem_cons, List.mem_singleton, List.not_mem_nil, or_false] at hp
        rcases hp with rfl | rfl
        · exact ⟨by simp, hpl, _, hl.trans hl0⟩
        · exact ⟨by simp, hpr, _, hr.trans hr0⟩
      · rw [hl0, hr0, hpl, hpr] at hwl; simpa using hwl.1
      · rw [hl0, hr0, hpl, hpr] at hwl; simpa using hwl.2

/-- A walk whose block changes nothing and lets it go on visits every node on its
worklist and below, in walk order, yields the elements of those whose `data` is not
null, and ends normally, within as many passes as there are nodes. -/
theorem walk_yield_all {α : Type} (item : prefix_t → VALUE → α) {blk : Block α}
    (hblk : ∀ x st, blk x st = (st, Yield.next)) {i : Nat} {r : radixdata} {T : radix_tree_t}
    (hT : rt_at r i = some T) (hwf : wf T.head) (hord : bit_order T.head) (fuel : Nat)
    (ps : List (node_ptr × radix_node_t))
    (hps : ∀ p ∈ ps, p.2 ≠ null ∧ ptr_of p.2 = some p.1 ∧ ∃ w, sub_at T.head w = p.2)
    (hfuel : (ps.map (fun p => node_count p.2)).sum ≤ fuel) :
    walk_yield r.gen_id item blk i fuel (ps.map Prod.fst).head? (ps.map Prod.fst).tail r
      = (r, (live (ps.flatMap (fun p => RADIX_WALK p.2))).map (fun e => item e.1 e.2),
         Ret.ok false) := by
  induction fuel generalizing ps with
  | zero =>
    cases ps with
    | nil => simp [walk_yield, live]
    | cons p ps =>
      have := node_count_pos (hps p (by simp)).1
      simp at hfuel
      omega
  | succ n ih =>
    cases ps with
    | nil => simp [walk_yield, live]
    | cons p ps =>
      obtain ⟨c, X⟩ := p
      obtain ⟨hX, hptr, w, hw⟩ := hps (c, X) (by simp)
      cases X with
      | null => exact absurd rfl hX
      | node b pre d l r' =>
        obtain ⟨c0, hp0, -, hd0⟩ := deref_ptr hwf hord hw
        have hc : c0 = c := by
          rw [hp0] at hptr; exact Option.some.inj hptr
        subst hc
        obtain ⟨ks, hks, hsum, hwalk, hrn, hsp⟩ := walk_end_kids hwf hord hw ps
        have hps' : ∀ p ∈ ks ++ ps,
            p.2 ≠ null ∧ ptr_of p.2 = some p.1 ∧ ∃ w, sub_at T.head w = p.2 := by
          intro p hp
          rcases List.mem_append.mp hp with h | h
          · exact hks p h
          · exact hps p (List.mem_cons_of_mem _ h)
        have hfuel' : ((ks ++ ps).map (fun p => node_count p.2)).sum ≤ n := by
          simp only [List.map_cons, List.sum_cons, node_count] at hfuel
          simp only [List.map_append, List.sum_append, hsum]
          omega
        have hrec := ih (ks ++ ps) hps' hfuel'
        rw [← hrn, ← hsp] at hrec
        have hbind : (ks ++ ps).flatMap (fun p => RADIX_WALK p.2)
            = RADIX_WALK l ++ RADIX_WALK r' ++ ps.flatMap (fun p => RADIX_WALK p.2) := by
          rw [List.flatMap_append, hwalk]
        simp only [List.map_cons, List.head?_cons, List.tail_cons]
        rw [walk_yield]
        cases pre with
        | none =>
          rw [walk_step_branch r.gen_id item blk _ (by rw [at_ptr_eq hT]; exact hd0)]
          simp only [hrec, hbind, List.nil_append, List.flatMap_cons, RADIX_WALK,
            List.append_assoc]
        | some q =>
          by_cases hd : d = 0
          · subst hd
            rw [walk_step_skip item blk _ (by rw [at_ptr_eq hT]; exact hd0) rfl]
            simp only [hrec, hbind, List.nil_append, List.flatMap_cons, RADIX_WALK,
              List.cons_append, List.append_assoc]
            rw [live_cons_zero _ rfl]
          · rw [walk_step_yield _ (by rw [at_ptr_eq hT]; exact hd0) rfl hd (hblk _ _)]
            simp only [walk_end, at_ptr_eq hT, hd0, hrec, hbind, List.flatMap_cons, RADIX_WALK,
              List.cons_append, List.append_assoc, List.singleton_append]
            rw [live_cons_ne _ (by exact hd)]
            simp

/-- The walk of a whole tree whose block changes nothing and lets it go on: every
node whose `data` is not null is yielded, in walk order, within as many passes as
the tree has nodes. -/
theorem walk_yield_tree {α : Type} (item : prefix_t → VALUE → α) {blk : Block α}
    (hblk : ∀ x st, blk x st = (st, Yield.next)) {i : Nat} {r : radixdata} {T : radix_tree_t}
    (hT : rt_at r i = some T) (hwf : wf T.head) (hord : bit_order T.head) {fuel : Nat}
    (hfuel : node_count T.head ≤ fuel) :
    walk_yield r.gen_id item blk i fuel (ptr_of T.head) [] r
      = (r, (live (RADIX_WALK T.head)).map (fun e => item e.1 e.2), Ret.ok false) := by
  cases hh : T.head with
  | null => simp [ptr_of, walk_yield_none, RADIX_WALK, live]
  | node b pre d l r' =>
    obtain ⟨c, hp, -, -⟩ := deref_ptr hwf hord (w := []) (by rw [sub_at_nil]; exact hh)
    have := walk_yield_all item hblk hT hwf hord fuel [(c, node b pre d l r')]
      (by
        intro p hpm
        simp only [List.mem_singleton] at hpm
        subst hpm
        exact ⟨by simp, hp, [], by rw [sub_at_nil]; exact hh⟩)
      (by rw [hh] at hfuel; simpa using hfuel)
    rw [hp]
    simpa using this
/-! ## The enumerations -/

theorem rt_at_v4 (s : radixdata) : rt_at s RT_IPV4 = s.rt4 := rfl

theorem rt_at_v6 (s : radixdata) : rt_at s RT_IPV6 = s.rt6 := rfl

/-- An enumeration on an open store never ends with "closed Radix tree". -/
theorem each_walk_not_closed {α : Type} {s : radixdata} (ho : is_open s)
    (item : prefix_t → VALUE → α) (blk : Block α) (fuel : Nat) :
    (each_walk s item blk fuel).2.2 ≠ Ret.raise Error.closed_radix := by
  obtain ⟨t4, t6, h4, h6⟩ := (is_open_iff s).mp ho
  unfold each_walk
  rw [GetRadix_some h4 h6]
  simp only
  have h1 := walk_yield_not_closed s.gen_id item blk RT_IPV4 fuel (ptr_of t4.head) [] s
  rcases hw : walk_yield s.gen_id item blk RT_IPV4 fuel (ptr_of t4.head) [] s with ⟨s1, ys1, r1⟩
  rw [hw] at h1
  cases r1 with
  | raise e => simpa using h1
  | ok b =>
    cases b with
    | true => simp
    | false =>
      simp only
      cases h6' : s1.rt6 with
      | none => simp
      | some t6' =>
        simp only
        have h2 := walk_yield_not_closed s.gen_id item blk RT_IPV6 fuel (ptr_of t6'.head) [] s1
        rcases hw2 : walk_yield s.gen_id item blk RT_IPV6 fuel (ptr_of t6'.head) [] s1
          with ⟨s2, ys2, r2⟩
        rw [hw2] at h2
        cases r2 with
        | raise e => simpa using h2
        | ok b => simp

/-- The loop of an enumeration whose block leaves the store as it is: the store is
unchanged and every element yielded comes from a node of the walk whose `data` is
not null. -/
theorem walk_yield_readonly {α : Type} (g : Nat) (item : prefix_t → VALUE → α) {blk : Block α}
    (hro : ∀ x st, (blk x st).1 = st) {i : Nat} {r : radixdata} {T : radix_tree_t}
    (hT : rt_at r i = some T) (fuel : Nat) (Xrn : Option node_ptr) (Xsp : List node_ptr) :
    (walk_yield g item blk i fuel Xrn Xsp r).1 = r ∧
    ∀ y ∈ (walk_yield g item blk i fuel Xrn Xsp r).2.1,
      ∃ e ∈ live (RADIX_WALK T.head), y = item e.1 e.2 := by
  induction fuel generalizing Xrn Xsp with
  | zero => cases Xrn <;> simp [walk_yield]
  | succ n ih =>
    cases Xrn with
    | none => simp [walk_yield]
    | some c =>
      rw [walk_yield]
      rcases hp : at_ptr r i c with _ | ⟨pre, d, l, r'⟩
      · simp [walk_step, hp]
      · cases pre with
        | none =>
          rw [walk_step_branch g item blk Xsp hp]
          simpa using ih _ _
        | some q =>
          by_cases hg : g = r.gen_id
          · by_cases hd : d = 0
            · subst hd
              rw [walk_step_skip item blk Xsp hp hg]
              simpa using ih _ _
            · have hmem : (q, d) ∈ live (RADIX_WALK T.head) := by
                rw [at_ptr_eq hT] at hp
                exact List.mem_filter.mpr ⟨deref_mem hp, by simpa using hd⟩
              have hst := hro (item q d) r
              cases hb : blk (item q d) r with
              | mk r1 y =>
                rw [hb] at hst
                simp only at hst
                subst hst
                cases y with
                | next =>
                  rw [walk_step_yield Xsp hp hg hd hb]
                  simp only [walk_end, hp]
                  refine ⟨(ih _ _).1, ?_⟩
                  intro y hy
                  simp only [List.singleton_append, List.mem_cons] at hy
                  rcases hy with rfl | hy
                  · exact ⟨(q, d), hmem, rfl⟩
                  · exact (ih _ _).2 y hy
                | brk =>
                  simp only [walk_step, hp, hg, ne_eq, not_true_eq_false, if_false, hd,
                    not_false_eq_true, if_true, hb]
                  exact ⟨trivial, fun y hy => ⟨(q, d), hmem, by simpa using hy⟩⟩
                | raise exc =>
                  simp only [walk_step, hp, hg, ne_eq, not_true_eq_false, if_false, hd,
                    not_false_eq_true, if_true, hb]
                  exact ⟨trivial, fun y hy => ⟨(q, d), hmem, by simpa using hy⟩⟩
          · rw [walk_step_modified item blk Xsp hp hg]
            simp

/-- The enumerations with a block that leaves the store as it is: every element
yielded comes from a node of the store whose `data` is not null. -/
theorem each_walk_readonly {α : Type} {s : radixdata} (ho : is_open s)
    (item : prefix_t → VALUE → α) {blk : Block α} (hro : ∀ x st, (blk x st).1 = st)
    (fuel : Nat) :
    ∀ y ∈ (each_walk s item blk fuel).2.1, ∃ e ∈ live (entries s), y = item e.1 e.2 := by
  obtain ⟨t4, t6, h4, h6⟩ := (is_open_iff s).mp ho
  have hent : entries s = RADIX_WALK t4.head ++ RADIX_WALK t6.head := by
    simp [entries, h4, h6]
  obtain ⟨hs1, hy1⟩ := walk_yield_readonly s.gen_id item hro (rt_at_v4 s ▸ h4) fuel
    (ptr_of t4.head) []
  obtain ⟨-, hy2⟩ := walk_yield_readonly s.gen_id item hro (rt_at_v6 s ▸ h6) fuel
    (ptr_of t6.head) []
  have lift1 : ∀ y, (∃ e ∈ live (RADIX_WALK t4.head), y = item e.1 e.2) →
      ∃ e ∈ live (entries s), y = item e.1 e.2 := by
    rintro y ⟨e, he, rfl⟩
    exact ⟨e, by rw [hent, live_append]; simp [he], rfl⟩
  have lift2 : ∀ y, (∃ e ∈ live (RADIX_WALK t6.head), y = item e.1 e.2) →
      ∃ e ∈ live (entries s), y = item e.1 e.2 := by
    rintro y ⟨e, he, rfl⟩
    exact ⟨e, by rw [hent, live_append]; simp [he], rfl⟩
  unfold each_walk
  rw [GetRadix_some h4 h6]
  simp only
  rcases hw : walk_yield s.gen_id item blk RT_IPV4 fuel (ptr_of t4.head) [] s with ⟨s1, ys1, r1⟩
  rw [hw] at hs1 hy1
  simp only at hs1 hy1
  subst hs1
  cases r1 with
  | raise e => exact fun y hy => lift1 y (hy1 y hy)
  | ok b =>
    cases b with
    | true => exact fun y hy => lift1 y (hy1 y hy)
    | false =>
      simp only [h6]
      rcases hw2 : walk_yield s1.gen_id item blk RT_IPV6 fuel (ptr_of t6.head) [] s1
        with ⟨s2, ys2, r2⟩
      rw [hw2] at hy2
      simp only at hy2
      cases r2 with
      | raise e =>
        intro y hy
        simp only [List.mem_append] at hy
        rcases hy with hy | hy
        · exact lift1 y (hy1 y hy)
        · exact lift2 y (hy2 y hy)
      | ok b =>
        intro y hy
        simp only [List.mem_append] at hy
        rcases hy with hy | hy
        · exact lift1 y (hy1 y hy)
        · exact lift2 y (hy2 y hy)

/-- The enumerations with a block that changes nothing and lets the walk go on,
given as many passes as a tree has nodes: every node of the store whose `data` is
not null is yielded, in walk order, and the call returns normally. -/
theorem each_walk_all {α : Type} {s : radixdata} {t4 t6 : radix_tree_t} (h4 : s.rt4 = some t4)
    (h6 : s.rt6 = some t6) (hinv : store_inv s) (hord : store_ord s)
    (item : prefix_t → VALUE → α) {blk : Block α} (hblk : ∀ x st, blk x st = (st, Yield.next))
    {fuel : Nat} (hf4 : node_count t4.head ≤ fuel) (hf6 : node_count t6.head ≤ fuel) :
    each_walk s item blk fuel
      = (s, (live (entries s)).map (fun e => item e.1 e.2), Ret.ok ()) := by
  have hent : entries s = RADIX_WALK t4.head ++ RADIX_WALK t6.head := by
    simp [entries, h4, h6]
  unfold each_walk
  rw [GetRadix_some h4 h6]
  simp only
  rw [walk_yield_tree item hblk (rt_at_v4 s ▸ h4) (hinv.2.1 t4 h4).1 (hord.1 t4 h4) hf4]
  simp only [h6]
  rw [walk_yield_tree item hblk (rt_at_v6 s ▸ h6) (hinv.2.2 t6 h6).1 (hord.2 t6 h6) hf6]
  simp [hent, live_append]
/-- The walks that call no block return normally on an open store. -/
theorem buffered_ok {s : radixdata} (ho : is_open s) :
    (rb_radix_keys s).2 = Ret.ok ((live (entries s)).map (fun x => prefix_ntop x.1)) ∧
    (rb_radix_values s).2 = Ret.ok ((live (entries s)).map (fun x => x.2)) ∧
    (rb_radix_to_hash s).2
      = Ret.ok ((live (entries s)).foldl (fun h x => hash_aset h (prefix_ntop x.1) x.2) []) ∧
    (rb_radix_length s).2 = Ret.ok (live (entries s)).length := by
  obtain ⟨t4, t6, h4, h6⟩ := (is_open_iff s).mp ho
  simp [rb_radix_keys, rb_radix_values, rb_radix_to_hash, rb_radix_length, GetRadix_some h4 h6,
    walk_both_ok h4 h6]

/-- C6: for every open store, whatever its contents and generation, `clear` leaves
the store in the state of a freshly created one (`newRadixData`): both trees empty
and the generation 0; so `length` is 0 and `keys`, `values`, `to_hash` are empty. -/
theorem C6_clear_resets (s : radixdata) (ho : is_open s) :
    rb_radix_clear s = (newRadixData, Ret.ok ()) ∧
    (rb_radix_clear s).1.rt4 = some ⟨null⟩ ∧
    (rb_radix_clear s).1.rt6 = some ⟨null⟩ ∧
    (rb_radix_clear s).1.gen_id = 0 ∧
    entries (rb_radix_clear s).1 = [] ∧
    (rb_radix_length (rb_radix_clear s).1).2 = Ret.ok 0 ∧
    (rb_radix_keys (rb_radix_clear s).1).2 = Ret.ok [] ∧
    (rb_radix_values (rb_radix_clear s).1).2 = Ret.ok [] ∧
    (rb_radix_to_hash (rb_radix_clear s).1).2 = Ret.ok [] := by
  obtain ⟨t4, t6, h4, h6⟩ := (is_open_iff s).mp ho
  have h : rb_radix_clear s = (newRadixData, Ret.ok ()) := by
    simp [rb_radix_clear, GetRadix_some h4 h6, newRadixData, init_radixdata]
  rw [h]
  exact ⟨rfl, by decide, by decide, by decide, by decide, by decide, by decide, by decide,
    by decide⟩

/-- C6 at a concrete input: the documented example store (three entries,
generation 3). -/
theorem C6_clear_resets_witness :
    is_open doc_example ∧ doc_example.gen_id = 3 ∧
    (rb_radix_length doc_example).2 = Ret.ok 3 ∧
    rb_radix_clear doc_example = (newRadixData, Ret.ok ()) ∧
    (rb_radix_length (rb_radix_clear doc_example).1).2 = Ret.ok 0 ∧
    (rb_radix_keys (rb_radix_clear doc_example).1).2 = Ret.ok [] :=
  ⟨by decide, by decide, by decide,
    (C6_clear_resets doc_example (by decide)).1,
    (C6_clear_resets doc_example (by decide)).2.2.2.2.2.1,
    (C6_clear_resets doc_example (by decide)).2.2.2.2.2.2.1⟩

/-! ## C7: the two families -/

theorem other_delete {s : radixdata} (ho : is_open s) {addr : String} {plen : Option Int}
    {p : prefix_t} (hp : args_to_prefix addr (plen_of plen) = Ret.ok (some p)) :
    other p (rb_radix_delete s addr plen).1 = other p s := by
  obtain ⟨T, hT⟩ := picked_open (p := p) ho
  rw [delete_open ho hp hT]
  cases radix_search_exact T.head p with
  | none => rfl
  | some w => simp only [other_bump, other_SETRT]

theorem other_add0 {s : radixdata} (ho : is_open s) {addr : String} {plen : Option Int}
    {p : prefix_t} (hp : args_to_prefix addr (plen_of plen) = Ret.ok (some p)) (v : VALUE) :
    other p (rb_radix_add0 s addr plen v).1 = other p s := by
  obtain ⟨T, hT⟩ := picked_open (p := p) ho
  rw [add0_open ho hp hT, other_bump, other_SETRT]

/-- The operations on a prefix leave the tree of the other family as it is. -/
theorem family_frame {s : radixdata} (ho : is_open s) {addr : String} {plen : Option Int}
    {p : prefix_t} (hp : args_to_prefix addr (plen_of plen) = Ret.ok (some p)) (v : VALUE) :
    other p (rb_radix_add0 s addr plen v).1 = other p s ∧
    other p (rb_radix_add s addr plen).1 = other p s ∧
    other p (rb_radix_delete s addr plen).1 = other p s ∧
    (rb_radix_search_best s addr plen).1 = s ∧
    (rb_radix_search_exact s addr plen).1 = s ∧
    (rb_radix_aref s addr plen).1 = s := by
  obtain ⟨T, hT⟩ := picked_open (p := p) ho
  refine ⟨other_add0 ho hp v, by rw [add_eq_add0]; exact other_add0 ho hp Qtrue,
    other_delete ho hp, ?_, ?_, ?_⟩
  · rw [search_best_open ho hp hT]
  · rw [search_exact_open ho hp hT]
  · rw [rb_radix_aref, search_best_open ho hp hT]

/-- What the operations on a prefix return, and the tree of its family afterwards,
depend on the tree of its family only. -/
theorem family_reads {s s' : radixdata} (ho : is_open s) (ho' : is_open s') {addr : String}
    {plen : Option Int} {p : prefix_t}
    (hp : args_to_prefix addr (plen_of plen) = Ret.ok (some p))
    (hsame : picked p s = picked p s') (v : VALUE) :
    ((rb_radix_add0 s addr plen v).2 = (rb_radix_add0 s' addr plen v).2 ∧
      picked p (rb_radix_add0 s addr plen v).1 = picked p (rb_radix_add0 s' addr plen v).1) ∧
    ((rb_radix_add s addr plen).2 = (rb_radix_add s' addr plen).2 ∧
      picked p (rb_radix_add s addr plen).1 = picked p (rb_radix_add s' addr plen).1) ∧
    ((rb_radix_delete s addr plen).2 = (rb_radix_delete s' addr plen).2 ∧
      picked p (rb_radix_delete s addr plen).1 = picked p (rb_radix_delete s' addr plen).1) ∧
    (rb_radix_search_best s addr plen).2 = (rb_radix_search_best s' addr plen).2 ∧
    (rb_radix_search_exact s addr plen).2 = (rb_radix_search_exact s' addr plen).2 ∧
    (rb_radix_aref s addr plen).2 = (rb_radix_aref s' addr plen).2 := by
  obtain ⟨T, hT⟩ := picked_open (p := p) ho
  have hT' : picked p s' = some T := by rw [← hsame]; exact hT
  have hadd : ∀ v, (rb_radix_add0 s addr plen v).2 = (rb_radix_add0 s' addr plen v).2 ∧
      picked p (rb_radix_add0 s addr plen v).1 = picked p (rb_radix_add0 s' addr plen v).1 := by
    intro v
    rw [add0_open ho hp hT, add0_open ho' hp hT']
    simp only [picked_bump, picked_SETRT, and_self]
  refine ⟨hadd v, by rw [add_eq_add0, add_eq_add0]; exact hadd Qtrue, ?_, ?_, ?_, ?_⟩
  · rw [delete_open ho hp hT, delete_open ho' hp hT']
    cases radix_search_exact T.head p with
    | none => exact ⟨rfl, hsame⟩
    | some w => simp only [picked_bump, picked_SETRT, and_self]
  · rw [search_best_open ho hp hT, search_best_open ho' hp hT']
  · rw [search_exact_open ho hp hT, search_exact_open ho' hp hT']
  · rw [rb_radix_aref, rb_radix_aref, search_best_open ho hp hT, search_best_open ho' hp hT']

/-- C7: every `add`, `[]=`, `delete`, `search_best`, `search_exact` (and `[]`) on a
valid prefix leaves the tree of the other family unchanged, and what it returns and
the tree of the prefix's family afterwards depend only on the tree of that family
(two open stores with the same tree for that family give the same result).
Consequently, after storing `"0.0.0.0/0"` and `"::/0"` in a new store both entries
are there, `length` is 2, an IPv4 query finds the IPv4 entry (family 4) and an IPv6
query finds the IPv6 entry (family 6). -/
theorem C7_family_independence (s s' : radixdata) (addr : String) (plen : Option Int)
    (p : prefix_t) (v : VALUE) (ho : is_open s) (ho' : is_open s')
    (hp : args_to_prefix addr (plen_of plen) = Ret.ok (some p))
    (hsame : picked p s = picked p s') :
    (other p (rb_radix_add0 s addr plen v).1 = other p s ∧
     other p (rb_radix_add s addr plen).1 = other p s ∧
     other p (rb_radix_delete s addr plen).1 = other p s ∧
     (rb_radix_search_best s addr plen).1 = s ∧
     (rb_radix_search_exact s addr plen).1 = s ∧
     (rb_radix_aref s addr plen).1 = s) ∧
    (((rb_radix_add0 s addr plen v).2 = (rb_radix_add0 s' addr plen v).2 ∧
      picked p (rb_radix_add0 s addr plen v).1 = picked p (rb_radix_add0 s' addr plen v).1) ∧
     ((rb_radix_add s addr plen).2 = (rb_radix_add s' addr plen).2 ∧
      picked p (rb_radix_add s addr plen).1 = picked p (rb_radix_add s' addr plen).1) ∧
     ((rb_radix_delete s addr plen).2 = (rb_radix_delete s' addr plen).2 ∧
      picked p (rb_radix_delete s addr plen).1 = picked p (rb_radix_delete s' addr plen).1) ∧
     (rb_radix_search_best s addr plen).2 = (rb_radix_search_best s' addr plen).2 ∧
     (rb_radix_search_exact s addr plen).2 = (rb_radix_search_exact s' addr plen).2 ∧
     (rb_radix_aref s addr plen).2 = (rb_radix_aref s' addr plen).2) ∧
    (entries family_example = [(ipv4_of [] 0, 41), (ipv6_default, 61)] ∧
     (rb_radix_length family_example).2 = Ret.ok 2 ∧
     (rb_radix_keys family_example).2 = Ret.ok ["0.0.0.0/0", "::/0"] ∧
     (rb_radix_search_best family_example "10.1.2.3" none).2
       = Ret.ok (some ⟨ipv4_of [] 0, 41⟩) ∧
     (rb_radix_search_exact family_example "0.0.0.0/0" none).2
       = Ret.ok (some ⟨ipv4_of [] 0, 41⟩) ∧
     rb_rn_af_get ⟨ipv4_of [] 0, 41⟩ = 4 ∧
     (rb_radix_search_best family_example "2001:db8::1" none).2
       = Ret.ok (some ⟨ipv6_default, 61⟩) ∧
     (rb_radix_search_exact family_example "::/0" none).2
       = Ret.ok (some ⟨ipv6_default, 61⟩) ∧
     rb_rn_af_get ⟨ipv6_default, 61⟩ = 6) :=
  ⟨family_frame ho hp v, family_reads ho ho' hp hsame v, by decide⟩

/-- C7 at a concrete input: storing under `"10.0.0.0/8"` in the store that holds
`::/0` only and in a new store: the two stores have the same (empty) IPv4 tree and
different IPv6 trees. -/
theorem C7_family_independence_witness :
    is_open v6_example ∧ is_open newRadixData ∧
    args_to_prefix "10.0.0.0/8" (plen_of none) = Ret.ok (some (ipv4_of [10] 8)) ∧
    picked (ipv4_of [10] 8) v6_example = picked (ipv4_of [10] 8) newRadixData ∧
    other (ipv4_of [10] 8) (rb_radix_add0 v6_example "10.0.0.0/8" none 7).1
      = other (ipv4_of [10] 8) v6_example ∧
    (rb_radix_add0 v6_example "10.0.0.0/8" none 7).2
      = (rb_radix_add0 newRadixData "10.0.0.0/8" none 7).2 :=
  ⟨by decide, by decide, by decide, by decide,
    (C7_family_independence v6_example newRadixData "10.0.0.0/8" none (ipv4_of [10] 8) 7
      (by decide) (by decide) (by decide) (by decide)).1.1,
    (C7_family_independence v6_example newRadixData "10.0.0.0/8" none (ipv4_of [10] 8) 7
      (by decide) (by decide) (by decide) (by decide)).2.1.1.1⟩

/-! ## C9: the closed store -/

theorem args_raise {addr : String} {n : Int} {e : Error}
    (h : args_to_prefix addr n = Ret.raise e) : e = Error.invalid_address := by
  unfold args_to_prefix at h
  split at h
  · cases h; rfl
  · split_ifs at h

/-- On a closed store every operation raises "closed Radix tree" and leaves the
store as it is. -/
theorem closed_all {s : radixdata} (hc : ¬ is_open s) (addr : String) (plen : Option Int)
    (v : VALUE) (bk : Block String) (bv : Block VALUE) (bp : Block (String × VALUE))
    (fuel : Nat) :
    rb_radix_add s addr plen = (s, Ret.raise Error.closed_radix) ∧
    rb_radix_add0 s addr plen v = (s, Ret.raise Error.closed_radix) ∧
    rb_radix_delete s addr plen = (s, Ret.raise Error.closed_radix) ∧
    rb_radix_search_best s addr plen = (s, Ret.raise Error.closed_radix) ∧
    rb_radix_search_exact s addr plen = (s, Ret.raise Error.closed_radix) ∧
    rb_radix_aref s addr plen = (s, Ret.raise Error.closed_radix) ∧
    rb_radix_length s = (s, Ret.raise Error.closed_radix) ∧
    rb_radix_keys s = (s, Ret.raise Error.closed_radix) ∧
    rb_radix_values s = (s, Ret.raise Error.closed_radix) ∧
    rb_radix_each_key s bk fuel = (s, [], Ret.raise Error.closed_radix) ∧
    rb_radix_each_value s bv fuel = (s, [], Ret.raise Error.closed_radix) ∧
    rb_radix_each_pair s bp fuel = (s, [], Ret.raise Error.closed_radix) ∧
    rb_radix_to_hash s = (s, Ret.raise Error.closed_radix) ∧
    rb_radix_clear s = (s, Ret.raise Error.closed_radix) := by
  have h := GetRadix_closed hc
  simp [rb_radix_add, rb_radix_add0, rb_radix_delete, rb_radix_search_best,
    rb_radix_search_exact, rb_radix_aref, rb_radix_length, rb_radix_keys, rb_radix_values,
    rb_radix_each_key, rb_radix_each_value, rb_radix_each_pair, each_walk, rb_radix_to_hash,
    rb_radix_clear, h]

theorem add0_not_closed {s : radixdata} (ho : is_open s) (addr : String) (plen : Option Int)
    (v : VALUE) : (rb_radix_add0 s addr plen v).2 ≠ Ret.raise Error.closed_radix := by
  obtain ⟨t4, t6, h4, h6⟩ := (is_open_iff s).mp ho
  cases hp : args_to_prefix addr (plen_of plen) with
  | raise e => rw [args_raise hp] at hp; simp [rb_radix_add0, GetRadix_some h4 h6, hp]
  | ok o => cases o <;> simp [rb_radix_add0, GetRadix_some h4 h6, hp]

theorem delete_not_closed {s : radixdata} (ho : is_open s) (addr : String)
    (plen : Option Int) : (rb_radix_delete s addr plen).2 ≠ Ret.raise Error.closed_radix := by
  obtain ⟨t4, t6, h4, h6⟩ := (is_open_iff s).mp ho
  cases hp : args_to_prefix addr (plen_of plen) with
  | raise e => rw [args_raise hp] at hp; simp [rb_radix_delete, GetRadix_some h4 h6, hp]
  | ok o =>
    cases o with
    | none => simp [rb_radix_delete, GetRadix_some h4 h6, hp]
    | some p =>
      simp only [rb_radix_delete, GetRadix_some h4 h6, hp]
      cases radix_search_exact (PICKRT p (t4, t6)).head p <;> simp

theorem search_best_not_closed {s : radixdata} (ho : is_open s) (addr : String)
    (plen : Option Int) : (rb_radix_search_best s addr plen).2 ≠ Ret.raise Error.closed_radix := by
  obtain ⟨t4, t6, h4, h6⟩ := (is_open_iff s).mp ho
  cases hp : args_to_prefix addr (plen_of plen) with
  | raise e => rw [args_raise hp] at hp; simp [rb_radix_search_best, GetRadix_some h4 h6, hp]
  | ok o => cases o <;> simp [rb_radix_search_best, GetRadix_some h4 h6, hp]

theorem search_exact_not_closed {s : radixdata} (ho : is_open s) (addr : String)
    (plen : Option Int) :
    (rb_radix_search_exact s addr plen).2 ≠ Ret.raise Error.closed_radix := by
  obtain ⟨t4, t6, h4, h6⟩ := (is_open_iff s).mp ho
  cases hp : args_to_prefix addr (plen_of plen) with
  | raise e => rw [args_raise hp] at hp; simp [rb_radix_search_exact, GetRadix_some h4 h6, hp]
  | ok o => cases o <;> simp [rb_radix_search_exact, GetRadix_some h4 h6, hp]

/-- On an open store no operation raises "closed Radix tree". -/
theorem open_all {s : radixdata} (ho : is_open s) (addr : String) (plen : Option Int)
    (v : VALUE) (bk : Block String) (bv : Block VALUE) (bp : Block (String × VALUE))
    (fuel : Nat) :
    (rb_radix_add s addr plen).2 ≠ Ret.raise Error.closed_radix ∧
    (rb_radix_add0 s addr plen v).2 ≠ Ret.raise Error.closed_radix ∧
    (rb_radix_delete s addr plen).2 ≠ Ret.raise Error.closed_radix ∧
    (rb_radix_search_best s addr plen).2 ≠ Ret.raise Error.closed_radix ∧
    (rb_radix_search_exact s addr plen).2 ≠ Ret.raise Error.closed_radix ∧
    (rb_radix_aref s addr plen).2 ≠ Ret.raise Error.closed_radix ∧
    (rb_radix_length s).2 ≠ Ret.raise Error.closed_radix ∧
    (rb_radix_keys s).2 ≠ Ret.raise Error.closed_radix ∧
    (rb_radix_values s).2 ≠ Ret.raise Error.closed_radix ∧
    (rb_radix_each_key s bk fuel).2.2 ≠ Ret.raise Error.closed_radix ∧
    (rb_radix_each_value s bv fuel).2.2 ≠ Ret.raise Error.closed_radix ∧
    (rb_radix_each_pair s bp fuel).2.2 ≠ Ret.raise Error.closed_radix ∧
    (rb_radix_to_hash s).2 ≠ Ret.raise Error.closed_radix ∧
    (rb_radix_clear s).2 ≠ Ret.raise Error.closed_radix := by
  obtain ⟨hk, hv, hh, hl⟩ := buffered_ok ho
  obtain ⟨t4, t6, h4, h6⟩ := (is_open_iff s).mp ho
  refine ⟨by rw [add_eq_add0]; exact add0_not_closed ho addr plen Qtrue,
    add0_not_closed ho addr plen v, delete_not_closed ho addr plen,
    search_best_not_closed ho addr plen, search_exact_not_closed ho addr plen,
    search_best_not_closed ho addr plen, by rw [hl]; simp, by rw [hk]; simp, by rw [hv]; simp,
    each_walk_not_closed ho _ bk fuel, each_walk_not_closed ho _ bv fuel,
    each_walk_not_closed ho _ bp fuel,
    by rw [hh]; simp, by simp [rb_radix_clear, GetRadix_some h4 h6]⟩

/-- C9: for every public operation of the store (`add`, `[]=`, `delete`,
`search_best`, `search_exact`, `[]`, `length`, `keys`, `values`, `each_key`,
`each_value`, `each_pair`, `to_hash`, `clear`): if the IPv4 tree or the IPv6 tree of
the store is absent, the operation raises "closed Radix tree", yields nothing and
leaves the store unchanged; on an open store, an empty one included, the operation
does not raise "closed Radix tree". -/
theorem C9_closed_store (s : radixdata) (addr : String) (plen : Option Int) (v : VALUE)
    (bk : Block String) (bv : Block VALUE) (bp : Block (String × VALUE)) (fuel : Nat) :
    (¬ is_open s →
      rb_radix_add s addr plen = (s, Ret.raise Error.closed_radix) ∧
      rb_radix_add0 s addr plen v = (s, Ret.raise Error.closed_radix) ∧
      rb_radix_delete s addr plen = (s, Ret.raise Error.closed_radix) ∧
      rb_radix_search_best s addr plen = (s, Ret.raise Error.closed_radix) ∧
      rb_radix_search_exact s addr plen = (s, Ret.raise Error.closed_radix) ∧
      rb_radix_aref s addr plen = (s, Ret.raise Error.closed_radix) ∧
      rb_radix_length s = (s, Ret.raise Error.closed_radix) ∧
      rb_radix_keys s = (s, Ret.raise Error.closed_radix) ∧
      rb_radix_values s = (s, Ret.raise Error.closed_radix) ∧
      rb_radix_each_key s bk fuel = (s, [], Ret.raise Error.closed_radix) ∧
      rb_radix_each_value s bv fuel = (s, [], Ret.raise Error.closed_radix) ∧
      rb_radix_each_pair s bp fuel = (s, [], Ret.raise Error.closed_radix) ∧
      rb_radix_to_hash s = (s, Ret.raise Error.closed_radix) ∧
      rb_radix_clear s = (s, Ret.raise Error.closed_radix)) ∧
    (is_open s →
      (rb_radix_add s addr plen).2 ≠ Ret.raise Error.closed_radix ∧
      (rb_radix_add0 s addr plen v).2 ≠ Ret.raise Error.closed_radix ∧
      (rb_radix_delete s addr plen).2 ≠ Ret.raise Error.closed_radix ∧
      (rb_radix_search_best s addr plen).2 ≠ Ret.raise Error.closed_radix ∧
      (rb_radix_search_exact s addr plen).2 ≠ Ret.raise Error.closed_radix ∧
      (rb_radix_aref s addr plen).2 ≠ Ret.raise Error.closed_radix ∧
      (rb_radix_length s).2 ≠ Ret.raise Error.closed_radix ∧
      (rb_radix_keys s).2 ≠ Ret.raise Error.closed_radix ∧
      (rb_radix_values s).2 ≠ Ret.raise Error.closed_radix ∧
      (rb_radix_each_key s bk fuel).2.2 ≠ Ret.raise Error.closed_radix ∧
      (rb_radix_each_value s bv fuel).2.2 ≠ Ret.raise Error.closed_radix ∧
      (rb_radix_each_pair s bp fuel).2.2 ≠ Ret.raise Error.closed_radix ∧
      (rb_radix_to_hash s).2 ≠ Ret.raise Error.closed_radix ∧
      (rb_radix_clear s).2 ≠ Ret.raise Error.closed_radix) :=
  ⟨fun hc => closed_all hc addr plen v bk bv bp fuel,
   fun ho => open_all ho addr plen v bk bv bp fuel⟩

/-- C9 at concrete inputs: the documented example store with its IPv6 tree
released is closed, and `length` and `delete` on it raise "closed Radix tree"; a new
(empty) store is open, and `length` and `keys` on it do not. -/
theorem C9_closed_store_witness :
    ¬ is_open ⟨doc_example.rt4, none, doc_example.gen_id⟩ ∧
    rb_radix_length ⟨doc_example.rt4, none, doc_example.gen_id⟩
      = (⟨doc_example.rt4, none, doc_example.gen_id⟩, Ret.raise Error.closed_radix) ∧
    rb_radix_delete ⟨doc_example.rt4, none, doc_example.gen_id⟩ "172.16.0.0/16" none
      = (⟨doc_example.rt4, none, doc_example.gen_id⟩, Ret.raise Error.closed_radix) ∧
    is_open newRadixData ∧
    (rb_radix_length newRadixData).2 ≠ Ret.raise Error.closed_radix ∧
    (rb_radix_keys newRadixData).2 ≠ Ret.raise Error.closed_radix :=
  ⟨by decide,
    ((C9_closed_store ⟨doc_example.rt4, none, doc_example.gen_id⟩ "172.16.0.0/16" none 0
      (adding_block String) (adding_block VALUE) (adding_block (String × VALUE)) 8).1
        (by decide)).2.2.2.2.2.2.1,
    ((C9_closed_store ⟨doc_example.rt4, none, doc_example.gen_id⟩ "172.16.0.0/16" none 0
      (adding_block String) (adding_block VALUE) (adding_block (String × VALUE)) 8).1
        (by decide)).2.2.1,
    by decide,
    ((C9_closed_store newRadixData "172.16.0.0/16" none 0
      (adding_block String) (adding_block VALUE) (adding_block (String × VALUE)) 8).2
        (by decide)).2.2.2.2.2.2.1,
    ((C9_closed_store newRadixData "172.16.0.0/16" none 0
      (adding_block String) (adding_block VALUE) (adding_block (String × VALUE)) 8).2
        (by decide)).2.2.2.2.2.2.2.1⟩

/-! ## C11: a stored null word -/

/-- After `[]=` stores the null word under a valid prefix, the exact search for the
prefix returns nil. -/
theorem add0_null_search_exact {s : radixdata} (ho : is_open s) {addr : String}
    {plen : Option Int} {p : prefix_t}
    (hp : args_to_prefix addr (plen_of plen) = Ret.ok (some p)) :
    (rb_radix_search_exact (rb_radix_add0 s addr plen Qfalse).1 addr plen).2 = Ret.ok none := by
  obtain ⟨T, hT⟩ := picked_open (p := p) ho
  rw [add0_open ho hp hT]
  rw [search_exact_open (open_bump (open_SETRT p ho _)) hp (by rw [picked_bump, picked_SETRT])]
  obtain ⟨q, d, hn⟩ := search_exact_node (search_exact_lookup T.head p)
  simp [node_entry, search_exact_set_data, search_exact_lookup, node_at_set_data hn, Qfalse]

/-- The node of the key after `[]=`: the only node of the store with that key, and it
holds the value stored. -/
theorem add0_node {s : radixdata} (ho : is_open s) (hinv : store_inv s) {addr : String}
    {plen : Option Int} {p : prefix_t}
    (hp : args_to_prefix addr (plen_of plen) = Ret.ok (some p)) (v : VALUE) :
    ∃ q, same_key q p ∧ (q, v) ∈ picked_walk p (rb_radix_add0 s addr plen v).1 ∧
      (entries (rb_radix_add0 s addr plen v).1).filter (fun e => decide (same_entry e.1 p))
        = [(q, v)] := by
  obtain ⟨l1, l2, q, e1, hk, -⟩ := add0_effect ho hinv hp v
  exact ⟨q, hk, by rw [e1]; simp,
    filter_entries (open_add0 ho addr plen v) (store_inv_add0 ho hinv addr plen v)
      (args_family hp) e1 hk⟩

/-- After `[]=` stores the null word under a valid prefix, the best search for the
prefix returns nil: the longest stored prefix that contains it is the prefix itself,
and its `data` is null. -/
theorem add0_null_search_best {s : radixdata} (ho : is_open s) (hinv : store_inv s)
    {addr : String} {plen : Option Int} {p : prefix_t}
    (hp : args_to_prefix addr (plen_of plen) = Ret.ok (some p)) :
    (rb_radix_search_best (rb_radix_add0 s addr plen Qfalse).1 addr plen).2 = Ret.ok none := by
  have hf := args_family hp
  have ho' := open_add0 ho addr plen Qfalse
  have hinv' := store_inv_add0 ho hinv addr plen Qfalse
  obtain ⟨q0, hk0, hm0, -⟩ := add0_node ho hinv hp Qfalse
  have he0 := (mem_entries_family ho' hinv' hf (q0, Qfalse)).mpr hm0
  have hh0 : holds q0 p := ⟨he0.2, hk0.1.le, hk0.2⟩
  obtain ⟨q, d, hqe, hh, hmax, hres⟩ :=
    (search_best_result ho' hinv' hp).2 ⟨(q0, Qfalse), he0.1, hh0⟩
  have hlen : q.bitlen = p.bitlen := by
    have h1 := hmax (q0, Qfalse) he0.1 hh0
    have h2 := hh.2.1
    have h3 := hk0.1
    simp only at h1
    omega
  have hkq : same_key q p := ⟨hlen, hh.2.2⟩
  have hm : (q, d) ∈ picked_walk p (rb_radix_add0 s addr plen Qfalse).1 :=
    (mem_entries_family ho' hinv' hf (q, d)).mp ⟨hqe, hh.1⟩
  have heq : (q, d) = (q0, Qfalse) :=
    same_key_unique (picked_walk_distinct ho' hinv' hf) hm hm0
      (same_key_trans hkq (same_key_symm hk0))
  have hd : d = 0 := by
    have := congrArg Prod.snd heq
    simpa [Qfalse] using this
  rw [hres, hd]
  rfl

theorem live_filter_keep (f : prefix_t × VALUE → Bool) {l : List (prefix_t × VALUE)}
    (h : ∀ x ∈ l, f x = true) : (live l).filter f = live l := by
  rw [List.filter_eq_self]
  intro x hx
  exact h x (List.mem_of_mem_filter hx)

theorem live_filter_drop (f : prefix_t × VALUE → Bool) {l1 l2 : List (prefix_t × VALUE)}
    {q : prefix_t} {d : VALUE} (h1 : ∀ x ∈ l1, f x = true) (h2 : ∀ x ∈ l2, f x = true)
    (hq : f (q, d) = false) : (live (l1 ++ (q, d) :: l2)).filter f = live l1 ++ live l2 := by
  have e1 := live_filter_keep f h1
  have e2 := live_filter_keep f h2
  by_cases hd : d = 0
  · simp [live, List.filter_cons, hd] at e1 e2 ⊢
    rw [e1, e2]
  · simp [live, List.filter_cons, hd, hq] at e1 e2 ⊢
    rw [e1, e2]

theorem live_null (l1 l2 : List (prefix_t × VALUE)) (q : prefix_t) :
    live (l1 ++ (q, 0) :: l2) = live l1 ++ live l2 := by
  simp [live, List.filter_cons]

/-- What the walks see after `[]=` stores the null word under a valid prefix: the
nodes with a value they saw before, without the node of that prefix. -/
theorem live_add0_null {s : radixdata} (ho : is_open s) (hinv : store_inv s) {addr : String}
    {plen : Option Int} {p : prefix_t}
    (hp : args_to_prefix addr (plen_of plen) = Ret.ok (some p)) :
    live (entries (rb_radix_add0 s addr plen Qfalse).1)
      = (live (entries s)).filter (fun e => !decide (same_entry e.1 p)) := by
  have hf := args_family hp
  have ho' := open_add0 ho addr plen Qfalse
  have hoth : (live (other_walk p s)).filter (fun e => !decide (same_entry e.1 p))
      = live (other_walk p s) := by
    apply live_filter_keep
    intro x hx
    simp only [Bool.not_eq_true', decide_eq_false_iff_not]
    intro hx'
    unfold other_walk at hx
    cases ht : other p s with
    | none => rw [ht] at hx; simp at hx
    | some t =>
      rw [ht] at hx
      exact store_inv_other hf hinv ht x.1 (mem_stored_of_mem_walk hx) hx'.1
  have hpick : live (picked_walk p (rb_radix_add0 s addr plen Qfalse).1)
      = (live (picked_walk p s)).filter (fun e => !decide (same_entry e.1 p)) := by
    obtain ⟨l1, l2, q, e1, hk, hcase⟩ := add0_effect ho hinv hp Qfalse
    rw [e1]
    simp only [Qfalse, live_null]
    rcases hcase with ⟨e0, -, hno⟩ | ⟨d, e3⟩
    · rw [e0, live_filter_keep, live_append]
      intro x hx
      simp only [Bool.not_eq_true', decide_eq_false_iff_not]
      intro hx'
      exact hno x (by rw [e0]; exact hx) hx'.2
    · have hd := picked_walk_distinct ho hinv hf (p := p)
      rw [e3] at hd
      have hq : q.family = p.family :=
        ((mem_entries_family ho hinv hf (q, d)).mpr (by rw [e3]; simp)).2
      rw [e3]
      symm
      apply live_filter_drop
      · intro x hx
        simp only [Bool.not_eq_true', decide_eq_false_iff_not]
        intro hx'
        rw [List.pairwise_append] at hd
        exact hd.2.2 x hx (q, d) (by simp) (same_key_trans hx'.2 (same_key_symm hk))
      · intro x hx
        simp only [Bool.not_eq_true', decide_eq_false_iff_not]
        intro hx'
        rw [List.pairwise_append, List.pairwise_cons] at hd
        exact hd.2.1.1 x hx (same_key_trans hk (same_key_symm hx'.2))
      · simp [same_entry, hq, hk]
  rw [entries_eq p ho', entries_eq p ho, other_walk_add0 ho hp]
  split_ifs
  · rw [live_append, live_append, List.filter_append, hoth, hpick]
  · rw [live_append, live_append, List.filter_append, hoth, hpick]

/-- After `[]=` stores the null word under a valid prefix, no node the walks take
has the key of that prefix. -/
theorem live_add0_null_skip {s : radixdata} (ho : is_open s) (hinv : store_inv s)
    {addr : String} {plen : Option Int} {p : prefix_t}
    (hp : args_to_prefix addr (plen_of plen) = Ret.ok (some p)) :
    ∀ e ∈ live (entries (rb_radix_add0 s addr plen Qfalse).1), ¬ same_entry e.1 p := by
  intro e he
  rw [live_add0_null ho hinv hp] at he
  have := (List.mem_filter.mp he).2
  simpa using this

/-- C11: a stored value whose machine word is 0 (the null pointer, Ruby's `false`)
is not told apart from no value by the reads: for every open store (satisfying the
store invariant) and every valid prefix P, after `r[P] = false` the generation, an
`unsigned int`, is incremented by one (modulo 2^32) and exactly one node for P
exists in the tree, holding the null word; yet `search_exact(P)`, `search_best(P)`
and `r[P]` return absent, and `length`, `keys`, `values`, `to_hash` are computed from
the nodes with a value, which are those of before without P; `each_key`,
`each_value` and `each_pair`, with a block that leaves the store as it is, yield
elements of those nodes only, however many passes the walk is given; with a block
that also lets the walk go on, and as many passes as a tree has nodes, they yield
the elements of all those nodes, in walk order, and return normally. -/
theorem C11_null_value_skipped (s : radixdata) (addr : String) (plen : Option Int)
    (p : prefix_t) (bk : Block String) (bv : Block VALUE) (bp : Block (String × VALUE))
    (fuel : Nat) (ho : is_open s) (hinv : store_inv s)
    (hp : args_to_prefix addr (plen_of plen) = Ret.ok (some p)) :
    ((rb_radix_add0 s addr plen Qfalse).1.gen_id = (s.gen_id + 1) % UINT_MOD ∧
     (rb_radix_add0 s addr plen Qfalse).1.gen_id ≠ s.gen_id ∧
     (s.gen_id + 1 < UINT_MOD → (rb_radix_add0 s addr plen Qfalse).1.gen_id = s.gen_id + 1)) ∧
    (∃ q, same_key q p ∧
      (entries (rb_radix_add0 s addr plen Qfalse).1).filter
        (fun e => decide (same_entry e.1 p)) = [(q, 0)]) ∧
    ((rb_radix_search_exact (rb_radix_add0 s addr plen Qfalse).1 addr plen).2 = Ret.ok none ∧
     (rb_radix_search_best (rb_radix_add0 s addr plen Qfalse).1 addr plen).2 = Ret.ok none ∧
     (rb_radix_aref (rb_radix_add0 s addr plen Qfalse).1 addr plen).2 = Ret.ok none) ∧
    ((∀ e ∈ live (entries (rb_radix_add0 s addr plen Qfalse).1), ¬ same_entry e.1 p) ∧
     live (entries (rb_radix_add0 s addr plen Qfalse).1)
       = (live (entries s)).filter (fun e => !decide (same_entry e.1 p))) ∧
    ((rb_radix_length (rb_radix_add0 s addr plen Qfalse).1).2
       = Ret.ok (live (entries (rb_radix_add0 s addr plen Qfalse).1)).length ∧
     (rb_radix_keys (rb_radix_add0 s addr plen Qfalse).1).2
       = Ret.ok ((live (entries (rb_radix_add0 s addr plen Qfalse).1)).map
           (fun x => prefix_ntop x.1)) ∧
     (rb_radix_values (rb_radix_add0 s addr plen Qfalse).1).2
       = Ret.ok ((live (entries (rb_radix_add0 s addr plen Qfalse).1)).map (fun x => x.2)) ∧
     (rb_radix_to_hash (rb_radix_add0 s addr plen Qfalse).1).2
       = Ret.ok ((live (entries (rb_radix_add0 s addr plen Qfalse).1)).foldl
           (fun h x => hash_aset h (prefix_ntop x.1) x.2) [])) ∧
    (((∀ x st, (bk x st).1 = st) →
       ∀ y ∈ (rb_radix_each_key (rb_radix_add0 s addr plen Qfalse).1 bk fuel).2.1,
         ∃ e ∈ live (entries (rb_radix_add0 s addr plen Qfalse).1), y = prefix_ntop e.1) ∧
     ((∀ x st, (bv x st).1 = st) →
       ∀ y ∈ (rb_radix_each_value (rb_radix_add0 s addr plen Qfalse).1 bv fuel).2.1,
         ∃ e ∈ live (entries (rb_radix_add0 s addr plen Qfalse).1), y = e.2) ∧
     ((∀ x st, (bp x st).1 = st) →
       ∀ y ∈ (rb_radix_each_pair (rb_radix_add0 s addr plen Qfalse).1 bp fuel).2.1,
         ∃ e ∈ live (entries (rb_radix_add0 s addr plen Qfalse).1),
           y = (prefix_ntop e.1, e.2))) ∧
    (store_ord s → ∀ t4 t6, (rb_radix_add0 s addr plen Qfalse).1.rt4 = some t4 →
       (rb_radix_add0 s addr plen Qfalse).1.rt6 = some t6 →
       node_count t4.head ≤ fuel → node_count t6.head ≤ fuel →
       ((∀ x st, bk x st = (st, Yield.next)) →
         rb_radix_each_key (rb_radix_add0 s addr plen Qfalse).1 bk fuel
           = ((rb_radix_add0 s addr plen Qfalse).1,
              (live (entries (rb_radix_add0 s addr plen Qfalse).1)).map
                (fun e => prefix_ntop e.1), Ret.ok ())) ∧
       ((∀ x st, bv x st = (st, Yield.next)) →
         rb_radix_each_value (rb_radix_add0 s addr plen Qfalse).1 bv fuel
           = ((rb_radix_add0 s addr plen Qfalse).1,
              (live (entries (rb_radix_add0 s addr plen Qfalse).1)).map (fun e => e.2),
              Ret.ok ())) ∧
       ((∀ x st, bp x st = (st, Yield.next)) →
         rb_radix_each_pair (rb_radix_add0 s addr plen Qfalse).1 bp fuel
           = ((rb_radix_add0 s addr plen Qfalse).1,
              (live (entries (rb_radix_add0 s addr plen Qfalse).1)).map
                (fun e => (prefix_ntop e.1, e.2)), Ret.ok ()))) := by
  have ho' := open_add0 ho addr plen Qfalse
  have hg := add0_generation ho hinv hp Qfalse
  obtain ⟨q, hq, -, hfil⟩ := add0_node ho hinv hp Qfalse
  obtain ⟨hkeys, hvals, hhash, hlen⟩ := buffered_ok ho'
  exact ⟨⟨hg.1, hg.2.1, hg.2.2.1⟩, ⟨q, hq, hfil⟩,
    ⟨add0_null_search_exact ho hp, add0_null_search_best ho hinv hp,
      add0_null_search_best ho hinv hp⟩,
    ⟨live_add0_null_skip ho hinv hp, live_add0_null ho hinv hp⟩,
    ⟨hlen, hkeys, hvals, hhash⟩,
    ⟨fun h => each_walk_readonly ho' _ h fuel, fun h => each_walk_readonly ho' _ h fuel,
      fun h => each_walk_readonly ho' _ h fuel⟩,
    fun hord t4 t6 h4 h6 hf4 hf6 =>
      ⟨fun h => each_walk_all h4 h6 (store_inv_add0 ho hinv addr plen Qfalse)
          (store_ord_add0 ho hinv hord addr plen Qfalse) _ h hf4 hf6,
       fun h => each_walk_all h4 h6 (store_inv_add0 ho hinv addr plen Qfalse)
          (store_ord_add0 ho hinv hord addr plen Qfalse) _ h hf4 hf6,
       fun h => each_walk_all h4 h6 (store_inv_add0 ho hinv addr plen Qfalse)
          (store_ord_add0 ho hinv hord addr plen Qfalse) _ h hf4 hf6⟩⟩

/-- C11 at a concrete input: on the documented example store, `r["172.16.0.0/16"] =
false` moves the generation from 3 to 4 and keeps the node, now holding the null
word; `search_exact` and `search_best` of the prefix are nil, `length` is 2, `keys`
lists the two other prefixes, and `each_pair` with a block that only looks yields
the pairs of those two and returns normally. -/
theorem C11_null_value_skipped_witness :
    is_open doc_example ∧ store_inv doc_example ∧
    args_to_prefix "172.16.0.0/16" (plen_of none) = Ret.ok (some (ipv4_of [172, 16] 16)) ∧
    doc_example.gen_id = 3 ∧
    (rb_radix_add0 doc_example "172.16.0.0/16" none Qfalse).1.gen_id = (3 + 1) % UINT_MOD ∧
    entries (rb_radix_add0 doc_example "172.16.0.0/16" none Qfalse).1
      = [(ipv4_of [172, 16] 16, 0), (ipv4_of [172, 31] 16, Qtrue),
         (ipv4_of [192, 168, 0] 24, Qtrue)] ∧
    (rb_radix_search_exact (rb_radix_add0 doc_example "172.16.0.0/16" none Qfalse).1
      "172.16.0.0/16" none).2 = Ret.ok none ∧
    (rb_radix_search_best (rb_radix_add0 doc_example "172.16.0.0/16" none Qfalse).1
      "172.16.0.0/16" none).2 = Ret.ok none ∧
    (rb_radix_length (rb_radix_add0 doc_example "172.16.0.0/16" none Qfalse).1).2
      = Ret.ok (live (entries (rb_radix_add0 doc_example "172.16.0.0/16" none Qfalse).1)).length ∧
    (live (entries (rb_radix_add0 doc_example "172.16.0.0/16" none Qfalse).1)).length = 2 ∧
    (rb_radix_keys (rb_radix_add0 doc_example "172.16.0.0/16" none Qfalse).1).2
      = Ret.ok ["172.31.0.0/16", "192.168.0.0/24"] ∧
    (∀ y ∈ (rb_radix_each_pair (rb_radix_add0 doc_example "172.16.0.0/16" none Qfalse).1
        (fun _ st => (st, Yield.next)) 8).2.1,
      ∃ e ∈ live (entries (rb_radix_add0 doc_example "172.16.0.0/16" none Qfalse).1),
        y = (prefix_ntop e.1, e.2)) ∧
    rb_radix_each_pair (rb_radix_add0 doc_example "172.16.0.0/16" none Qfalse).1
        (fun _ st => (st, Yield.next)) 8
      = ((rb_radix_add0 doc_example "172.16.0.0/16" none Qfalse).1,
         [("172.31.0.0/16", Qtrue), ("192.168.0.0/24", Qtrue)], Ret.ok ()) :=
  ⟨by decide, by decide, by decide, by decide,
    (C11_null_value_skipped doc_example "172.16.0.0/16" none (ipv4_of [172, 16] 16)
      (fun _ st => (st, Yield.next)) (fun _ st => (st, Yield.next))
      (fun _ st => (st, Yield.next)) 8 (by decide) (by decide) (by decide)).1.1,
    by decide,
    (C11_null_value_skipped doc_example "172.16.0.0/16" none (ipv4_of [172, 16] 16)
      (fun _ st => (st, Yield.next)) (fun _ st => (st, Yield.next))
      (fun _ st => (st, Yield.next)) 8 (by decide) (by decide) (by decide)).2.2.1.1,
    (C11_null_value_skipped doc_example "172.16.0.0/16" none (ipv4_of [172, 16] 16)
      (fun _ st => (st, Yield.next)) (fun _ st => (st, Yield.next))
      (fun _ st => (st, Yield.next)) 8 (by decide) (by decide) (by decide)).2.2.1.2.1,
    (C11_null_value_skipped doc_example "172.16.0.0/16" none (ipv4_of [172, 16] 16)
      (fun _ st => (st, Yield.next)) (fun _ st => (st, Yield.next))
      (fun _ st => (st, Yield.next)) 8 (by decide) (by decide) (by decide)).2.2.2.2.1.1,
    by decide, by decide,
    (C11_null_value_skipped doc_example "172.16.0.0/16" none (ipv4_of [172, 16] 16)
      (fun _ st => (st, Yield.next)) (fun _ st => (st, Yield.next))
      (fun _ st => (st, Yield.next)) 8 (by decide) (by decide) (by decide)).2.2.2.2.2.1.2.2
        (fun _ _ => rfl),
    (((C11_null_value_skipped doc_example "172.16.0.0/16" none (ipv4_of [172, 16] 16)
      (fun _ st => (st, Yield.next)) (fun _ st => (st, Yield.next))
      (fun _ st => (st, Yield.next)) 8 (by decide) (by decide) (by decide)).2.2.2.2.2.2
        (by decide)
        ((rb_radix_add0 doc_example "172.16.0.0/16" none Qfalse).1.rt4.getD New_Radix)
        ((rb_radix_add0 doc_example "172.16.0.0/16" none Qfalse).1.rt6.getD New_Radix)
        (by decide) (by decide) (by decide) (by decide)).2.2 (fun _ _ => rfl)).trans
      (by decide)⟩

end Radix
